import Mathlib

/-!
A shallow embedding of the `skip_list` Rust crate (`src/lib.rs`) and proofs of
the specification's claims about it.

The raw-pointer node graph is modelled as an arena: nodes carry stable natural
identifiers, the container's store maps identifiers to nodes, and every
`NonNull<Node<K, V>>` forward pointer becomes an `Option Nat` identifier.  The
sentinel ("sigil") node never has its key or value read in the source, so it is
represented by the container's own `headNext` forward-pointer array; every
stored node has an initialised key and value.  Operations that can panic in
Rust (out-of-bounds indexing into a forward-pointer vector, `gen_range` on an
empty range, dereferencing a dangling pointer) return `Option`, with `none`
standing for the panic.  The crate's source of randomness (`rand`'s
`gen_range(1..max_level)`) is modelled by an explicit natural-number draw
passed to `insert`.
-/

set_option linter.unusedVariables false

namespace SkipListRs

/-- A skip-list node: `Node<K, V>` from the source.  `key`/`value` are the
`MaybeUninit` payloads (always initialised for non-sentinel nodes), `level` is
the node's allocated level, and `next` is the forward-pointer vector of length
`max_level`, one optional successor identifier per level. -/
structure Node (K V : Type) where
  key : K
  value : V
  level : Nat
  next : List (Option Nat)
deriving DecidableEq

/-- Look up a node by identifier in the allocation store (dereference a
pointer; `none` models a dangling pointer). -/
def findNode {K V : Type} (ns : List (Nat × Node K V)) (i : Nat) : Option (Node K V) :=
  (ns.find? fun p => p.1 == i).map Prod.snd

/-- Overwrite the node stored at identifier `i` (an in-place `*ptr = n`
mutation). -/
def setNode {K V : Type} (ns : List (Nat × Node K V)) (i : Nat) (n : Node K V) :
    List (Nat × Node K V) :=
  ns.map fun p => if p.1 == i then (i, n) else p

/-- Remove the node stored at identifier `i` (a `Box::from_raw` deallocation). -/
def eraseNode {K V : Type} (ns : List (Nat × Node K V)) (i : Nat) :
    List (Nat × Node K V) :=
  ns.filter fun p => p.1 != i

/-- The struct `SkipList<K, V>` from the source.  `headNext` is the sentinel node's
forward-pointer vector (its key/value are never read and so are not modelled),
`nodes` is the allocation store of all live non-sentinel nodes, `fresh` is the
next unused node identifier, and `len`, `level`, `max_level` are the scalar
fields of the Rust struct. -/
structure SkipList (K V : Type) where
  headNext : List (Option Nat)
  nodes : List (Nat × Node K V)
  fresh : Nat
  len : Nat
  level : Nat
  max_level : Nat
deriving DecidableEq

/-- Model of `SkipList::new(max_level)`: a sentinel with `max_level` empty forward
slots, no entries, `level = 0`. -/
def SkipList.new (K V : Type) (m : Nat) : SkipList K V :=
  { headNext := List.replicate m none
    nodes := []
    fresh := 0
    len := 0
    level := 0
    max_level := m }

/-- Read the forward pointer at level `l` of the position `p` (`none` = the
sentinel head).  The outer `Option` is a panic (index out of bounds or dangling
identifier); the inner `Option Nat` is the pointer itself. -/
def nextAt {K V : Type} (s : SkipList K V) (p : Option Nat) (l : Nat) :
    Option (Option Nat) :=
  match p with
  | none => s.headNext.get? l
  | some i => (findNode s.nodes i).bind fun n => n.next.get? l

/-- Write the forward pointer at level `l` of position `p` (`none` = the
sentinel head) to `t`; fails (panics) if the index is out of bounds or the
identifier dangles. -/
def setNextAt {K V : Type} (s : SkipList K V) (p : Option Nat) (l : Nat)
    (t : Option Nat) : Option (SkipList K V) :=
  match p with
  | none =>
    if l < s.headNext.length then some { s with headNext := s.headNext.set l t }
    else none
  | some i =>
    match findNode s.nodes i with
    | none => none
    | some n =>
      if l < n.next.length then
        some { s with nodes := setNode s.nodes i { n with next := n.next.set l t } }
      else none

/-- The list of node identifiers reached by following level-`l` forward
pointers from position `p` (exclusive).  `fuel` bounds the walk; running out of
fuel, an out-of-bounds index or a dangling identifier yields `none`. -/
def chainF {K V : Type} (s : SkipList K V) (l : Nat) : Nat → Option Nat → Option (List Nat)
  | 0, _ => none
  | fuel + 1, p =>
    match nextAt s p l with
    | none => none
    | some none => some []
    | some (some j) => (chainF s l fuel (some j)).map (j :: ·)

/-- The full level-`l` chain of the list, starting at the sentinel.  The fuel
`s.nodes.length + 1` suffices for any acyclic chain. -/
def chain {K V : Type} (s : SkipList K V) (l : Nat) : Option (List Nat) :=
  chainF s l (s.nodes.length + 1) none

/-- Result of the per-level forward scan shared by `get`, `insert` and
`delete`: either a node with key equal to the target was hit (`found`, carrying
the node identifier, the node, and the position just before it), or the scan
stopped (`stop`) at the last position whose successor is absent or has a key
not below the target. -/
inductive ScanRes (K V : Type) where
  | found (j : Nat) (n : Node K V) (p : Option Nat)
  | stop (p : Option Nat)
deriving DecidableEq

/-- The source's inner `while let Some(next) = node.next[l]` loop: advance
while the next key is strictly below `k`, report `found` on an equal key,
`stop` otherwise. -/
def scanLevel {K V : Type} [LinearOrder K] (s : SkipList K V) (k : K) (l : Nat) :
    Nat → Option Nat → Option (ScanRes K V)
  | 0, _ => none
  | fuel + 1, p =>
    match nextAt s p l with
    | none => none
    | some none => some (.stop p)
    | some (some j) =>
      match findNode s.nodes j with
      | none => none
      | some n =>
        if n.key = k then some (.found j n p)
        else if n.key < k then scanLevel s k l fuel (some j)
        else some (.stop p)

/-- The level-descent loop of `SkipList::get`: scan levels `l - 1` down to `0`,
returning the found node's value, or `none` once the loop finishes. -/
def getLoop {K V : Type} [LinearOrder K] (s : SkipList K V) (k : K) :
    Nat → Option Nat → Option (Option V)
  | 0, _ => some none
  | l + 1, p =>
    match scanLevel s k l (s.nodes.length + 1) p with
    | none => none
    | some (.found _ n _) => some (some n.value)
    | some (.stop q) => getLoop s k l q

/-- Model of `SkipList::get`: `some (some v)` when the key is present with value `v`,
`some none` when absent, `none` on a panic. -/
def SkipList.get {K V : Type} [LinearOrder K] (s : SkipList K V) (k : K) :
    Option (Option V) :=
  getLoop s k s.level none

/-- Result of the `insert` descent: a node with an equal key was found (the
update path returns it at once), or the descent completed with the per-level
predecessor array `updates` (entry `some p` records predecessor position `p`;
`none` means that slot was never written). -/
inductive DescRes (K V : Type) where
  | found (j : Nat) (n : Node K V)
  | missing (updates : List (Option (Option Nat)))
deriving DecidableEq

/-- The descent loop of `SkipList::insert`: scan levels `l - 1` down to `0`,
returning early on an equal key, otherwise recording `updates[l] = Some(node)`
after each level's scan. -/
def insertLoop {K V : Type} [LinearOrder K] (s : SkipList K V) (k : K) :
    Nat → Option Nat → List (Option (Option Nat)) → Option (DescRes K V)
  | 0, _, updates => some (.missing updates)
  | l + 1, p, updates =>
    match scanLevel s k l (s.nodes.length + 1) p with
    | none => none
    | some (.found j n _) => some (.found j n)
    | some (.stop q) => insertLoop s k l q (updates.set l (some q))

/-- Model of `SkipList::random_level`: models `rand::thread_rng().gen_range(1..self.max_level)`
with an explicit draw `r`; `gen_range` panics on an empty range
(`max_level ≤ 1`), and otherwise returns a value in `[1, max_level)`, uniform
when `r` is a uniform residue. -/
def SkipList.random_level {K V : Type} (s : SkipList K V) (r : Nat) : Option Nat :=
  if s.max_level ≤ 1 then none else some (1 + r % (s.max_level - 1))

/-- One splice step of the insert linking loop at level `l`:
`node.next[l] = ln.next[l]; ln.next[l] = Some(node)` where `nid` is the new
node and `ln` the recorded predecessor position. -/
def spliceAt {K V : Type} (s : SkipList K V) (nid : Nat) (ln : Option Nat)
    (l : Nat) : Option (SkipList K V) := do
  let t ← nextAt s ln l
  let s1 ← setNextAt s (some nid) l t
  setNextAt s1 ln l (some nid)

/-- The linking loop of `SkipList::insert`:
`for (l, ln) in updates.iter_mut().enumerate().take(level)`, splicing the new
node after each recorded predecessor. -/
def linkList {K V : Type} (nid : Nat) :
    SkipList K V → List (Nat × Option (Option Nat)) → Option (SkipList K V)
  | s, [] => some s
  | s, (_, none) :: rest => linkList nid s rest
  | s, (l, some ln) :: rest => (spliceAt s nid ln l).bind (linkList nid · rest)

/-- Raise the predecessor array for a level increase:
`for node in updates.iter_mut().take(level).skip(self.level) { node.replace(self.head) }`
sets every slot in `[lo, hi)` to the sentinel position. -/
def raiseUpdates (updates : List (Option (Option Nat))) (lo hi : Nat) :
    List (Option (Option Nat)) :=
  updates.mapIdx fun l u => if lo ≤ l ∧ l < hi then some none else u

/-- Allocation of the new node in `insert`'s new-key path:
`Box::leak(Box::new(Node::new(k, v, level, self.max_level))).into()` returns
the fresh identifier together with the store extended by the new node, whose
forward slots are all empty. -/
def allocNode {K V : Type} (s1 : SkipList K V) (k : K) (v : V) (lvl : Nat) :
    Nat × SkipList K V :=
  (s1.fresh,
    { s1 with
      nodes := (s1.fresh, ⟨k, v, lvl, List.replicate s1.max_level none⟩) :: s1.nodes
      fresh := s1.fresh + 1 })

/-- The new-key branch of `SkipList::insert` (everything after the descent
failed to find an equal key): draw a level, raise the predecessor array and
`level` if the draw exceeds the current level, allocate the node and splice it
in at every level below its own, then increment `len`. -/
def insertMissing {K V : Type} [LinearOrder K] (s : SkipList K V) (k : K) (v : V)
    (r : Nat) (updates : List (Option (Option Nat))) :
    Option (Option V × SkipList K V) :=
  match s.random_level r with
  | none => none
  | some lvl =>
    let updates' := if s.level < lvl then raiseUpdates updates s.level lvl else updates
    let s1 := if s.level < lvl then { s with level := lvl } else s
    let ns := allocNode s1 k v lvl
    match linkList ns.1 ns.2 (updates'.enum.take lvl) with
    | none => none
    | some s3 => some (none, { s3 with len := s3.len + 1 })

/-- Model of `SkipList::insert`: the update path swaps the value in place and returns
the old one; the new-key path draws a level from `r`, raises `level` if the
draw exceeds it, allocates a fresh node and splices it in at every level below
its own, then increments `len`.  `none` models a panic. -/
def SkipList.insert {K V : Type} [LinearOrder K] (s : SkipList K V) (k : K)
    (v : V) (r : Nat) : Option (Option V × SkipList K V) :=
  match insertLoop s k s.level none (List.replicate s.max_level none) with
  | none => none
  | some (.found j n) =>
    some (some n.value, { s with nodes := setNode s.nodes j { n with value := v } })
  | some (.missing updates) => insertMissing s k v r updates

/-- The descent loop of `SkipList::delete`: like `insertLoop`, but an equal key
records the target and breaks the inner loop, and the descent always continues
down to level `0`, recording every predecessor. -/
def deleteLoop {K V : Type} [LinearOrder K] (s : SkipList K V) (k : K) :
    Nat → Option Nat → List (Option (Option Nat)) → Option Nat →
      Option (List (Option (Option Nat)) × Option Nat)
  | 0, _, updates, target => some (updates, target)
  | l + 1, p, updates, target =>
    match scanLevel s k l (s.nodes.length + 1) p with
    | none => none
    | some (.found j _ q) => deleteLoop s k l q (updates.set l (some q)) (some j)
    | some (.stop q) => deleteLoop s k l q (updates.set l (some q)) target

/-- The unlink loop of `SkipList::delete`:
`for (l, ln) in updates.iter().enumerate().take(node.level)`, redirecting each
recorded predecessor's level-`l` pointer to the target's own successor. -/
def unlinkList {K V : Type} (tid : Nat) :
    SkipList K V → List (Nat × Option (Option Nat)) → Option (SkipList K V)
  | s, [] => some s
  | s, (_, none) :: rest => unlinkList tid s rest
  | s, (l, some ln) :: rest => do
    let t ← nextAt s (some tid) l
    let s1 ← setNextAt s ln l t
    unlinkList tid s1 rest

/-- Model of `SkipList::delete`: descend recording predecessors and the target; if no
target was seen return `none` and leave the list untouched, otherwise unlink
the target at every level below its own, decrement `len`, deallocate it and
return its value.  The outer `none` models a panic. -/
def SkipList.delete {K V : Type} [LinearOrder K] (s : SkipList K V) (k : K) :
    Option (Option V × SkipList K V) :=
  match deleteLoop s k s.level none (List.replicate s.max_level none) none with
  | none => none
  | some (_, none) => some (none, s)
  | some (updates, some j) =>
    match findNode s.nodes j with
    | none => none
    | some n =>
      match unlinkList j s (updates.enum.take n.level) with
      | none => none
      | some s1 =>
        some (some n.value, { s1 with nodes := eraseNode s1.nodes j, len := s1.len - 1 })

/-- Model of `SkipList::iter` (and `Iter::next` run to exhaustion): the key/value pairs
along the level-0 chain, in order.  Constructing the iterator reads
`head.next[0]`, which panics (`none`) when `max_level = 0`. -/
def SkipList.iter {K V : Type} (s : SkipList K V) : Option (List (K × V)) :=
  (chain s 0).bind fun c =>
    c.mapM fun i => (findNode s.nodes i).map fun n => (n.key, n.value)

/-- Model of `SkipList::into_iter` (and `IntoIter::next` run to exhaustion): detaches
the level-0 chain from the sentinel up front, then yields (and frees) each node
of the detached chain.  Returns the yielded pairs together with the residual
container left for teardown. -/
def SkipList.into_iter {K V : Type} (s : SkipList K V) :
    Option (List (K × V) × SkipList K V) :=
  match s.headNext.get? 0 with
  | none => none
  | some _ =>
    (s.iter).map fun ps => (ps, { s with headNext := s.headNext.set 0 none })

/-- Model of `Drop for SkipList`: teardown walks the level-0 chain from the sentinel and
frees each node; the result is the list of node identifiers it deallocates
(`none` models the `next[0]` panic when `max_level = 0`). -/
def SkipList.dropFreed {K V : Type} (s : SkipList K V) : Option (List Nat) :=
  chain s 0

/-! ## The well-formedness invariant -/

/-- The forward pointers at level `l` starting from position `p` trace exactly
the identifier list `c` and then end (a fuel-free version of `chainF`). -/
def IsChain {K V : Type} (s : SkipList K V) (l : Nat) : Option Nat → List Nat → Prop
  | p, [] => nextAt s p l = some none
  | p, j :: rest => nextAt s p l = some (some j) ∧ IsChain s l (some j) rest

/-- The forward pointers at level `l` starting from position `p` pass through
the identifier list `c` (without requiring the chain to end there). -/
def IsPath {K V : Type} (s : SkipList K V) (l : Nat) : Option Nat → List Nat → Prop
  | _, [] => True
  | p, j :: rest => nextAt s p l = some (some j) ∧ IsPath s l (some j) rest

/-- The position at the end of walking the identifier list `a` from position
`p`: the last identifier of `a`, or `p` itself when `a` is empty. -/
def endPos (p : Option Nat) (a : List Nat) : Option Nat :=
  a.getLast?.elim p some

/-- An abstract view of one live node: its identifier, key, value and level
(the mutable forward-pointer array is left to the concrete store). -/
structure Entry (K V : Type) where
  id : Nat
  key : K
  value : V
  level : Nat
deriving DecidableEq

/-- The store holds, at `e.id`, a node with `e`'s key, value and level. -/
def entryAt {K V : Type} (s : SkipList K V) (e : Entry K V) : Prop :=
  ∃ nx, findNode s.nodes e.id = some ⟨e.key, e.value, e.level, nx⟩

/-- The entries of `es` whose nodes participate in level `l`. -/
def chainEs {K V : Type} (es : List (Entry K V)) (l : Nat) : List (Entry K V) :=
  es.filter fun e => l < e.level

/-- Well-formedness of a skip list `s` relative to the ascending list `es` of
its live entries: the store is an injective arena of nodes whose levels are in
range, and for every level below `max_level` the forward chain from the
sentinel traces exactly the entries participating in that level, in `es`
order. -/
structure WFc {K V : Type} [LinearOrder K] (s : SkipList K V) (es : List (Entry K V)) :
    Prop where
  head_len : s.headNext.length = s.max_level
  node_len : ∀ p ∈ s.nodes, (Prod.snd p).next.length = s.max_level
  level_pos : ∀ p ∈ s.nodes, 1 ≤ (Prod.snd p).level
  level_le : ∀ p ∈ s.nodes, (Prod.snd p).level ≤ s.level
  level_lt : ∀ p ∈ s.nodes, (Prod.snd p).level < s.max_level
  fresh_gt : ∀ p ∈ s.nodes, Prod.fst p < s.fresh
  nodup : (s.nodes.map Prod.fst).Nodup
  lvl_le : s.level ≤ s.max_level
  entries : ∀ e ∈ es, entryAt s e
  ids : (es.map Entry.id).Perm (s.nodes.map Prod.fst)
  len_eq : s.len = es.length
  sorted : es.Pairwise fun a b => a.key < b.key
  chains : ∀ l, l < s.max_level → IsChain s l none ((chainEs es l).map Entry.id)

/-- A skip list is well formed when some entry list witnesses `WFc`. -/
def WF {K V : Type} [LinearOrder K] (s : SkipList K V) : Prop :=
  ∃ es, WFc s es

/-- The key/value pairs of an entry list, in order. -/
def pairsOf {K V : Type} (es : List (Entry K V)) : List (K × V) :=
  es.map fun e => (e.key, e.value)

/-- Lookup in a key/value pair list: the value of the first pair with the given
key. -/
def lookupPairs {K V : Type} [DecidableEq K] (k : K) (pl : List (K × V)) : Option V :=
  (pl.find? fun p => p.1 = k).map Prod.snd

/-- A mutating operation on the container (the draw fed to `insert` is kept
separate so that runs differing only in randomness can be compared). -/
inductive Op (K V : Type) where
  | ins (k : K) (v : V)
  | del (k : K)
deriving DecidableEq

/-- Run one operation with its random draw. -/
def runOp {K V : Type} [LinearOrder K] (s : SkipList K V) :
    Op K V × Nat → Option (Option V × SkipList K V)
  | (.ins k v, r) => s.insert k v r
  | (.del k, _) => s.delete k

/-- Run a list of operations, collecting the `Option` result each returns;
`none` models a panic somewhere along the run. -/
def runOps {K V : Type} [LinearOrder K] :
    SkipList K V → List (Op K V × Nat) → Option (List (Option V) × SkipList K V)
  | s, [] => some ([], s)
  | s, op :: rest =>
    (runOp s op).bind fun os => (runOps os.2 rest).map fun osf => (os.1 :: osf.1, osf.2)

/-- The states reachable from a freshly constructed list by non-panicking
`insert` and `delete` calls, with arbitrary random draws. -/
inductive Reach {K V : Type} [LinearOrder K] : SkipList K V → Prop where
  | init (m : Nat) : Reach (SkipList.new K V m)
  | ins {s s' : SkipList K V} {k : K} {v : V} {r : Nat} {o : Option V} :
      Reach s → s.insert k v r = some (o, s') → Reach s'
  | del {s s' : SkipList K V} {k : K} {o : Option V} :
      Reach s → s.delete k = some (o, s') → Reach s'

/-! ## Store lemmas -/

theorem findNode_cons {K V : Type} (q : Nat × Node K V) (t : List (Nat × Node K V))
    (x : Nat) : findNode (q :: t) x = if q.1 = x then some q.2 else findNode t x := by
  unfold findNode
  by_cases h : q.1 = x
  · rw [List.find?_cons_of_pos _ (by simpa using h)]
    simp [h]
  · rw [List.find?_cons_of_neg _ (by simpa using h)]
    simp [h]

theorem setNode_cons {K V : Type} (q : Nat × Node K V) (t : List (Nat × Node K V))
    (i : Nat) (n : Node K V) :
    setNode (q :: t) i n = (if q.1 = i then (i, n) else q) :: setNode t i n := by
  unfold setNode
  by_cases h : q.1 = i
  · simp [h]
  · simp [h]

theorem eraseNode_cons {K V : Type} (q : Nat × Node K V) (t : List (Nat × Node K V))
    (i : Nat) :
    eraseNode (q :: t) i = if q.1 = i then eraseNode t i else q :: eraseNode t i := by
  unfold eraseNode
  by_cases h : q.1 = i
  · simp [List.filter_cons, h]
  · simp [List.filter_cons, h]

theorem findNode_mem {K V : Type} {ns : List (Nat × Node K V)} {i : Nat}
    {n : Node K V} (h : findNode ns i = some n) : (i, n) ∈ ns := by
  induction ns with
  | nil => simp [findNode] at h
  | cons q t ih =>
    rw [findNode_cons] at h
    by_cases hq : q.1 = i
    · simp only [if_pos hq] at h
      obtain ⟨a, b⟩ := q
      simp at hq h
      subst hq
      subst h
      exact List.mem_cons_self _ _
    · simp only [if_neg hq] at h
      exact List.mem_cons_of_mem _ (ih h)

theorem findNode_of_mem_fst {K V : Type} {ns : List (Nat × Node K V)} {i : Nat}
    (h : i ∈ ns.map Prod.fst) : ∃ n, findNode ns i = some n := by
  induction ns with
  | nil => simp at h
  | cons q t ih =>
    rw [findNode_cons]
    by_cases hq : q.1 = i
    · exact ⟨q.2, by simp [hq]⟩
    · simp only [if_neg hq]
      apply ih
      simp at h
      rcases h with h | h
      · exact absurd h.symm hq
      · simpa using h

theorem findNode_eq_none {K V : Type} {ns : List (Nat × Node K V)} {i : Nat}
    (h : i ∉ ns.map Prod.fst) : findNode ns i = none := by
  induction ns with
  | nil => rfl
  | cons q t ih =>
    rw [findNode_cons]
    rw [List.map_cons, List.mem_cons] at h
    push_neg at h
    rw [if_neg fun hc => h.1 hc.symm]
    exact ih h.2

theorem findNode_setNode_self {K V : Type} (ns : List (Nat × Node K V)) (i : Nat)
    (n : Node K V) : findNode (setNode ns i n) i = (findNode ns i).map fun _ => n := by
  induction ns with
  | nil => rfl
  | cons q t ih =>
    rw [setNode_cons]
    by_cases hq : q.1 = i
    · rw [if_pos hq, findNode_cons, findNode_cons, if_pos hq]
      simp
    · rw [if_neg hq, findNode_cons, findNode_cons, if_neg hq, if_neg hq, ih]

theorem findNode_setNode_ne {K V : Type} {ns : List (Nat × Node K V)} {i x : Nat}
    (n : Node K V) (h : x ≠ i) : findNode (setNode ns i n) x = findNode ns x := by
  induction ns with
  | nil => rfl
  | cons q t ih =>
    rw [setNode_cons]
    by_cases hq : q.1 = i
    · have hqx : ¬q.1 = x := fun hc => h (hc ▸ hq ▸ rfl)
      rw [if_pos hq, findNode_cons, findNode_cons, if_neg hqx, if_neg (Ne.symm h), ih]
    · rw [if_neg hq, findNode_cons, findNode_cons]
      by_cases hqx : q.1 = x
      · rw [if_pos hqx, if_pos hqx]
      · rw [if_neg hqx, if_neg hqx, ih]

theorem map_fst_setNode {K V : Type} (ns : List (Nat × Node K V)) (i : Nat)
    (n : Node K V) : (setNode ns i n).map Prod.fst = ns.map Prod.fst := by
  induction ns with
  | nil => rfl
  | cons q t ih =>
    rw [setNode_cons]
    by_cases hq : q.1 = i
    · simp [hq, ih]
    · simp [hq, ih]

theorem length_setNode {K V : Type} (ns : List (Nat × Node K V)) (i : Nat)
    (n : Node K V) : (setNode ns i n).length = ns.length := by
  simp [setNode]

theorem mem_setNode {K V : Type} {ns : List (Nat × Node K V)} {i : Nat}
    {n : Node K V} {q : Nat × Node K V} (h : q ∈ setNode ns i n) :
    q = (i, n) ∨ q ∈ ns := by
  obtain ⟨p, hp, he⟩ := List.mem_map.mp h
  by_cases hpi : p.1 = i
  · left
    simp [hpi] at he
    exact he.symm
  · right
    simp [hpi] at he
    exact he ▸ hp

theorem findNode_eraseNode_self {K V : Type} (ns : List (Nat × Node K V)) (i : Nat) :
    findNode (eraseNode ns i) i = none := by
  induction ns with
  | nil => rfl
  | cons q t ih =>
    rw [eraseNode_cons]
    by_cases hq : q.1 = i
    · rw [if_pos hq]
      exact ih
    · rw [if_neg hq, findNode_cons, if_neg hq]
      exact ih

theorem findNode_eraseNode_ne {K V : Type} {ns : List (Nat × Node K V)} {i x : Nat}
    (h : x ≠ i) : findNode (eraseNode ns i) x = findNode ns x := by
  induction ns with
  | nil => rfl
  | cons q t ih =>
    rw [eraseNode_cons]
    by_cases hq : q.1 = i
    · have hqx : ¬q.1 = x := fun hc => h (hc ▸ hq ▸ rfl)
      rw [if_pos hq, findNode_cons, if_neg hqx, ih]
    · rw [if_neg hq, findNode_cons, findNode_cons]
      by_cases hqx : q.1 = x
      · rw [if_pos hqx, if_pos hqx]
      · rw [if_neg hqx, if_neg hqx, ih]

theorem map_fst_eraseNode {K V : Type} (ns : List (Nat × Node K V)) (i : Nat) :
    (eraseNode ns i).map Prod.fst = (ns.map Prod.fst).filter fun x => x != i := by
  induction ns with
  | nil => rfl
  | cons q t ih =>
    rw [eraseNode_cons]
    by_cases hq : q.1 = i
    · simp [List.filter_cons, hq, ih]
    · simp [List.filter_cons, hq, ih]

theorem mem_eraseNode {K V : Type} {ns : List (Nat × Node K V)} {i : Nat}
    {q : Nat × Node K V} (h : q ∈ eraseNode ns i) : q ∈ ns :=
  (List.mem_filter.mp h).1

/-! ## Chain and path lemmas -/

theorem nextAt_congr {K V : Type} {s s' : SkipList K V}
    (hh : s'.headNext = s.headNext) (hn : s'.nodes = s.nodes)
    (p : Option Nat) (l : Nat) : nextAt s' p l = nextAt s p l := by
  cases p <;> simp [nextAt, hh, hn]

theorem endPos_nil (p : Option Nat) : endPos p [] = p := rfl

theorem endPos_cons (p : Option Nat) (x : Nat) (xs : List Nat) :
    endPos p (x :: xs) = endPos (some x) xs := by
  cases xs with
  | nil => rfl
  | cons y ys =>
    unfold endPos
    rw [List.getLast?_cons_cons]
    cases hq : (y :: ys).getLast? with
    | none =>
      have h2 : (y :: ys) ≠ [] := by simp
      rw [← List.getLast?_isSome] at h2
      rw [hq] at h2
      simp at h2
    | some z => rfl

theorem endPos_append (p : Option Nat) (a b : List Nat) :
    endPos p (a ++ b) = endPos (endPos p a) b := by
  induction a generalizing p with
  | nil => rfl
  | cons x xs ih => rw [List.cons_append, endPos_cons, endPos_cons, ih]

theorem isChain_congr {K V : Type} {s s' : SkipList K V} {l : Nat} :
    ∀ {p c}, (∀ q, (q = p ∨ ∃ j ∈ c, q = some j) → nextAt s' q l = nextAt s q l) →
      IsChain s l p c → IsChain s' l p c := by
  intro p c
  induction c generalizing p with
  | nil =>
    intro hagree h
    exact (hagree p (Or.inl rfl)).trans h
  | cons j rest ih =>
    intro hagree h
    obtain ⟨h1, h2⟩ := h
    refine ⟨(hagree p (Or.inl rfl)).trans h1, ih ?_ h2⟩
    intro q hq
    apply hagree
    rcases hq with hq | ⟨x, hx, hq⟩
    · exact Or.inr ⟨j, List.mem_cons_self _ _, hq⟩
    · exact Or.inr ⟨x, List.mem_cons_of_mem _ hx, hq⟩

theorem isPath_congr {K V : Type} {s s' : SkipList K V} {l : Nat} :
    ∀ {p c}, (∀ q, (q = p ∨ ∃ j ∈ c, q = some j) → nextAt s' q l = nextAt s q l) →
      IsPath s l p c → IsPath s' l p c := by
  intro p c
  induction c generalizing p with
  | nil =>
    intro _ _
    trivial
  | cons j rest ih =>
    intro hagree h
    obtain ⟨h1, h2⟩ := h
    refine ⟨(hagree p (Or.inl rfl)).trans h1, ih ?_ h2⟩
    intro q hq
    apply hagree
    rcases hq with hq | ⟨x, hx, hq⟩
    · exact Or.inr ⟨j, List.mem_cons_self _ _, hq⟩
    · exact Or.inr ⟨x, List.mem_cons_of_mem _ hx, hq⟩

theorem isChain_split {K V : Type} {s : SkipList K V} {l : Nat} :
    ∀ {p : Option Nat} {a b : List Nat}, IsChain s l p (a ++ b) →
      IsPath s l p a ∧ IsChain s l (endPos p a) b := by
  intro p a
  induction a generalizing p with
  | nil =>
    intro b h
    exact ⟨trivial, h⟩
  | cons x xs ih =>
    intro b h
    obtain ⟨h1, h2⟩ := h
    obtain ⟨hp, hc⟩ := ih h2
    exact ⟨⟨h1, hp⟩, by rwa [endPos_cons]⟩

theorem isChain_of_path {K V : Type} {s : SkipList K V} {l : Nat} :
    ∀ {p : Option Nat} {a b : List Nat}, IsPath s l p a →
      IsChain s l (endPos p a) b → IsChain s l p (a ++ b) := by
  intro p a
  induction a generalizing p with
  | nil =>
    intro b _ h
    exact h
  | cons x xs ih =>
    intro b hp hc
    obtain ⟨h1, h2⟩ := hp
    exact ⟨h1, ih h2 (by rwa [endPos_cons] at hc)⟩

theorem chainF_of_isChain {K V : Type} {s : SkipList K V} {l : Nat} :
    ∀ {c : List Nat} {p : Option Nat} {fuel : Nat}, IsChain s l p c →
      c.length < fuel → chainF s l fuel p = some c := by
  intro c
  induction c with
  | nil =>
    intro p fuel h hf
    obtain ⟨f, rfl⟩ := Nat.exists_eq_succ_of_ne_zero (Nat.pos_iff_ne_zero.mp hf)
    simp only [chainF]
    rw [h]
  | cons j rest ih =>
    intro p fuel h hf
    obtain ⟨h1, h2⟩ := h
    cases fuel with
    | zero => exact absurd hf (by simp)
    | succ f =>
      have hr : rest.length < f := by
        simpa [Nat.succ_lt_succ_iff] using hf
      simp only [chainF]
      rw [h1]
      show Option.map (fun x => j :: x) (chainF s l f (some j)) = some (j :: rest)
      rw [ih h2 hr]
      rfl

theorem isChain_of_chainF {K V : Type} {s : SkipList K V} {l : Nat} :
    ∀ {fuel : Nat} {p : Option Nat} {c : List Nat},
      chainF s l fuel p = some c → IsChain s l p c := by
  intro fuel
  induction fuel with
  | zero =>
    intro p c h
    simp [chainF] at h
  | succ f ih =>
    intro p c h
    simp only [chainF] at h
    cases hn : nextAt s p l with
    | none =>
      rw [hn] at h
      simp at h
    | some t =>
      rw [hn] at h
      cases t with
      | none =>
        simp at h
        subst h
        exact hn
      | some j =>
        simp at h
        obtain ⟨c', hc', rfl⟩ := h
        exact ⟨hn, ih hc'⟩

theorem isChain_mem_fst {K V : Type} {s : SkipList K V} {l : Nat} :
    ∀ {p : Option Nat} {c : List Nat}, IsChain s l p c →
      ∀ j ∈ c, j ∈ s.nodes.map Prod.fst := by
  intro p c
  induction c generalizing p with
  | nil =>
    intro _ j hj
    simp at hj
  | cons x xs ih =>
    intro h j hj
    obtain ⟨h1, h2⟩ := h
    rcases List.mem_cons.mp hj with rfl | hj
    · have hstep : ∃ t, nextAt s (some j) l = some t := by
        cases xs with
        | nil => exact ⟨none, h2⟩
        | cons y ys => exact ⟨some y, h2.1⟩
      obtain ⟨t, ht⟩ := hstep
      simp only [nextAt] at ht
      cases hf : findNode s.nodes j with
      | none =>
        rw [hf] at ht
        simp at ht
      | some n => exact List.mem_map.mpr ⟨(j, n), findNode_mem hf, rfl⟩
    · exact ih h2 j hj

/-! ## Scan specification -/

theorem takeWhile_append_all {α : Type} (p : α → Bool) {a : List α} (b : List α)
    (h : ∀ x ∈ a, p x) : (a ++ b).takeWhile p = a ++ b.takeWhile p := by
  induction a with
  | nil => rfl
  | cons x xs ih =>
    rw [List.cons_append, List.takeWhile_cons, h x (List.mem_cons_self _ _), if_pos rfl,
      ih fun y hy => h y (List.mem_cons_of_mem _ hy), List.cons_append]

theorem dropWhile_append_all {α : Type} (p : α → Bool) {a : List α} (b : List α)
    (h : ∀ x ∈ a, p x) : (a ++ b).dropWhile p = b.dropWhile p := by
  induction a with
  | nil => rfl
  | cons x xs ih =>
    rw [List.cons_append, List.dropWhile_cons, if_pos]
    · exact ih fun y hy => h y (List.mem_cons_of_mem _ hy)
    · simpa using h x (List.mem_cons_self _ _)

theorem dropWhile_head_not {α : Type} (p : α → Bool) :
    ∀ {l : List α} {x : α} {xs : List α}, l.dropWhile p = x :: xs → ¬p x := by
  intro l
  induction l with
  | nil =>
    intro x xs h
    simp at h
  | cons y ys ih =>
    intro x xs h
    rw [List.dropWhile_cons] at h
    by_cases hy : p y
    · rw [if_pos hy] at h
      exact ih h
    · rw [if_neg hy] at h
      obtain ⟨rfl, -⟩ := List.cons.injEq .. ▸ h
      simpa using hy

theorem dropWhile_eq_drop_len {α : Type} (p : α → Bool) (l : List α) :
    l.dropWhile p = l.drop (l.takeWhile p).length := by
  induction l with
  | nil => rfl
  | cons x xs ih =>
    rw [List.dropWhile_cons, List.takeWhile_cons]
    by_cases hx : p x
    · simp only [if_pos hx, hx]
      simpa using ih
    · simp only [if_neg hx, hx]
      simp [List.takeWhile_cons, hx]

/-- The contract of one call to the per-level scan: starting at position `p`
with the entries `re` ahead of it, the scan skips the longest prefix of keys
below `k`, reports `found` when the next entry's key equals `k` and `stop`
otherwise, in both cases carrying the position just before the first
not-below-`k` entry. -/
def ScanOut {K V : Type} [LinearOrder K] (s : SkipList K V) (k : K)
    (res : Option (ScanRes K V)) (p : Option Nat) (re : List (Entry K V)) : Prop :=
  (re.drop (re.takeWhile fun e => e.key < k).length = [] →
    res = some (.stop (endPos p ((re.takeWhile fun e => e.key < k).map Entry.id)))) ∧
  ∀ x rest, re.drop (re.takeWhile fun e => e.key < k).length = x :: rest →
    (x.key = k → ∃ nx, findNode s.nodes x.id = some ⟨x.key, x.value, x.level, nx⟩ ∧
      res = some (.found x.id ⟨x.key, x.value, x.level, nx⟩
        (endPos p ((re.takeWhile fun e => e.key < k).map Entry.id)))) ∧
    (¬x.key = k →
      res = some (.stop (endPos p ((re.takeWhile fun e => e.key < k).map Entry.id))))

theorem scanLevel_spec {K V : Type} [LinearOrder K] {s : SkipList K V} {k : K}
    {l : Nat} :
    ∀ {re : List (Entry K V)} {p : Option Nat} {fuel : Nat},
      IsChain s l p (re.map Entry.id) → (∀ e ∈ re, entryAt s e) →
      re.length < fuel → ScanOut s k (scanLevel s k l fuel p) p re := by
  intro re
  induction re with
  | nil =>
    intro p fuel hc he hf
    obtain ⟨f, rfl⟩ := Nat.exists_eq_succ_of_ne_zero (Nat.pos_iff_ne_zero.mp hf)
    simp only [List.map_nil] at hc
    have hres : scanLevel s k l (f + 1) p = some (.stop p) := by
      simp only [scanLevel]
      rw [hc]
    constructor
    · intro _
      rw [hres]
      rfl
    · intro x rest h
      simp at h
  | cons e re' ih =>
    intro p fuel hc he hf
    cases fuel with
    | zero => exact absurd hf (by simp)
    | succ f =>
      simp only [List.map_cons] at hc
      obtain ⟨h1, h2⟩ := hc
      obtain ⟨nx, hfind⟩ := he e (List.mem_cons_self _ _)
      have he' : ∀ x ∈ re', entryAt s x := fun x hx => he x (List.mem_cons_of_mem _ hx)
      have hf' : re'.length < f := by simpa [Nat.succ_lt_succ_iff] using hf
      have hred : scanLevel s k l (f + 1) p =
          (if e.key = k then some (.found e.id ⟨e.key, e.value, e.level, nx⟩ p)
           else if e.key < k then scanLevel s k l f (some e.id)
           else some (.stop p)) := by
        simp only [scanLevel]
        rw [h1]
        show (match findNode s.nodes e.id with
          | none => none
          | some n =>
            if n.key = k then some (ScanRes.found e.id n p)
            else if n.key < k then scanLevel s k l f (some e.id)
            else some (ScanRes.stop p)) = _
        rw [hfind]
      rcases lt_trichotomy e.key k with hlt | heq | hgt
      · have hne : ¬(e.key = k) := ne_of_lt hlt
        rw [if_neg hne, if_pos hlt] at hred
        obtain ⟨ih1, ih2⟩ := ih h2 he' hf'
        unfold ScanOut
        rw [List.takeWhile_cons_of_pos (by simpa using hlt), List.length_cons,
          List.drop_succ_cons, List.map_cons, endPos_cons, hred]
        exact ⟨ih1, ih2⟩
      · unfold ScanOut
        rw [List.takeWhile_cons_of_neg (by simp [heq]), List.length_nil, List.drop_zero,
          List.map_nil, endPos_nil, hred, if_pos heq]
        constructor
        · intro h
          simp at h
        · intro x rest h
          rw [List.cons.injEq] at h
          obtain ⟨rfl, rfl⟩ := h
          exact ⟨fun _ => ⟨nx, hfind, rfl⟩, fun hc => absurd heq hc⟩
      · have hne : ¬(e.key = k) := ne_of_gt hgt
        have hnlt : ¬(e.key < k) := not_lt_of_gt hgt
        unfold ScanOut
        rw [List.takeWhile_cons_of_neg (by simpa using hnlt), List.length_nil,
          List.drop_zero, List.map_nil, endPos_nil, hred, if_neg hne, if_neg hnlt]
        constructor
        · intro h
          simp at h
        · intro x rest h
          rw [List.cons.injEq] at h
          obtain ⟨rfl, rfl⟩ := h
          exact ⟨fun hc => absurd hc hne, fun _ => rfl⟩

/-! ## Descent machinery -/

/-- The entries at level `l` whose keys are below `k`: the nodes the descent
walks through at level `l`. -/
def predsAt {K V : Type} [LinearOrder K] (es : List (Entry K V)) (k : K) (l : Nat) :
    List (Entry K V) :=
  (chainEs es l).takeWhile fun e => e.key < k

/-- The position where the level-`l` scan stops: the last level-`l` node with
key below `k`, or the sentinel. -/
def predPos {K V : Type} [LinearOrder K] (es : List (Entry K V)) (k : K) (l : Nat) :
    Option Nat :=
  endPos none ((predsAt es k l).map Entry.id)

theorem WFc.entry_pair {K V : Type} [LinearOrder K] {s : SkipList K V}
    {es : List (Entry K V)} (hwf : WFc s es) {e : Entry K V} (he : e ∈ es) :
    ∃ nx, (e.id, (⟨e.key, e.value, e.level, nx⟩ : Node K V)) ∈ s.nodes := by
  obtain ⟨nx, hfind⟩ := hwf.entries e he
  exact ⟨nx, findNode_mem hfind⟩

theorem WFc.entry_level_pos {K V : Type} [LinearOrder K] {s : SkipList K V}
    {es : List (Entry K V)} (hwf : WFc s es) {e : Entry K V} (he : e ∈ es) :
    1 ≤ e.level := by
  obtain ⟨nx, hmem⟩ := hwf.entry_pair he
  exact hwf.level_pos _ hmem

theorem WFc.entry_level_le {K V : Type} [LinearOrder K] {s : SkipList K V}
    {es : List (Entry K V)} (hwf : WFc s es) {e : Entry K V} (he : e ∈ es) :
    e.level ≤ s.level := by
  obtain ⟨nx, hmem⟩ := hwf.entry_pair he
  exact hwf.level_le _ hmem

theorem WFc.entry_level_lt {K V : Type} [LinearOrder K] {s : SkipList K V}
    {es : List (Entry K V)} (hwf : WFc s es) {e : Entry K V} (he : e ∈ es) :
    e.level < s.max_level := by
  obtain ⟨nx, hmem⟩ := hwf.entry_pair he
  exact hwf.level_lt _ hmem

theorem WFc.es_length {K V : Type} [LinearOrder K] {s : SkipList K V}
    {es : List (Entry K V)} (hwf : WFc s es) : es.length = s.nodes.length := by
  have := hwf.ids.length_eq
  simpa using this

theorem chainEs_sublist {K V : Type} (es : List (Entry K V)) (l : Nat) :
    (chainEs es l).Sublist es :=
  List.filter_sublist es

theorem mem_chainEs {K V : Type} {es : List (Entry K V)} {l : Nat} {e : Entry K V} :
    e ∈ chainEs es l ↔ e ∈ es ∧ l < e.level := by
  simp [chainEs]

theorem WFc.chainEs_top {K V : Type} [LinearOrder K] {s : SkipList K V}
    {es : List (Entry K V)} (hwf : WFc s es) {l : Nat} (hl : s.level ≤ l) :
    chainEs es l = [] := by
  rw [List.eq_nil_iff_forall_not_mem]
  intro e he
  obtain ⟨hes, hlvl⟩ := mem_chainEs.mp he
  exact absurd (lt_of_le_of_lt hl hlvl) (not_lt_of_ge (hwf.entry_level_le hes))

theorem WFc.predPos_top {K V : Type} [LinearOrder K] {s : SkipList K V}
    {es : List (Entry K V)} (hwf : WFc s es) (k : K) {l : Nat} (hl : s.level ≤ l) :
    predPos es k l = none := by
  unfold predPos predsAt
  rw [hwf.chainEs_top hl]
  rfl

theorem sorted_key_inj {K V : Type} [LinearOrder K] :
    ∀ {es : List (Entry K V)}, es.Pairwise (fun a b => a.key < b.key) →
      ∀ {e e' : Entry K V}, e ∈ es → e' ∈ es → e.key = e'.key → e = e' := by
  intro es
  induction es with
  | nil =>
    intro _ e e' he
    simp at he
  | cons x xs ih =>
    intro hs e e' he he' hk
    obtain ⟨hx, hxs⟩ := List.pairwise_cons.mp hs
    rcases List.mem_cons.mp he with he1 | he1
    · rcases List.mem_cons.mp he' with he2 | he2
      · rw [he1, he2]
      · subst he1
        have h2 := hx e' he2
        rw [hk] at h2
        exact absurd h2 (lt_irrefl _)
    · rcases List.mem_cons.mp he' with he2 | he2
      · subst he2
        have h2 := hx e he1
        rw [hk] at h2
        exact absurd h2 (lt_irrefl _)
      · exact ih hxs he1 he2 hk

theorem descent_split {K V : Type} [LinearOrder K] {s : SkipList K V}
    {es : List (Entry K V)} (hwf : WFc s es) (k : K) {l : Nat}
    (hl : l < s.max_level) :
    ∃ C S, chainEs es l = C ++ S ∧
      endPos none (C.map Entry.id) = predPos es k (l + 1) ∧
      (∀ e ∈ C, e.key < k) ∧
      IsChain s l (predPos es k (l + 1)) (S.map Entry.id) := by
  rcases List.eq_nil_or_concat (predsAt es k (l + 1)) with hB | ⟨L, e0, hB⟩
  · refine ⟨[], chainEs es l, rfl, ?_, by simp, ?_⟩
    · unfold predPos
      rw [hB]
    · have hc := hwf.chains l hl
      have hpp : predPos es k (l + 1) = none := by
        unfold predPos
        rw [hB]
        rfl
      rw [hpp]
      exact hc
  · rw [List.concat_eq_append] at hB
    have he0B : e0 ∈ predsAt es k (l + 1) := by
      rw [hB]
      simp
    have he0k : e0.key < k := by
      have := List.mem_takeWhile_imp he0B
      simpa using this
    have he0c : e0 ∈ chainEs es (l + 1) :=
      (List.takeWhile_sublist _).mem he0B
    obtain ⟨he0es, he0lvl⟩ := mem_chainEs.mp he0c
    obtain ⟨X, Y, rfl⟩ := List.append_of_mem he0es
    have hXsorted := hwf.sorted
    rw [List.pairwise_append] at hXsorted
    obtain ⟨hXp, hYp, hXY⟩ := hXsorted
    have hfil : chainEs (X ++ e0 :: Y) l =
        (X.filter fun e => l < e.level) ++ e0 :: Y.filter fun e => l < e.level := by
      unfold chainEs
      rw [List.filter_append, List.filter_cons]
      have : l < e0.level := Nat.lt_of_succ_lt he0lvl
      simp [this]
    refine ⟨(X.filter fun e => l < e.level) ++ [e0], Y.filter fun e => l < e.level,
      by rw [hfil]; simp, ?_, ?_, ?_⟩
    · unfold predPos
      rw [hB]
      simp only [List.map_append, List.map_cons, List.map_nil]
      unfold endPos
      rw [List.getLast?_concat, List.getLast?_concat]
    · intro e he
      rcases List.mem_append.mp he with he | he
      · have heX : e ∈ X := (List.filter_sublist X).mem he
        exact lt_trans (hXY e heX e0 (List.mem_cons_self _ _)) he0k
      · rw [List.mem_singleton.mp he]
        exact he0k
    · have hch := hwf.chains l hl
      rw [hfil] at hch
      have hsplit : ((X.filter fun e => l < e.level) ++
          e0 :: Y.filter fun e => l < e.level).map Entry.id =
          ((X.filter fun e => l < e.level).map Entry.id ++ [e0.id]) ++
          (Y.filter fun e => l < e.level).map Entry.id := by
        simp
      rw [hsplit] at hch
      obtain ⟨-, hc⟩ := isChain_split hch
      have hpp : endPos none ((X.filter fun e => l < e.level).map Entry.id ++ [e0.id]) =
          predPos (X ++ e0 :: Y) k (l + 1) := by
        unfold predPos
        rw [hB]
        simp only [List.map_append, List.map_cons, List.map_nil]
        unfold endPos
        rw [List.getLast?_concat, List.getLast?_concat]
      rw [hpp] at hc
      exact hc

theorem scan_setup {K V : Type} [LinearOrder K] {s : SkipList K V}
    {es : List (Entry K V)} (hwf : WFc s es) (k : K) {l : Nat}
    (hl : l < s.max_level) :
    ∃ S : List (Entry K V),
      ScanOut s k (scanLevel s k l (s.nodes.length + 1) (predPos es k (l + 1)))
        (predPos es k (l + 1)) S ∧
      endPos (predPos es k (l + 1)) ((S.takeWhile fun e => e.key < k).map Entry.id) =
        predPos es k l ∧
      S.drop (S.takeWhile fun e => e.key < k).length =
        (chainEs es l).dropWhile fun e => e.key < k := by
  obtain ⟨C, S, hCS, hCp, hCk, hchain⟩ := descent_split hwf k hl
  have hSes : ∀ e ∈ S, e ∈ es := by
    intro e heS
    have : e ∈ chainEs es l := by
      rw [hCS]
      exact List.mem_append_right _ heS
    exact (mem_chainEs.mp this).1
  have hent : ∀ e ∈ S, entryAt s e := fun e heS => hwf.entries e (hSes e heS)
  have hfuel : S.length < s.nodes.length + 1 := by
    have h1 : S.length ≤ (chainEs es l).length := by
      rw [hCS, List.length_append]
      omega
    have h2 : (chainEs es l).length ≤ es.length := (chainEs_sublist es l).length_le
    rw [hwf.es_length] at h2
    omega
  have hCkb : ∀ e ∈ C, (fun e : Entry K V => decide (e.key < k)) e = true := by
    intro e heC
    simpa using hCk e heC
  refine ⟨S, scanLevel_spec hchain hent hfuel, ?_, ?_⟩
  · have hpre : predsAt es k l = C ++ S.takeWhile fun e => e.key < k := by
      unfold predsAt
      rw [hCS]
      exact takeWhile_append_all _ _ hCkb
    unfold predPos
    rw [hpre, List.map_append, endPos_append, hCp]
    rfl
  · rw [← dropWhile_eq_drop_len]
    rw [hCS]
    exact (dropWhile_append_all _ _ hCkb).symm

theorem scan_descent_stop {K V : Type} [LinearOrder K] {s : SkipList K V}
    {es : List (Entry K V)} (hwf : WFc s es) {k : K} {l : Nat}
    (hl : l < s.max_level) (habs : ∀ e ∈ es, e.key = k → ¬l < e.level) :
    scanLevel s k l (s.nodes.length + 1) (predPos es k (l + 1)) =
      some (.stop (predPos es k l)) := by
  obtain ⟨S, hout, hq, hdrop⟩ := scan_setup hwf k hl
  obtain ⟨h1, h2⟩ := hout
  cases hD : S.drop (S.takeWhile fun e => e.key < k).length with
  | nil => rw [h1 hD, hq]
  | cons d D =>
    have hdC : d ∈ chainEs es l := by
      have hmem : d ∈ (chainEs es l).dropWhile fun e => e.key < k := by
        rw [← hdrop, hD]
        exact List.mem_cons_self _ _
      exact (List.dropWhile_sublist _).mem hmem
    obtain ⟨hdes, hdlvl⟩ := mem_chainEs.mp hdC
    have hdk : ¬(d.key = k) := fun hc => habs d hdes hc hdlvl
    rw [(h2 d D hD).2 hdk, hq]

theorem scan_descent_found {K V : Type} [LinearOrder K] {s : SkipList K V}
    {es : List (Entry K V)} (hwf : WFc s es) {k : K} {l : Nat}
    (hl : l < s.max_level) {e : Entry K V} (he : e ∈ es) (hek : e.key = k)
    (helvl : l < e.level) :
    ∃ nx, findNode s.nodes e.id = some ⟨e.key, e.value, e.level, nx⟩ ∧
      scanLevel s k l (s.nodes.length + 1) (predPos es k (l + 1)) =
        some (.found e.id ⟨e.key, e.value, e.level, nx⟩ (predPos es k l)) := by
  obtain ⟨S, hout, hq, hdrop⟩ := scan_setup hwf k hl
  obtain ⟨h1, h2⟩ := hout
  have heC : e ∈ chainEs es l := mem_chainEs.mpr ⟨he, helvl⟩
  have heD : e ∈ (chainEs es l).dropWhile fun x => x.key < k := by
    have hsplit := List.takeWhile_append_dropWhile
      (p := fun x : Entry K V => decide (x.key < k)) (l := chainEs es l)
    have hmm : e ∈ (chainEs es l).takeWhile (fun x : Entry K V => decide (x.key < k)) ++
        (chainEs es l).dropWhile fun x : Entry K V => decide (x.key < k) := by
      rw [hsplit]
      exact heC
    rcases List.mem_append.mp hmm with hmem | hmem
    · have := List.mem_takeWhile_imp hmem
      rw [hek] at this
      simp at this
    · exact hmem
  cases hD : (chainEs es l).dropWhile fun x : Entry K V => decide (x.key < k) with
  | nil => simp [hD] at heD
  | cons d D =>
    rw [hD] at heD
    have hde : d = e := by
      rcases List.mem_cons.mp heD with h1 | h1
      · exact h1.symm
      · exfalso
        have hPD : ((chainEs es l).dropWhile
            fun x : Entry K V => decide (x.key < k)).Pairwise
            fun a b => a.key < b.key :=
          (hwf.sorted.sublist (chainEs_sublist es l)).sublist (List.dropWhile_sublist _)
        rw [hD] at hPD
        have hdk : d.key < e.key := (List.pairwise_cons.mp hPD).1 e h1
        have hdnk := dropWhile_head_not _ hD
        rw [hek] at hdk
        exact hdnk (by simpa using hdk)
    subst hde
    have hDS : S.drop (S.takeWhile fun e => e.key < k).length = d :: D := by
      rw [hdrop]
      exact hD
    obtain ⟨nx, hfind, hres⟩ := (h2 d D hDS).1 hek
    exact ⟨nx, hfind, by rw [hres, hq]⟩

/-! ## Correctness of get -/

theorem getLoop_absent {K V : Type} [LinearOrder K] {s : SkipList K V}
    {es : List (Entry K V)} (hwf : WFc s es) {k : K}
    (hk : ∀ e ∈ es, ¬e.key = k) :
    ∀ l, l ≤ s.level → getLoop s k l (predPos es k l) = some none := by
  intro l
  induction l with
  | zero =>
    intro _
    rfl
  | succ l ih =>
    intro hle
    have hl : l < s.max_level := lt_of_lt_of_le hle hwf.lvl_le
    have hscan := scan_descent_stop hwf hl fun e he hek => absurd hek (hk e he)
    simp only [getLoop]
    rw [hscan]
    show getLoop s k l (predPos es k l) = some none
    exact ih (Nat.le_of_succ_le hle)

theorem getLoop_present {K V : Type} [LinearOrder K] {s : SkipList K V}
    {es : List (Entry K V)} (hwf : WFc s es) {k : K} {e : Entry K V}
    (he : e ∈ es) (hek : e.key = k) :
    ∀ l, 1 ≤ l → l ≤ s.level →
      getLoop s k l (predPos es k l) = some (some e.value) := by
  intro l
  induction l with
  | zero =>
    intro h
    simp at h
  | succ l ih =>
    intro _ hle
    have hlm : l < s.max_level := lt_of_lt_of_le hle hwf.lvl_le
    by_cases hcase : l < e.level
    · obtain ⟨nx, hfind, hscan⟩ := scan_descent_found hwf hlm he hek hcase
      simp only [getLoop]
      rw [hscan]
    · have habs : ∀ x ∈ es, x.key = k → ¬l < x.level := by
        intro x hx hxk
        have hxe : x = e := sorted_key_inj hwf.sorted hx he (hxk.trans hek.symm)
        rw [hxe]
        exact hcase
      have hscan := scan_descent_stop hwf hlm habs
      simp only [getLoop]
      rw [hscan]
      show getLoop s k l (predPos es k l) = some (some e.value)
      have h1l : 1 ≤ l := le_trans (hwf.entry_level_pos he) (not_lt.mp hcase)
      exact ih h1l (Nat.le_of_succ_le hle)

theorem find?_pairsOf {K V : Type} [LinearOrder K] (es : List (Entry K V)) (k : K) :
    lookupPairs k (pairsOf es) = (es.find? fun e => e.key = k).map Entry.value := by
  unfold lookupPairs pairsOf
  induction es with
  | nil => rfl
  | cons e es ih =>
    rw [List.map_cons]
    by_cases h : e.key = k
    · rw [List.find?_cons_of_pos _ (by simpa using h),
        List.find?_cons_of_pos _ (by simpa using h)]
      rfl
    · rw [List.find?_cons_of_neg _ (by simpa using h),
        List.find?_cons_of_neg _ (by simpa using h)]
      exact ih

/-- Refinement of `get`: on a well-formed list it never panics and returns
exactly the value associated to the key in the entry list. -/
theorem get_spec {K V : Type} [LinearOrder K] {s : SkipList K V}
    {es : List (Entry K V)} (hwf : WFc s es) (k : K) :
    s.get k = some (lookupPairs k (pairsOf es)) := by
  rw [find?_pairsOf]
  unfold SkipList.get
  have hpp : predPos es k s.level = none := hwf.predPos_top k (le_refl _)
  cases hfind : es.find? fun e => e.key = k with
  | none =>
    have hk : ∀ e ∈ es, ¬e.key = k := by
      intro e he
      have := List.find?_eq_none.mp hfind e he
      simpa using this
    rw [← hpp]
    simpa using getLoop_absent hwf hk s.level (le_refl _)
  | some e =>
    have he : e ∈ es := List.mem_of_find?_eq_some hfind
    have hek : e.key = k := by simpa using List.find?_some hfind
    have h1 : 1 ≤ s.level := le_trans (hwf.entry_level_pos he) (hwf.entry_level_le he)
    rw [← hpp]
    simpa using getLoop_present hwf he hek s.level h1 (le_refl _)

/-! ## Mutation machinery -/

theorem takeWhile_nil_of_none {α : Type} (p : α → Bool) {xs : List α}
    (h : ∀ x ∈ xs, ¬p x) : xs.takeWhile p = [] := by
  cases xs with
  | nil => rfl
  | cons x t =>
    rw [List.takeWhile_cons_of_neg]
    exact h x (List.mem_cons_self _ _)

theorem dropWhile_self_of_none {α : Type} (p : α → Bool) {xs : List α}
    (h : ∀ x ∈ xs, ¬p x) : xs.dropWhile p = xs := by
  cases xs with
  | nil => rfl
  | cons x t =>
    rw [List.dropWhile_cons_of_neg]
    exact h x (List.mem_cons_self _ _)

theorem isChain_head {K V : Type} {s : SkipList K V} {l : Nat} {p : Option Nat}
    {c : List Nat} (h : IsChain s l p c) : nextAt s p l = some c.head? := by
  cases c with
  | nil => exact h
  | cons x xs => exact h.1

theorem findNode_of_mem_nodup {K V : Type} {ns : List (Nat × Node K V)}
    (hn : (ns.map Prod.fst).Nodup) {pr : Nat × Node K V} (h : pr ∈ ns) :
    findNode ns pr.1 = some pr.2 := by
  induction ns with
  | nil => simp at h
  | cons q t ih =>
    rw [List.map_cons, List.nodup_cons] at hn
    rw [findNode_cons]
    rcases List.mem_cons.mp h with rfl | h
    · rw [if_pos rfl]
    · have hq : ¬q.1 = pr.1 := by
        intro hc
        exact hn.1 (hc ▸ List.mem_map.mpr ⟨pr, h, rfl⟩)
      rw [if_neg hq]
      exact ih hn.2 h

/-- Two states have the same allocation shape: identical sentinel-array length,
scalar fields and node identifiers, and node payloads that agree on key, value,
level and forward-array length (only the forward pointers may differ). -/
def SameShape {K V : Type} (t t' : SkipList K V) : Prop :=
  t'.headNext.length = t.headNext.length ∧
  t'.nodes.map Prod.fst = t.nodes.map Prod.fst ∧
  (∀ i n, findNode t.nodes i = some n → ∃ n', findNode t'.nodes i = some n' ∧
    n'.key = n.key ∧ n'.value = n.value ∧ n'.level = n.level ∧
    n'.next.length = n.next.length) ∧
  t'.fresh = t.fresh ∧ t'.len = t.len ∧ t'.level = t.level ∧
  t'.max_level = t.max_level

theorem sameShape_refl {K V : Type} (t : SkipList K V) : SameShape t t :=
  ⟨rfl, rfl, fun i n h => ⟨n, h, rfl, rfl, rfl, rfl⟩, rfl, rfl, rfl, rfl⟩

theorem sameShape_trans {K V : Type} {t₁ t₂ t₃ : SkipList K V}
    (h₁ : SameShape t₁ t₂) (h₂ : SameShape t₂ t₃) : SameShape t₁ t₃ := by
  obtain ⟨a1, b1, c1, d1, e1, f1, g1⟩ := h₁
  obtain ⟨a2, b2, c2, d2, e2, f2, g2⟩ := h₂
  refine ⟨a2.trans a1, b2.trans b1, ?_, d2.trans d1, e2.trans e1, f2.trans f1,
    g2.trans g1⟩
  intro i n h
  obtain ⟨n', h', hk, hv, hl, hx⟩ := c1 i n h
  obtain ⟨n'', h'', hk', hv', hl', hx'⟩ := c2 i n' h'
  exact ⟨n'', h'', hk'.trans hk, hv'.trans hv, hl'.trans hl, hx'.trans hx⟩

theorem entryAt_of_sameShape {K V : Type} {t t' : SkipList K V}
    (hs : SameShape t t') {e : Entry K V} (he : entryAt t e) : entryAt t' e := by
  obtain ⟨nx, hfind⟩ := he
  obtain ⟨n', h', hk, hv, hl, _⟩ := hs.2.2.1 e.id _ hfind
  refine ⟨n'.next, ?_⟩
  rw [h']
  obtain ⟨a, b, c, d⟩ := n'
  simp at hk hv hl
  rw [hk, hv, hl]

/-- Effect of a single forward-pointer write: the written slot reads back the
new value, every other position/level pair is untouched, and the allocation
shape is preserved. -/
theorem setNextAt_spec {K V : Type} {t : SkipList K V} {p : Option Nat} {l : Nat}
    {v : Option Nat} {t' : SkipList K V} (h : setNextAt t p l v = some t') :
    SameShape t t' ∧ nextAt t' p l = some v ∧
    ∀ q l', ¬(l' = l ∧ q = p) → nextAt t' q l' = nextAt t q l' := by
  cases p with
  | none =>
    simp only [setNextAt] at h
    by_cases hl : l < t.headNext.length
    · rw [if_pos hl] at h
      simp only [Option.some.injEq] at h
      subst h
      refine ⟨⟨by simp, rfl, fun i n hf => ⟨n, hf, rfl, rfl, rfl, rfl⟩, rfl, rfl, rfl, rfl⟩,
        ?_, ?_⟩
      · show (t.headNext.set l v).get? l = some v
        simp [List.getElem?_set_eq_of_lt, hl, List.get?_eq_getElem?]
      · intro q l' hq
        cases q with
        | none =>
          show (t.headNext.set l v).get? l' = t.headNext.get? l'
          have hne : l ≠ l' := fun hc => hq ⟨hc.symm, rfl⟩
          simp [List.get?_eq_getElem?, List.getElem?_set_ne hne]
        | some i => rfl
    · rw [if_neg hl] at h
      simp at h
  | some i =>
    simp only [setNextAt] at h
    cases hf : findNode t.nodes i with
    | none =>
      rw [hf] at h
      simp at h
    | some n =>
      rw [hf] at h
      replace h : (if l < n.next.length then
          some { t with nodes := setNode t.nodes i { n with next := n.next.set l v } }
          else none) = some t' := h
      by_cases hl : l < n.next.length
      · rw [if_pos hl] at h
        simp only [Option.some.injEq] at h
        subst h
        refine ⟨⟨rfl, by rw [map_fst_setNode], ?_, rfl, rfl, rfl, rfl⟩, ?_, ?_⟩
        · intro x m hx
          by_cases hxi : x = i
          · subst hxi
            rw [hf] at hx
            simp only [Option.some.injEq] at hx
            rw [← hx]
            refine ⟨{ n with next := n.next.set l v }, ?_, rfl, rfl, rfl, by simp⟩
            show findNode (setNode t.nodes x _) x = _
            rw [findNode_setNode_self, hf]
            rfl
          · exact ⟨m, by rw [findNode_setNode_ne _ hxi]; exact hx, rfl, rfl, rfl, rfl⟩
        · show nextAt _ (some i) l = some v
          simp only [nextAt]
          show (findNode (setNode t.nodes i _) i).bind _ = _
          rw [findNode_setNode_self, hf]
          simp only [Option.map_some', Option.some_bind]
          show (n.next.set l v).get? l = some v
          simp [List.getElem?_set_eq_of_lt, hl, List.get?_eq_getElem?]
        · intro q l' hq
          cases q with
          | none => rfl
          | some x =>
            by_cases hxi : x = i
            · subst hxi
              have hne : l ≠ l' := fun hc => hq ⟨hc.symm, rfl⟩
              show (findNode (setNode t.nodes x _) x).bind _ = (findNode t.nodes x).bind _
              rw [findNode_setNode_self, hf]
              simp only [Option.map_some', Option.some_bind]
              show (n.next.set l v).get? l' = n.next.get? l'
              simp [List.get?_eq_getElem?, List.getElem?_set_ne hne]
            · show (findNode (setNode t.nodes i _) x).bind _ = (findNode t.nodes x).bind _
              rw [findNode_setNode_ne _ hxi]
      · rw [if_neg hl] at h
        simp at h

theorem endPos_ne_nil {a : List Nat} (h : ¬a = []) (p : Option Nat) :
    ∃ z, endPos p a = some z ∧ z ∈ a := by
  have hs : a.getLast?.isSome := by
    rw [List.getLast?_isSome]
    exact h
  obtain ⟨z, hz⟩ := Option.isSome_iff_exists.mp hs
  refine ⟨z, ?_, ?_⟩
  · unfold endPos
    rw [hz]
    rfl
  · have hmem : z ∈ a.getLast? := Option.mem_def.mpr hz
    obtain ⟨hne2, h2⟩ := List.mem_getLast?_eq_getLast hmem
    rw [h2]
    exact List.getLast_mem hne2

theorem splice_chain_aux {K V : Type} {t t' : SkipList K V} {j nid : Nat}
    {b : List Nat} {P : Option Nat}
    (hmo : ∀ q, ¬q = P → ¬q = some nid → nextAt t' q j = nextAt t q j)
    (hmp : nextAt t' P j = some (some nid))
    (hmn : nextAt t' (some nid) j = some b.head?)
    (hbP : ∀ x ∈ b, ¬some x = P)
    (hbn : ∀ x ∈ b, ¬x = nid) :
    ∀ a (p : Option Nat), a.Nodup → (∀ x ∈ a, ¬x = nid) →
      IsChain t j p (a ++ b) → endPos p a = P →
      (a = [] → p = P) → (¬a = [] → ¬p = P) → ¬p = some nid →
      IsChain t' j p (a ++ nid :: b) := by
  intro a
  induction a with
  | nil =>
    intro p _ _ hch hP hpeq _ _
    have hp := hpeq rfl
    subst hp
    refine ⟨hmp, ?_⟩
    cases b with
    | nil => exact hmn
    | cons x b' =>
      refine ⟨hmn, ?_⟩
      apply isChain_congr ?_ hch.2
      intro q hq
      have hqb : ∃ y, y ∈ x :: b' ∧ q = some y := by
        rcases hq with rfl | ⟨y, hy, rfl⟩
        · exact ⟨x, List.mem_cons_self _ _, rfl⟩
        · exact ⟨y, List.mem_cons_of_mem _ hy, rfl⟩
      obtain ⟨y, hy, rfl⟩ := hqb
      exact hmo _ (hbP y hy) fun hc => hbn y hy (Option.some.inj hc)
  | cons y a' ih =>
    intro p hnd han hch hP hne hpP hpn
    rw [List.cons_append] at hch
    obtain ⟨h1, h2⟩ := hch
    have hyP : endPos (some y) a' = P := by rw [← hP, endPos_cons]
    have hstep : nextAt t' p j = some (some y) := by
      rw [hmo p (hpP (by simp)) hpn]
      exact h1
    refine ⟨hstep, ?_⟩
    apply ih (some y) (List.nodup_cons.mp hnd).2
      (fun x hx => han x (List.mem_cons_of_mem _ hx)) h2 hyP ?_ ?_ ?_
    · intro h0
      rw [← hyP, h0]
      rfl
    · intro h0 hc
      obtain ⟨z, hz, hzmem⟩ := endPos_ne_nil h0 (some y)
      rw [hyP] at hz
      rw [hz] at hc
      exact (List.nodup_cons.mp hnd).1 (Option.some.inj hc ▸ hzmem)
    · intro hc
      exact han y (List.mem_cons_self _ _) (Option.some.inj hc)

theorem splice_isChain {K V : Type} {t t' : SkipList K V} {j nid : Nat}
    {a b : List Nat}
    (hch : IsChain t j none (a ++ b))
    (hmo : ∀ q, ¬q = endPos none a → ¬q = some nid → nextAt t' q j = nextAt t q j)
    (hmp : nextAt t' (endPos none a) j = some (some nid))
    (hmn : nextAt t' (some nid) j = some b.head?)
    (hnd : (a ++ b).Nodup)
    (hn : ∀ x ∈ a ++ b, ¬x = nid) :
    IsChain t' j none (a ++ nid :: b) := by
  have hdisj := List.nodup_append.mp hnd
  have hbP : ∀ x ∈ b, ¬some x = endPos none a := by
    intro x hx hc
    by_cases ha : a = []
    · rw [ha] at hc
      simp [endPos] at hc
    · obtain ⟨z, hz, hzmem⟩ := endPos_ne_nil ha none
      rw [hz] at hc
      exact hdisj.2.2 (Option.some.inj hc ▸ hzmem) hx
  exact splice_chain_aux hmo hmp hmn hbP
    (fun x hx => hn x (List.mem_append_right _ hx)) a none hdisj.1
    (fun x hx => hn x (List.mem_append_left _ hx)) hch rfl
    (fun h0 => by simp [h0, endPos]) (fun h0 hc => by
      obtain ⟨z, hz, _⟩ := endPos_ne_nil h0 (none : Option Nat)
      rw [← hc] at hz
      exact Option.noConfusion hz) (by simp)

theorem unlink_chain_aux {K V : Type} {t t' : SkipList K V} {j x : Nat}
    {b : List Nat} {P : Option Nat}
    (hmo : ∀ q, ¬q = P → nextAt t' q j = nextAt t q j)
    (hmp : nextAt t' P j = some b.head?)
    (hbP : ∀ y ∈ b, ¬some y = P) :
    ∀ a (p : Option Nat), a.Nodup → IsChain t j p (a ++ x :: b) →
      endPos p a = P → (a = [] → p = P) → (¬a = [] → ¬p = P) →
      IsChain t' j p (a ++ b) := by
  intro a
  induction a with
  | nil =>
    intro p _ hch hP hpeq _
    have hp := hpeq rfl
    subst hp
    obtain ⟨h1, h2⟩ := hch
    cases b with
    | nil => exact hmp
    | cons z b' =>
      refine ⟨hmp, ?_⟩
      apply isChain_congr ?_ h2.2
      intro q hq
      have hqb : ∃ y, y ∈ z :: b' ∧ q = some y := by
        rcases hq with rfl | ⟨y, hy, rfl⟩
        · exact ⟨z, List.mem_cons_self _ _, rfl⟩
        · exact ⟨y, List.mem_cons_of_mem _ hy, rfl⟩
      obtain ⟨y, hy, rfl⟩ := hqb
      exact hmo _ (hbP y hy)
  | cons y a' ih =>
    intro p hnd hch hP hne hpP
    rw [List.cons_append] at hch
    obtain ⟨h1, h2⟩ := hch
    have hyP : endPos (some y) a' = P := by rw [← hP, endPos_cons]
    have hstep : nextAt t' p j = some (some y) := by
      rw [hmo p (hpP (by simp))]
      exact h1
    refine ⟨hstep, ?_⟩
    apply ih (some y) (List.nodup_cons.mp hnd).2 h2 hyP ?_ ?_
    · intro h0
      rw [← hyP, h0]
      rfl
    · intro h0 hc
      obtain ⟨z, hz, hzmem⟩ := endPos_ne_nil h0 (some y)
      rw [hyP] at hz
      rw [hz] at hc
      exact (List.nodup_cons.mp hnd).1 (Option.some.inj hc ▸ hzmem)

theorem unlink_isChain {K V : Type} {t t' : SkipList K V} {j x : Nat}
    {a b : List Nat}
    (hch : IsChain t j none (a ++ x :: b))
    (hmo : ∀ q, ¬q = endPos none a → nextAt t' q j = nextAt t q j)
    (hmp : nextAt t' (endPos none a) j = some b.head?)
    (hnd : (a ++ x :: b).Nodup) :
    IsChain t' j none (a ++ b) := by
  have hdisj := List.nodup_append.mp hnd
  have hbP : ∀ y ∈ b, ¬some y = endPos none a := by
    intro y hy hc
    by_cases ha : a = []
    · rw [ha] at hc
      simp [endPos] at hc
    · obtain ⟨z, hz, hzmem⟩ := endPos_ne_nil ha none
      rw [hz] at hc
      exact hdisj.2.2 (Option.some.inj hc ▸ hzmem) (List.mem_cons_of_mem _ hy)
  exact unlink_chain_aux hmo hmp hbP a none hdisj.1 hch rfl
    (fun h0 => by simp [h0, endPos]) fun h0 hc => by
      obtain ⟨z, hz, _⟩ := endPos_ne_nil h0 (none : Option Nat)
      rw [← hc] at hz
      exact Option.noConfusion hz

/-! ## Sorted splits and the insert descent -/

theorem sorted_split_absent {K V : Type} [LinearOrder K] {es : List (Entry K V)}
    {k : K} (hs : es.Pairwise fun a b => a.key < b.key)
    (hk : ∀ e ∈ es, ¬e.key = k) :
    ∀ e ∈ es.dropWhile fun x => x.key < k, k < e.key := by
  intro e he
  cases hD : es.dropWhile fun x => x.key < k with
  | nil =>
    rw [hD] at he
    simp at he
  | cons d D =>
    rw [hD] at he
    have hdes : d ∈ es := (List.dropWhile_sublist _).mem (hD ▸ List.mem_cons_self d D)
    have hdk : ¬d.key < k := by
      have := dropWhile_head_not _ hD
      simpa using this
    have hdgt : k < d.key := lt_of_le_of_ne (not_lt.mp hdk) fun hc => hk d hdes hc.symm
    rcases List.mem_cons.mp he with rfl | he
    · exact hdgt
    · have hPD : (es.dropWhile fun x => x.key < k).Pairwise fun a b => a.key < b.key :=
        hs.sublist (List.dropWhile_sublist _)
      rw [hD] at hPD
      exact lt_trans hdgt ((List.pairwise_cons.mp hPD).1 e he)

theorem sorted_split_present {K V : Type} [LinearOrder K] {es : List (Entry K V)}
    {k : K} (hs : es.Pairwise fun a b => a.key < b.key) {e : Entry K V}
    (he : e ∈ es) (hek : e.key = k) :
    ∃ B, es = (es.takeWhile fun x => x.key < k) ++ e :: B ∧
      (∀ x ∈ B, k < x.key) := by
  have hsplit := List.takeWhile_append_dropWhile
    (p := fun x : Entry K V => decide (x.key < k)) (l := es)
  have heD : e ∈ es.dropWhile fun x => x.key < k := by
    have hmm : e ∈ (es.takeWhile fun x : Entry K V => decide (x.key < k)) ++
        es.dropWhile fun x : Entry K V => decide (x.key < k) := by
      rw [hsplit]
      exact he
    rcases List.mem_append.mp hmm with hmem | hmem
    · have := List.mem_takeWhile_imp hmem
      rw [hek] at this
      simp at this
    · exact hmem
  cases hD : es.dropWhile fun x : Entry K V => decide (x.key < k) with
  | nil => simp [hD] at heD
  | cons d D =>
    rw [hD] at heD
    have hPD : (es.dropWhile fun x : Entry K V => decide (x.key < k)).Pairwise
        fun a b => a.key < b.key := hs.sublist (List.dropWhile_sublist _)
    rw [hD] at hPD
    have hde : d = e := by
      rcases List.mem_cons.mp heD with h1 | h1
      · exact h1.symm
      · exfalso
        have hdk : d.key < e.key := (List.pairwise_cons.mp hPD).1 e h1
        have hdnk := dropWhile_head_not _ hD
        rw [hek] at hdk
        exact hdnk (by simpa using hdk)
    subst hde
    refine ⟨D, by rw [← hD, hsplit], ?_⟩
    intro x hx
    have := (List.pairwise_cons.mp hPD).1 x hx
    rw [hek] at this
    exact this

theorem predsAt_of_split {K V : Type} [LinearOrder K] {A B : List (Entry K V)}
    {k : K} (hA : ∀ e ∈ A, e.key < k) (hB : ∀ e ∈ B, ¬e.key < k) (j : Nat) :
    predsAt (A ++ B) k j = A.filter (fun e => j < e.level) ∧
      ((chainEs (A ++ B) j).dropWhile fun e => e.key < k) =
        B.filter fun e => j < e.level := by
  unfold predsAt chainEs
  rw [List.filter_append]
  have hAf : ∀ e ∈ A.filter fun e : Entry K V => decide (j < e.level),
      (fun e : Entry K V => decide (e.key < k)) e = true := by
    intro e he
    simpa using hA e ((List.filter_sublist A).mem he)
  have hBf : ∀ e ∈ B.filter fun e : Entry K V => decide (j < e.level),
      ¬(fun e : Entry K V => decide (e.key < k)) e = true := by
    intro e he
    simpa using hB e ((List.filter_sublist B).mem he)
  constructor
  · rw [takeWhile_append_all _ _ hAf, takeWhile_nil_of_none _ hBf, List.append_nil]
  · rw [dropWhile_append_all _ _ hAf, dropWhile_self_of_none _ hBf]

/-- The fully built predecessor array of the descent: slot `i` holds the
predecessor position at level `i` for `l ≤ i < top`, and is unwritten
otherwise. -/
def updArr {K V : Type} [LinearOrder K] (es : List (Entry K V)) (k : K)
    (m top l : Nat) : List (Option (Option Nat)) :=
  (List.range m).map fun i => if l ≤ i ∧ i < top then some (predPos es k i) else none

theorem updArr_init {K V : Type} [LinearOrder K] (es : List (Entry K V)) (k : K)
    (m top : Nat) : updArr es k m top top = List.replicate m none := by
  rw [List.eq_replicate]
  constructor
  · simp [updArr]
  · intro b hb
    obtain ⟨i, _, hi⟩ := List.mem_map.mp hb
    rw [← hi, if_neg]
    omega

theorem updArr_set {K V : Type} [LinearOrder K] (es : List (Entry K V)) (k : K)
    {m top l : Nat} (hlt : l < top) (hlm : l < m) :
    (updArr es k m top (l + 1)).set l (some (predPos es k l)) =
      updArr es k m top l := by
  apply List.ext_getElem?
  intro i
  by_cases him : i < m
  · by_cases hil : i = l
    · subst hil
      rw [List.getElem?_set_self' ]
      simp [updArr, List.getElem?_map, List.getElem?_range, him]
      omega
    · rw [List.getElem?_set_ne (by omega)]
      simp only [updArr, List.getElem?_map, List.getElem?_range, him, if_pos him]
      have : (l + 1 ≤ i ∧ i < top) ↔ (l ≤ i ∧ i < top) := by omega
      simp [this]
  · have h1 : (updArr es k m top (l + 1)).length = m := by simp [updArr]
    have h2 : (updArr es k m top l).length = m := by simp [updArr]
    rw [List.getElem?_eq_none, List.getElem?_eq_none]
    · rw [h2]
      omega
    · rw [List.length_set, h1]
      omega

theorem insertLoop_missing {K V : Type} [LinearOrder K] {s : SkipList K V}
    {es : List (Entry K V)} (hwf : WFc s es) {k : K}
    (hk : ∀ e ∈ es, ¬e.key = k) :
    ∀ l, l ≤ s.level →
      insertLoop s k l (predPos es k l) (updArr es k s.max_level s.level l) =
        some (.missing (updArr es k s.max_level s.level 0)) := by
  intro l
  induction l with
  | zero =>
    intro _
    rfl
  | succ l ih =>
    intro hle
    have hl : l < s.max_level := lt_of_lt_of_le hle hwf.lvl_le
    have hscan := scan_descent_stop hwf hl fun e he hek => absurd hek (hk e he)
    simp only [insertLoop]
    rw [hscan]
    show insertLoop s k l (predPos es k l)
      ((updArr es k s.max_level s.level (l + 1)).set l (some (predPos es k l))) = _
    rw [updArr_set es k hle hl]
    exact ih (Nat.le_of_succ_le hle)

theorem insertLoop_found {K V : Type} [LinearOrder K] {s : SkipList K V}
    {es : List (Entry K V)} (hwf : WFc s es) {k : K} {e : Entry K V}
    (he : e ∈ es) (hek : e.key = k) :
    ∀ l, e.level ≤ l → l ≤ s.level → ∀ u,
      ∃ nx, findNode s.nodes e.id = some ⟨e.key, e.value, e.level, nx⟩ ∧
        insertLoop s k l (predPos es k l) u =
          some (.found e.id ⟨e.key, e.value, e.level, nx⟩) := by
  intro l
  induction l with
  | zero =>
    intro h
    exact absurd (le_trans (hwf.entry_level_pos he) h) (by simp)
  | succ l ih =>
    intro hegl hle u
    have hlm : l < s.max_level := lt_of_lt_of_le hle hwf.lvl_le
    by_cases hcase : l < e.level
    · obtain ⟨nx, hfind, hscan⟩ := scan_descent_found hwf hlm he hek hcase
      refine ⟨nx, hfind, ?_⟩
      simp only [insertLoop]
      rw [hscan]
    · have habs : ∀ x ∈ es, x.key = k → ¬l < x.level := by
        intro x hx hxk
        have hxe : x = e := sorted_key_inj hwf.sorted hx he (hxk.trans hek.symm)
        rw [hxe]
        exact hcase
      have hscan := scan_descent_stop hwf hlm habs
      obtain ⟨nx, hfind, hloop⟩ := ih (not_lt.mp hcase) (Nat.le_of_succ_le hle)
        (u.set l (some (predPos es k l)))
      refine ⟨nx, hfind, ?_⟩
      simp only [insertLoop]
      rw [hscan]
      exact hloop

/-! ## Insert: the update path -/

theorem WFc.es_ids_nodup {K V : Type} [LinearOrder K] {s : SkipList K V}
    {es : List (Entry K V)} (hwf : WFc s es) : (es.map Entry.id).Nodup :=
  (hwf.ids.nodup_iff).mpr hwf.nodup

theorem WFc.id_inj {K V : Type} [LinearOrder K] {s : SkipList K V}
    {es : List (Entry K V)} (hwf : WFc s es) {x y : Entry K V} (hx : x ∈ es)
    (hy : y ∈ es) (h : x.id = y.id) : x = y :=
  List.inj_on_of_nodup_map hwf.es_ids_nodup hx hy h

theorem insert_update_spec {K V : Type} [LinearOrder K] {s : SkipList K V}
    {es : List (Entry K V)} (hwf : WFc s es) {k : K} {e : Entry K V}
    (he : e ∈ es) (hek : e.key = k) (v : V) (r : Nat) :
    ∃ nx, findNode s.nodes e.id = some ⟨e.key, e.value, e.level, nx⟩ ∧
      s.insert k v r = some (some e.value,
        { s with nodes := setNode s.nodes e.id ⟨e.key, v, e.level, nx⟩ }) := by
  obtain ⟨nx, hfind, hloop⟩ := insertLoop_found hwf he hek s.level
    (hwf.entry_level_le he) (le_refl _) (List.replicate s.max_level none)
  rw [hwf.predPos_top k (le_refl _)] at hloop
  refine ⟨nx, hfind, ?_⟩
  unfold SkipList.insert
  rw [hloop]

theorem wfc_insert_update {K V : Type} [LinearOrder K] {s : SkipList K V}
    {es : List (Entry K V)} (hwf : WFc s es) {e : Entry K V} (he : e ∈ es)
    (v : V) {nx : List (Option Nat)}
    (hfind : findNode s.nodes e.id = some ⟨e.key, e.value, e.level, nx⟩) :
    WFc { s with nodes := setNode s.nodes e.id ⟨e.key, v, e.level, nx⟩ }
      (es.map fun x => if x.id = e.id then { x with value := v } else x) := by
  have hmem : (e.id, (⟨e.key, e.value, e.level, nx⟩ : Node K V)) ∈ s.nodes :=
    findNode_mem hfind
  have hnext : ∀ q l',
      nextAt { s with nodes := setNode s.nodes e.id ⟨e.key, v, e.level, nx⟩ } q l' =
        nextAt s q l' := by
    intro q l'
    cases q with
    | none => rfl
    | some x =>
      simp only [nextAt]
      by_cases hx : x = e.id
      · subst hx
        have h1 : findNode (setNode s.nodes e.id (⟨e.key, v, e.level, nx⟩ : Node K V)) e.id =
            some ⟨e.key, v, e.level, nx⟩ := by
          rw [findNode_setNode_self, hfind]
          rfl
        rw [h1, hfind]
        rfl
      · rw [findNode_setNode_ne _ hx]
  have hmemc : ∀ p, p ∈ setNode s.nodes e.id (⟨e.key, v, e.level, nx⟩ : Node K V) →
      p = (e.id, (⟨e.key, v, e.level, nx⟩ : Node K V)) ∨ p ∈ s.nodes :=
    fun p hp => mem_setNode hp
  constructor
  case head_len => exact hwf.head_len
  case node_len =>
    intro p hp
    rcases hmemc p hp with rfl | hp
    · exact hwf.node_len (e.id, ⟨e.key, e.value, e.level, nx⟩) hmem
    · exact hwf.node_len _ hp
  case level_pos =>
    intro p hp
    rcases hmemc p hp with rfl | hp
    · exact hwf.level_pos (e.id, ⟨e.key, e.value, e.level, nx⟩) hmem
    · exact hwf.level_pos _ hp
  case level_le =>
    intro p hp
    rcases hmemc p hp with rfl | hp
    · exact hwf.level_le (e.id, ⟨e.key, e.value, e.level, nx⟩) hmem
    · exact hwf.level_le _ hp
  case level_lt =>
    intro p hp
    rcases hmemc p hp with rfl | hp
    · exact hwf.level_lt (e.id, ⟨e.key, e.value, e.level, nx⟩) hmem
    · exact hwf.level_lt _ hp
  case fresh_gt =>
    intro p hp
    rcases hmemc p hp with rfl | hp
    · exact hwf.fresh_gt (e.id, ⟨e.key, e.value, e.level, nx⟩) hmem
    · exact hwf.fresh_gt _ hp
  case nodup =>
    show ((setNode s.nodes e.id _).map Prod.fst).Nodup
    rw [map_fst_setNode]
    exact hwf.nodup
  case lvl_le => exact hwf.lvl_le
  case entries =>
    intro x' hx'
    obtain ⟨x, hx, rfl⟩ := List.mem_map.mp hx'
    by_cases hxe : x.id = e.id
    · have hxeq : x = e := hwf.id_inj hx he hxe
      subst hxeq
      rw [if_pos rfl]
      refine ⟨nx, ?_⟩
      show findNode (setNode s.nodes x.id _) _ = _
      rw [findNode_setNode_self, hfind]
      rfl
    · rw [if_neg hxe]
      obtain ⟨nx', hfind'⟩ := hwf.entries x hx
      refine ⟨nx', ?_⟩
      show findNode (setNode s.nodes e.id _) _ = _
      rw [findNode_setNode_ne _ hxe]
      exact hfind'
  case ids =>
    have hids : (es.map fun x => if x.id = e.id then { x with value := v } else x).map
        Entry.id = es.map Entry.id := by
      rw [List.map_map]
      apply List.map_congr_left
      intro x _
      by_cases hxe : x.id = e.id
      · simp [hxe]
      · simp [hxe]
    rw [hids]
    show (es.map Entry.id).Perm
      ((setNode s.nodes e.id (⟨e.key, v, e.level, nx⟩ : Node K V)).map Prod.fst)
    rw [map_fst_setNode]
    exact hwf.ids
  case len_eq =>
    show s.len = _
    rw [List.length_map]
    exact hwf.len_eq
  case sorted =>
    apply List.Pairwise.map
    · intro a b hab
      by_cases ha : a.id = e.id <;> by_cases hb : b.id = e.id <;> simpa [ha, hb] using hab
    · exact hwf.sorted
  case chains =>
    intro l hl
    have hfeq : chainEs (es.map fun x => if x.id = e.id then { x with value := v } else x)
        l = (chainEs es l).map fun x => if x.id = e.id then { x with value := v } else x := by
      unfold chainEs
      rw [List.filter_map]
      congr 1
      apply List.filter_congr
      intro x _
      by_cases hxe : x.id = e.id
      · simp [hxe]
      · simp [hxe]
    rw [hfeq]
    have hmap : ((chainEs es l).map fun x =>
        if x.id = e.id then { x with value := v } else x).map Entry.id =
        (chainEs es l).map Entry.id := by
      rw [List.map_map]
      apply List.map_congr_left
      intro x _
      by_cases hxe : x.id = e.id
      · simp [hxe]
      · simp [hxe]
    rw [hmap]
    exact isChain_congr (fun q _ => hnext q l) (hwf.chains l hl)

/-! ## Insert: the new-key path -/

/-- The state right after the new node of `insert`'s new-key path has been
allocated (and `level` possibly raised), before any splicing. -/
def newState {K V : Type} (s : SkipList K V) (k : K) (v : V) (lvl : Nat) :
    SkipList K V :=
  { s with
    nodes := (s.fresh, ⟨k, v, lvl, List.replicate s.max_level none⟩) :: s.nodes
    fresh := s.fresh + 1
    level := max s.level lvl }

/-- The entry list after inserting a new key `k`: the new entry sits between
the entries below `k` and those above it. -/
def newEntries {K V : Type} [LinearOrder K] (es : List (Entry K V)) (k : K)
    (v : V) (nid lvl : Nat) : List (Entry K V) :=
  (es.takeWhile fun e => e.key < k) ++ ⟨nid, k, v, lvl⟩ ::
    (es.dropWhile fun e => e.key < k)

theorem enum_map_range {α : Type} (g : Nat → α) (m : Nat) :
    ((List.range m).map g).enum = (List.range m).map fun i => (i, g i) := by
  apply List.ext_getElem?
  intro i
  by_cases him : i < m
  · simp [List.getElem?_enum, List.getElem?_range, him]
  · have hn : (List.range m)[i]? = none := by
      apply List.getElem?_eq_none
      simpa using not_lt.mp him
    simp [List.getElem?_enum, hn]

theorem take_map_range {α : Type} (f : Nat → α) {lvl m : Nat} (h : lvl ≤ m) :
    ((List.range m).map f).take lvl = (List.range lvl).map f := by
  rw [← List.map_take, List.take_range, min_eq_left h]

theorem mapIdx_map_range {α β : Type} (g : Nat → α) (h : Nat → α → β) (m : Nat) :
    ((List.range m).map g).mapIdx h = (List.range m).map fun i => h i (g i) := by
  rw [List.mapIdx_eq_enum_map, enum_map_range, List.map_map]
  rfl

theorem setNextAt_head_eq {K V : Type} (t : SkipList K V) {l : Nat}
    (hl : l < t.headNext.length) (v : Option Nat) :
    setNextAt t none l v = some { t with headNext := t.headNext.set l v } := by
  simp [setNextAt, hl]

theorem setNextAt_node_eq {K V : Type} (t : SkipList K V) {i : Nat}
    {n : Node K V} (hf : findNode t.nodes i = some n) {l : Nat}
    (hl : l < n.next.length) (v : Option Nat) :
    setNextAt t (some i) l v =
      some { t with nodes := setNode t.nodes i { n with next := n.next.set l v } } := by
  simp only [setNextAt]
  rw [hf]
  show (if l < n.next.length then _ else none) = _
  rw [if_pos hl]

/-- The effective argument list fed to the linking loop of `insert`'s new-key
path: levels `0` to `lvl - 1`, each with its recorded predecessor position. -/
theorem link_args_eq {K V : Type} [LinearOrder K] {s : SkipList K V}
    {es : List (Entry K V)} (hwf : WFc s es) (k : K) {lvl : Nat}
    (hlm : lvl < s.max_level) :
    ((if s.level < lvl then
        raiseUpdates (updArr es k s.max_level s.level 0) s.level lvl
      else updArr es k s.max_level s.level 0).enum.take lvl) =
      (List.range lvl).map fun i => (i, some (predPos es k i)) := by
  have hle : lvl ≤ s.max_level := le_of_lt hlm
  by_cases hc : s.level < lvl
  · rw [if_pos hc]
    unfold raiseUpdates updArr
    rw [mapIdx_map_range, enum_map_range, take_map_range _ hle]
    apply List.map_congr_left
    intro i hi
    have hiv : i < lvl := List.mem_range.mp hi
    by_cases hit : i < s.level
    · have h1 : ¬(s.level ≤ i ∧ i < lvl) := by omega
      have h2 : 0 ≤ i ∧ i < s.level := by omega
      rw [if_neg h1, if_pos h2]
    · have h1 : s.level ≤ i ∧ i < lvl := by omega
      rw [if_pos h1]
      rw [hwf.predPos_top k (by omega : s.level ≤ i)]
  · rw [if_neg hc]
    unfold updArr
    rw [enum_map_range, take_map_range _ hle]
    apply List.map_congr_left
    intro i hi
    have hiv : i < lvl := List.mem_range.mp hi
    have h2 : 0 ≤ i ∧ i < s.level := by omega
    rw [if_pos h2]

theorem mem_chainEs_id_lt_fresh {K V : Type} [LinearOrder K] {s : SkipList K V}
    {es : List (Entry K V)} (hwf : WFc s es) {l : Nat} {x : Nat}
    (hx : x ∈ (chainEs es l).map Entry.id) : x < s.fresh := by
  obtain ⟨e, he, rfl⟩ := List.mem_map.mp hx
  have hes : e ∈ es := (mem_chainEs.mp he).1
  obtain ⟨nx, hmem⟩ := hwf.entry_pair hes
  exact hwf.fresh_gt _ hmem

theorem chainEs_nodup_ids {K V : Type} [LinearOrder K] {s : SkipList K V}
    {es : List (Entry K V)} (hwf : WFc s es) (l : Nat) :
    ((chainEs es l).map Entry.id).Nodup :=
  hwf.es_ids_nodup.sublist ((chainEs_sublist es l).map Entry.id)

theorem exists_split_absent {K V : Type} [LinearOrder K] {es : List (Entry K V)}
    {k : K} (hs : es.Pairwise fun a b => a.key < b.key)
    (hk : ∀ e ∈ es, ¬e.key = k) :
    ∃ A B, es = A ++ B ∧ (∀ e ∈ A, e.key < k) ∧ (∀ e ∈ B, k < e.key) ∧
      A = (es.takeWhile fun e => e.key < k) ∧
      B = es.dropWhile fun e => e.key < k := by
  refine ⟨es.takeWhile fun e => e.key < k, es.dropWhile fun e => e.key < k,
    (List.takeWhile_append_dropWhile _ _).symm, ?_, sorted_split_absent hs hk, rfl, rfl⟩
  intro e he
  simpa using List.mem_takeWhile_imp he

theorem linkLoop_spec {K V : Type} [LinearOrder K] {s : SkipList K V}
    {es : List (Entry K V)} (hwf : WFc s es) {k : K} (v : V)
    (hk : ∀ e ∈ es, ¬e.key = k) {lvl : Nat} (hlm : lvl < s.max_level) :
    ∀ n j t, j + n = lvl →
      SameShape (newState s k v lvl) t →
      (∀ l, j ≤ l → l < s.max_level → IsChain t l none ((chainEs es l).map Entry.id)) →
      (∀ l, l < j → IsChain t l none
        ((chainEs (newEntries es k v s.fresh lvl) l).map Entry.id)) →
      ∃ tf, linkList s.fresh t ((List.range' j n).map fun i =>
          (i, some (predPos es k i))) = some tf ∧
        SameShape (newState s k v lvl) tf ∧
        (∀ l, lvl ≤ l → l < s.max_level →
          IsChain tf l none ((chainEs es l).map Entry.id)) ∧
        (∀ l, l < lvl → IsChain tf l none
          ((chainEs (newEntries es k v s.fresh lvl) l).map Entry.id)) := by
  intro n
  induction n with
  | zero =>
    intro j t hj hsh hhigh hlow
    refine ⟨t, rfl, hsh, fun l hl hm => hhigh l (by omega) hm, fun l hl => hlow l (by omega)⟩
  | succ n ih =>
    intro j t hj hsh hhigh hlow
    have hjl : j < lvl := by omega
    have hjm : j < s.max_level := by omega
    obtain ⟨A, B, hAB, hA, hB, hAd, hBd⟩ := exists_split_absent (k := k) hwf.sorted hk
    obtain ⟨hshH, hshIds, hshFind, hshFresh, hshLen, hshLvl, hshMax⟩ := hsh
    have hnew0 : findNode (newState s k v lvl).nodes s.fresh =
        some ⟨k, v, lvl, List.replicate s.max_level none⟩ := by
      show findNode ((s.fresh, _) :: s.nodes) s.fresh = _
      rw [findNode_cons, if_pos rfl]
    obtain ⟨nd, hndf, hndk, hndv, hndl, hndlen⟩ := hshFind s.fresh _ hnew0
    have hndlen' : j < nd.next.length := by
      rw [hndlen]
      simpa using hjm
    have hchainj := hhigh j (le_refl _) hjm
    have hsplitj : chainEs es j =
        (A.filter fun e => j < e.level) ++ (B.filter fun e => j < e.level) := by
      rw [hAB]
      exact List.filter_append _ _
    have hpredj : predsAt es k j = A.filter fun e => j < e.level := by
      rw [hAB]
      exact (predsAt_of_split hA (fun e he => not_lt_of_gt (hB e he)) j).1
    have hppj : predPos es k j =
        endPos none ((A.filter fun e => j < e.level).map Entry.id) := by
      unfold predPos
      rw [hpredj]
    have hchainj' : IsChain t j none ((A.filter fun e => j < e.level).map Entry.id ++
        (B.filter fun e => j < e.level).map Entry.id) := by
      rw [← List.map_append, ← hsplitj]
      exact hchainj
    obtain ⟨hpath, hsuffix⟩ := isChain_split hchainj'
    have htgt : nextAt t (predPos es k j) j =
        some ((B.filter fun e => j < e.level).map Entry.id).head? := by
      rw [hppj]
      exact isChain_head hsuffix
    obtain ⟨t1, hw1⟩ : ∃ t1, setNextAt t (some s.fresh) j
        ((B.filter fun e => j < e.level).map Entry.id).head? = some t1 :=
      ⟨_, setNextAt_node_eq t hndf hndlen' _⟩
    obtain ⟨hsh1, hset1, hoth1⟩ := setNextAt_spec hw1
    have hw2ex : ∃ t2, setNextAt t1 (predPos es k j) j (some s.fresh) = some t2 := by
      rw [hppj]
      by_cases hAf : (A.filter fun e => j < e.level).map Entry.id = []
      · rw [hAf]
        refine ⟨_, setNextAt_head_eq _ ?_ _⟩
        show j < t1.headNext.length
        rw [hsh1.1, hshH]
        show j < s.headNext.length
        rw [hwf.head_len]
        exact hjm
      · obtain ⟨z, hz, hzmem⟩ := endPos_ne_nil hAf none
        rw [hz]
        obtain ⟨e0, he0, rfl⟩ := List.mem_map.mp hzmem
        have he0es : e0 ∈ es := by
          rw [hAB]
          exact List.mem_append_left _ ((List.filter_sublist _).mem he0)
        obtain ⟨nx0, hf0⟩ := hwf.entries e0 he0es
        have he0lt : e0.id < s.fresh :=
          hwf.fresh_gt _ (findNode_mem hf0)
        have hf0' : findNode (newState s k v lvl).nodes e0.id =
            some ⟨e0.key, e0.value, e0.level, nx0⟩ := by
          show findNode ((s.fresh, _) :: s.nodes) e0.id = _
          rw [findNode_cons, if_neg (by omega)]
          exact hf0
        obtain ⟨nd0, hnd0f, _, _, _, hlen0⟩ := hshFind e0.id _ hf0'
        obtain ⟨nd1, hnd1f, _, _, _, hlen1⟩ := hsh1.2.2.1 e0.id _ hnd0f
        have hlen1' : nd1.next.length = s.max_level := by
          rw [hlen1, hlen0]
          exact hwf.node_len _ (findNode_mem hf0)
        exact ⟨_, setNextAt_node_eq _ hnd1f (by rw [hlen1']; exact hjm) _⟩
    obtain ⟨t2, hw2⟩ := hw2ex
    obtain ⟨hsh2, hset2, hoth2⟩ := setNextAt_spec hw2
    have hppne : ¬predPos es k j = some s.fresh := by
      rw [hppj]
      by_cases hAf : (A.filter fun e => j < e.level).map Entry.id = []
      · rw [hAf]
        simp [endPos]
      · obtain ⟨z, hz, hzmem⟩ := endPos_ne_nil hAf none
        rw [hz]
        intro hc
        have hzz : z = s.fresh := Option.some.inj hc
        have hzc : z ∈ (chainEs es j).map Entry.id := by
          rw [hsplitj, List.map_append]
          exact List.mem_append_left _ hzmem
        have := mem_chainEs_id_lt_fresh hwf hzc
        omega
    have hcross : ∀ q l', ¬l' = j → nextAt t2 q l' = nextAt _ q l' :=
      fun q l' hl' =>
        (hoth2 q l' fun hc => hl' hc.1).trans (hoth1 q l' fun hc => hl' hc.1)
    have hmo : ∀ q, ¬q = predPos es k j → ¬q = some s.fresh →
        nextAt t2 q j = nextAt t q j :=
      fun q h1 h2 =>
        (hoth2 q j fun hc => h1 hc.2).trans (hoth1 q j fun hc => h2 hc.2)
    have hmn : nextAt t2 (some s.fresh) j =
        some ((B.filter fun e => j < e.level).map Entry.id).head? := by
      rw [hoth2 (some s.fresh) j fun hc => hppne hc.2.symm]
      exact hset1
    have hnewj : chainEs (newEntries es k v s.fresh lvl) j =
        (A.filter fun e => j < e.level) ++
          (⟨s.fresh, k, v, lvl⟩ : Entry K V) :: (B.filter fun e => j < e.level) := by
      unfold newEntries
      rw [← hAd, ← hBd]
      unfold chainEs
      rw [List.filter_append, List.filter_cons]
      simp [hjl]
    have hchain_new_j : IsChain t2 j none
        ((chainEs (newEntries es k v s.fresh lvl) j).map Entry.id) := by
      rw [hnewj, List.map_append, List.map_cons]
      apply splice_isChain hchainj' (fun q hq1 hq2 => hmo q (by rwa [hppj]) hq2)
        (by rw [← hppj]; exact hset2) hmn ?_ ?_
      · rw [← List.map_append, ← hsplitj]
        exact chainEs_nodup_ids hwf j
      · intro x hx hc
        rw [← List.map_append, ← hsplitj] at hx
        have := mem_chainEs_id_lt_fresh hwf hx
        omega
    have hsh' : SameShape (newState s k v lvl) t2 :=
      sameShape_trans ⟨hshH, hshIds, hshFind, hshFresh, hshLen, hshLvl, hshMax⟩
        (sameShape_trans hsh1 hsh2)
    have hhigh' : ∀ l, j + 1 ≤ l → l < s.max_level →
        IsChain t2 l none ((chainEs es l).map Entry.id) := by
      intro l hl hm
      exact isChain_congr (fun q _ => hcross q l (by omega)) (hhigh l (by omega) hm)
    have hlow' : ∀ l, l < j + 1 → IsChain t2 l none
        ((chainEs (newEntries es k v s.fresh lvl) l).map Entry.id) := by
      intro l hl
      by_cases hlj : l = j
      · subst hlj
        exact hchain_new_j
      · exact isChain_congr (fun q _ => hcross q l (by omega)) (hlow l (by omega))
    have hsplice : spliceAt t s.fresh (predPos es k j) j = some t2 := by
      show (nextAt t (predPos es k j) j).bind _ = some t2
      rw [htgt]
      show (setNextAt t (some s.fresh) j _).bind _ = some t2
      rw [hw1]
      exact hw2
    have hstep : (List.range' j (n + 1)).map (fun i => (i, some (predPos es k i))) =
        (j, some (predPos es k j)) :: (List.range' (j + 1) n).map
          fun i => (i, some (predPos es k i)) := by
      rw [List.range'_succ, List.map_cons]
    obtain ⟨tf, hrun, hshf, hhighf, hlowf⟩ := ih (j + 1) t2 (by omega) hsh' hhigh' hlow'
    refine ⟨tf, ?_, hshf, hhighf, hlowf⟩
    rw [hstep]
    show (spliceAt t s.fresh (predPos es k j) j).bind _ = some tf
    rw [hsplice]
    exact hrun

theorem wfc_insert_new {K V : Type} [LinearOrder K] {s : SkipList K V}
    {es : List (Entry K V)} (hwf : WFc s es) {k : K} {v : V}
    (hk : ∀ e ∈ es, ¬e.key = k) {lvl : Nat} (hl1 : 1 ≤ lvl)
    (hlm : lvl < s.max_level) {tf : SkipList K V}
    (hsh : SameShape (newState s k v lvl) tf)
    (hhigh : ∀ l, lvl ≤ l → l < s.max_level →
      IsChain tf l none ((chainEs es l).map Entry.id))
    (hlow : ∀ l, l < lvl →
      IsChain tf l none ((chainEs (newEntries es k v s.fresh lvl) l).map Entry.id)) :
    WFc { tf with len := tf.len + 1 } (newEntries es k v s.fresh lvl) := by
  obtain ⟨A, B, hAB, hA, hB, hAd, hBd⟩ := exists_split_absent (k := k) hwf.sorted hk
  obtain ⟨hH, hIds, hFind, hFresh, hLen, hLvl, hMax⟩ := hsh
  have hIds' : tf.nodes.map Prod.fst = s.fresh :: s.nodes.map Prod.fst := hIds
  have hH' : tf.headNext.length = s.headNext.length := hH
  have hFresh' : tf.fresh = s.fresh + 1 := hFresh
  have hLvl' : tf.level = max s.level lvl := hLvl
  have hMax' : tf.max_level = s.max_level := hMax
  have hLen' : tf.len = s.len := hLen
  have hnodup : (tf.nodes.map Prod.fst).Nodup := by
    rw [hIds']
    rw [List.nodup_cons]
    refine ⟨?_, hwf.nodup⟩
    intro hc
    obtain ⟨p, hp, hpe⟩ := List.mem_map.mp hc
    exact absurd (hpe ▸ hwf.fresh_gt p hp) (lt_irrefl _)
  have hnewE : newEntries es k v s.fresh lvl = A ++ (⟨s.fresh, k, v, lvl⟩ : Entry K V) :: B := by
    unfold newEntries
    rw [← hAd, ← hBd]
  have hmemf : ∀ p ∈ tf.nodes, p.2.next.length = s.max_level ∧ 1 ≤ p.2.level ∧
      p.2.level ≤ max s.level lvl ∧ p.2.level < s.max_level ∧ p.1 < s.fresh + 1 := by
    intro p hp
    have hfp : findNode tf.nodes p.1 = some p.2 := findNode_of_mem_nodup hnodup hp
    have hpid : p.1 ∈ tf.nodes.map Prod.fst := List.mem_map.mpr ⟨p, hp, rfl⟩
    rw [hIds'] at hpid
    rcases List.mem_cons.mp hpid with hid | hid
    · have hf0 : findNode (newState s k v lvl).nodes p.1 =
          some ⟨k, v, lvl, List.replicate s.max_level none⟩ := by
        show findNode ((s.fresh, _) :: s.nodes) p.1 = _
        rw [findNode_cons, if_pos hid.symm]
      obtain ⟨nd, hndf, _, _, hndl, hndlen⟩ := hFind p.1 _ hf0
      rw [hfp] at hndf
      have : p.2 = nd := Option.some.inj hndf
      subst this
      refine ⟨by simpa using hndlen, by rw [hndl]; exact hl1,
        by rw [hndl]; exact le_max_right _ _, by rw [hndl]; exact hlm, by omega⟩
    · obtain ⟨n0, hn0⟩ := findNode_of_mem_fst hid
      have hmem0 := findNode_mem hn0
      have hf0 : findNode (newState s k v lvl).nodes p.1 = some n0 := by
        show findNode ((s.fresh, _) :: s.nodes) p.1 = _
        have : ¬s.fresh = p.1 := by
          have := hwf.fresh_gt _ hmem0
          omega
        rw [findNode_cons, if_neg this]
        exact hn0
      obtain ⟨nd, hndf, _, _, hndl, hndlen⟩ := hFind p.1 _ hf0
      rw [hfp] at hndf
      have : p.2 = nd := Option.some.inj hndf
      subst this
      have h5 := hwf.fresh_gt _ hmem0
      refine ⟨by rw [hndlen]; exact hwf.node_len _ hmem0,
        by rw [hndl]; exact hwf.level_pos _ hmem0,
        by rw [hndl]; exact le_trans (hwf.level_le _ hmem0) (le_max_left _ _),
        by rw [hndl]; exact hwf.level_lt _ hmem0, by omega⟩
  constructor
  case head_len =>
    show tf.headNext.length = tf.max_level
    rw [hH', hMax']
    exact hwf.head_len
  case node_len =>
    intro p hp
    rw [show ({ tf with len := tf.len + 1 } : SkipList K V).max_level = s.max_level
      from hMax']
    exact (hmemf p hp).1
  case level_pos =>
    intro p hp
    exact (hmemf p hp).2.1
  case level_le =>
    intro p hp
    rw [show ({ tf with len := tf.len + 1 } : SkipList K V).level = max s.level lvl
      from hLvl']
    exact (hmemf p hp).2.2.1
  case level_lt =>
    intro p hp
    rw [show ({ tf with len := tf.len + 1 } : SkipList K V).max_level = s.max_level
      from hMax']
    exact (hmemf p hp).2.2.2.1
  case fresh_gt =>
    intro p hp
    rw [show ({ tf with len := tf.len + 1 } : SkipList K V).fresh = s.fresh + 1
      from hFresh']
    exact (hmemf p hp).2.2.2.2
  case nodup => exact hnodup
  case lvl_le =>
    show tf.level ≤ tf.max_level
    rw [hLvl', hMax']
    exact max_le hwf.lvl_le (le_of_lt hlm)
  case entries =>
    intro e' he'
    rw [hnewE] at he'
    have htransport : ∀ x : Entry K V, entryAt (newState s k v lvl) x →
        entryAt { tf with len := tf.len + 1 } x := by
      intro x hx
      exact entryAt_of_sameShape ⟨hH, hIds, hFind, hFresh, hLen, hLvl, hMax⟩ hx
    rcases List.mem_append.mp he' with hmem | hmem
    · have hx : e' ∈ es := by
        rw [hAB]
        exact List.mem_append_left _ hmem
      apply htransport
      obtain ⟨nx0, hf0⟩ := hwf.entries e' hx
      refine ⟨nx0, ?_⟩
      show findNode ((s.fresh, _) :: s.nodes) e'.id = _
      have : ¬s.fresh = e'.id := by
        have := hwf.fresh_gt _ (findNode_mem hf0)
        omega
      rw [findNode_cons, if_neg this]
      exact hf0
    · rcases List.mem_cons.mp hmem with rfl | hmem
      · apply htransport
        refine ⟨List.replicate s.max_level none, ?_⟩
        show findNode ((s.fresh, _) :: s.nodes) s.fresh = _
        rw [findNode_cons, if_pos rfl]
      · have hx : e' ∈ es := by
          rw [hAB]
          exact List.mem_append_right _ hmem
        apply htransport
        obtain ⟨nx0, hf0⟩ := hwf.entries e' hx
        refine ⟨nx0, ?_⟩
        show findNode ((s.fresh, _) :: s.nodes) e'.id = _
        have : ¬s.fresh = e'.id := by
          have := hwf.fresh_gt _ (findNode_mem hf0)
          omega
        rw [findNode_cons, if_neg this]
        exact hf0
  case ids =>
    show ((newEntries es k v s.fresh lvl).map Entry.id).Perm (tf.nodes.map Prod.fst)
    rw [hnewE, hIds', List.map_append, List.map_cons]
    refine List.Perm.trans List.perm_middle ?_
    apply List.Perm.cons
    rw [← List.map_append]
    have : A ++ B = es := hAB.symm
    rw [this]
    exact hwf.ids
  case len_eq =>
    show tf.len + 1 = (newEntries es k v s.fresh lvl).length
    rw [hnewE, hLen', hwf.len_eq, hAB]
    simp [List.length_append]
    omega
  case sorted =>
    rw [hnewE]
    rw [List.pairwise_append]
    refine ⟨hwf.sorted.sublist (by rw [hAB]; exact List.sublist_append_left _ _), ?_, ?_⟩
    · rw [List.pairwise_cons]
      refine ⟨fun b hb => hB b hb, hwf.sorted.sublist ?_⟩
      rw [hAB]
      exact List.sublist_append_right _ _
    · intro a ha b hb
      rcases List.mem_cons.mp hb with rfl | hb
      · exact hA a ha
      · exact lt_trans (hA a ha) (hB b hb)
  case chains =>
    intro l hl
    have hlm' : l < s.max_level := by
      rw [show ({ tf with len := tf.len + 1 } : SkipList K V).max_level = s.max_level
        from hMax'] at hl
      exact hl
    have hcong : ∀ q l', nextAt { tf with len := tf.len + 1 } q l' = nextAt tf q l' :=
      fun q l' => nextAt_congr rfl rfl q l'
    by_cases hll : l < lvl
    · exact isChain_congr (fun q _ => hcong q l) (hlow l hll)
    · have heq : chainEs (newEntries es k v s.fresh lvl) l = chainEs es l := by
        rw [hnewE]
        unfold chainEs
        rw [List.filter_append, List.filter_cons]
        rw [if_neg (by simpa using hll)]
        rw [← List.filter_append, ← hAB]
      rw [heq]
      exact isChain_congr (fun q _ => hcong q l) (hhigh l (not_lt.mp hll) hlm')

theorem insert_eq_missing {K V : Type} [LinearOrder K] {s : SkipList K V}
    {k : K} {v : V} {r : Nat} {U : List (Option (Option Nat))}
    (hloop : insertLoop s k s.level none (List.replicate s.max_level none) =
      some (.missing U)) :
    s.insert k v r = insertMissing s k v r U := by
  unfold SkipList.insert
  rw [hloop]

theorem insertMissing_reduce {K V : Type} [LinearOrder K] {s : SkipList K V}
    {k : K} {v : V} {r lvl : Nat} (U : List (Option (Option Nat)))
    (hrl : s.random_level r = some lvl) :
    insertMissing s k v r U =
      match linkList s.fresh (newState s k v lvl)
        ((if s.level < lvl then raiseUpdates U s.level lvl else U).enum.take lvl) with
      | none => none
      | some s3 => some (none, { s3 with len := s3.len + 1 }) := by
  unfold insertMissing
  rw [hrl]
  show (match linkList
      (allocNode (if s.level < lvl then { s with level := lvl } else s) k v lvl).1
      (allocNode (if s.level < lvl then { s with level := lvl } else s) k v lvl).2
      ((if s.level < lvl then raiseUpdates U s.level lvl else U).enum.take lvl) with
    | none => none
    | some s3 => some (none, { s3 with len := s3.len + 1 })) = _
  have hs1 : (if s.level < lvl then { s with level := lvl } else s) =
      { s with level := max s.level lvl } := by
    by_cases hc : s.level < lvl
    · rw [if_pos hc, max_eq_right (le_of_lt hc)]
    · rw [if_neg hc, max_eq_left (not_lt.mp hc)]
  rw [hs1]
  rfl

/-- The complete new-key path of `insert` on a well-formed list with capacity
at least 2: it never panics, returns `none`, adds exactly the new entry in key
order, increments `len`, allocates exactly one fresh node, and raises `level`
to the drawn level when that exceeds it. -/
theorem insert_new_spec {K V : Type} [LinearOrder K] {s : SkipList K V}
    {es : List (Entry K V)} (hwf : WFc s es) {k : K}
    (hk : ∀ e ∈ es, ¬e.key = k) (v : V) (r : Nat) (hm : 2 ≤ s.max_level) :
    ∃ s' lvl, s.insert k v r = some (none, s') ∧ 1 ≤ lvl ∧ lvl < s.max_level ∧
      WFc s' (newEntries es k v s.fresh lvl) ∧ s'.len = s.len + 1 ∧
      s'.max_level = s.max_level ∧ s'.level = max s.level lvl ∧
      s'.fresh = s.fresh + 1 := by
  have hl1 : 1 ≤ 1 + r % (s.max_level - 1) := by omega
  have hlm : 1 + r % (s.max_level - 1) < s.max_level := by
    have : r % (s.max_level - 1) < s.max_level - 1 := Nat.mod_lt _ (by omega)
    omega
  have hrl : s.random_level r = some (1 + r % (s.max_level - 1)) := by
    unfold SkipList.random_level
    rw [if_neg (by omega)]
  have hloop : insertLoop s k s.level none (List.replicate s.max_level none) =
      some (.missing (updArr es k s.max_level s.level 0)) := by
    have h0 := insertLoop_missing hwf hk s.level (le_refl _)
    rw [hwf.predPos_top k (le_refl _), updArr_init] at h0
    exact h0
  have hinit_high : ∀ l, 0 ≤ l → l < s.max_level →
      IsChain (newState s k v (1 + r % (s.max_level - 1))) l none
        ((chainEs es l).map Entry.id) := by
    intro l _ hl
    apply isChain_congr ?_ (hwf.chains l hl)
    intro q hq
    rcases hq with rfl | ⟨x, hx, rfl⟩
    · rfl
    · have hxf : x < s.fresh := mem_chainEs_id_lt_fresh hwf hx
      show (findNode ((s.fresh, _) :: s.nodes) x).bind _ = (findNode s.nodes x).bind _
      rw [findNode_cons, if_neg (by omega)]
  obtain ⟨tf, hlink, hshf, hhighf, hlowf⟩ := linkLoop_spec hwf v hk hlm
    (1 + r % (s.max_level - 1)) 0 (newState s k v (1 + r % (s.max_level - 1)))
    (by omega) (sameShape_refl _) hinit_high (fun l hl => absurd hl (by omega))
  refine ⟨{ tf with len := tf.len + 1 }, 1 + r % (s.max_level - 1), ?_, hl1, hlm,
    wfc_insert_new hwf hk hl1 hlm hshf hhighf hlowf, ?_, ?_, ?_, ?_⟩
  · rw [insert_eq_missing hloop, insertMissing_reduce _ hrl, link_args_eq hwf k hlm]
    have hlink' : linkList s.fresh (newState s k v (1 + r % (s.max_level - 1)))
        ((List.range (1 + r % (s.max_level - 1))).map
          fun i => (i, some (predPos es k i))) = some tf := by
      rw [List.range_eq_range']
      exact hlink
    rw [hlink']
  · show tf.len + 1 = s.len + 1
    rw [hshf.2.2.2.2.1]
    rfl
  · exact hshf.2.2.2.2.2.2
  · exact hshf.2.2.2.2.2.1
  · show tf.fresh = s.fresh + 1
    rw [hshf.2.2.2.1]
    rfl

/-! ## Delete -/

/-- The entry list after deleting the (unique) entry with key `k`. -/
def delEntries {K V : Type} [LinearOrder K] (es : List (Entry K V)) (k : K) :
    List (Entry K V) :=
  (es.takeWhile fun e => e.key < k) ++ (es.dropWhile fun e => e.key < k).tail

theorem deleteLoop_absent {K V : Type} [LinearOrder K] {s : SkipList K V}
    {es : List (Entry K V)} (hwf : WFc s es) {k : K}
    (hk : ∀ e ∈ es, ¬e.key = k) :
    ∀ l, l ≤ s.level → ∀ tgt,
      deleteLoop s k l (predPos es k l) (updArr es k s.max_level s.level l) tgt =
        some (updArr es k s.max_level s.level 0, tgt) := by
  intro l
  induction l with
  | zero =>
    intro _ tgt
    rfl
  | succ l ih =>
    intro hle tgt
    have hl : l < s.max_level := lt_of_lt_of_le hle hwf.lvl_le
    have hscan := scan_descent_stop hwf hl fun e he hek => absurd hek (hk e he)
    simp only [deleteLoop]
    rw [hscan]
    show deleteLoop s k l (predPos es k l)
      ((updArr es k s.max_level s.level (l + 1)).set l (some (predPos es k l))) tgt = _
    rw [updArr_set es k hle hl]
    exact ih (Nat.le_of_succ_le hle) tgt

theorem deleteLoop_present {K V : Type} [LinearOrder K] {s : SkipList K V}
    {es : List (Entry K V)} (hwf : WFc s es) {k : K} {e : Entry K V}
    (he : e ∈ es) (hek : e.key = k) :
    ∀ l, 1 ≤ l → l ≤ s.level → ∀ tgt,
      deleteLoop s k l (predPos es k l) (updArr es k s.max_level s.level l) tgt =
        some (updArr es k s.max_level s.level 0, some e.id) := by
  intro l
  induction l with
  | zero =>
    intro h
    simp at h
  | succ l ih =>
    intro _ hle tgt
    have hlm : l < s.max_level := lt_of_lt_of_le hle hwf.lvl_le
    by_cases hcase : l < e.level
    · obtain ⟨nx, hfind, hscan⟩ := scan_descent_found hwf hlm he hek hcase
      simp only [deleteLoop]
      rw [hscan]
      show deleteLoop s k l (predPos es k l)
        ((updArr es k s.max_level s.level (l + 1)).set l (some (predPos es k l)))
        (some e.id) = _
      rw [updArr_set es k hle hlm]
      cases l with
      | zero => rfl
      | succ l' =>
        exact ih (by omega) (Nat.le_of_succ_le hle) (some e.id)
    · have habs : ∀ x ∈ es, x.key = k → ¬l < x.level := by
        intro x hx hxk
        have hxe : x = e := sorted_key_inj hwf.sorted hx he (hxk.trans hek.symm)
        rw [hxe]
        exact hcase
      have hscan := scan_descent_stop hwf hlm habs
      simp only [deleteLoop]
      rw [hscan]
      show deleteLoop s k l (predPos es k l)
        ((updArr es k s.max_level s.level (l + 1)).set l (some (predPos es k l))) tgt = _
      rw [updArr_set es k hle hlm]
      have h1l : 1 ≤ l := le_trans (hwf.entry_level_pos he) (not_lt.mp hcase)
      exact ih h1l (Nat.le_of_succ_le hle) tgt

/-- On a well-formed list, deleting an absent key returns `none` and leaves
the state completely untouched. -/
theorem delete_absent_spec {K V : Type} [LinearOrder K] {s : SkipList K V}
    {es : List (Entry K V)} (hwf : WFc s es) {k : K}
    (hk : ∀ e ∈ es, ¬e.key = k) : s.delete k = some (none, s) := by
  have hloop : deleteLoop s k s.level none (List.replicate s.max_level none) none =
      some (updArr es k s.max_level s.level 0, none) := by
    have h0 := deleteLoop_absent hwf hk s.level (le_refl _) none
    rw [hwf.predPos_top k (le_refl _), updArr_init] at h0
    exact h0
  unfold SkipList.delete
  rw [hloop]

theorem del_args_eq {K V : Type} [LinearOrder K] {s : SkipList K V}
    {es : List (Entry K V)} (hwf : WFc s es) (k : K) {lv : Nat}
    (hlv : lv ≤ s.level) :
    (updArr es k s.max_level s.level 0).enum.take lv =
      (List.range lv).map fun i => (i, some (predPos es k i)) := by
  have hle : lv ≤ s.max_level := le_trans hlv hwf.lvl_le
  unfold updArr
  rw [enum_map_range, take_map_range _ hle]
  apply List.map_congr_left
  intro i hi
  have hiv : i < lv := List.mem_range.mp hi
  have h2 : 0 ≤ i ∧ i < s.level := by omega
  rw [if_pos h2]

theorem exists_split_present {K V : Type} [LinearOrder K] {es : List (Entry K V)}
    {k : K} (hs : es.Pairwise fun a b => a.key < b.key) {e : Entry K V}
    (he : e ∈ es) (hek : e.key = k) :
    ∃ A B, es = A ++ e :: B ∧ (∀ x ∈ A, x.key < k) ∧ (∀ x ∈ B, k < x.key) ∧
      delEntries es k = A ++ B := by
  obtain ⟨B, hAB, hB⟩ := sorted_split_present hs he hek
  refine ⟨es.takeWhile fun x => x.key < k, B, hAB, ?_, hB, ?_⟩
  · intro x hx
    simpa using List.mem_takeWhile_imp hx
  · unfold delEntries
    have hTD := List.takeWhile_append_dropWhile
      (p := fun x : Entry K V => decide (x.key < k)) (l := es)
    have hdw : (es.dropWhile fun x : Entry K V => decide (x.key < k)) = e :: B :=
      List.append_cancel_left (hTD.trans hAB)
    rw [hdw]
    rfl

theorem filter_ne_of_nodup {a b : List Nat} {x : Nat}
    (h : (a ++ x :: b).Nodup) :
    (a ++ x :: b).filter (fun y => y != x) = a ++ b := by
  obtain ⟨hna, hnb, hdisj⟩ := List.nodup_append.mp h
  rw [List.filter_append, List.filter_cons]
  have hxx : ((x != x) = true) = False := by simp
  rw [if_neg (by simp)]
  have hfa : a.filter (fun y => y != x) = a := by
    apply List.filter_eq_self.mpr
    intro y hy
    have : ¬y = x := fun hc => hdisj hy (hc ▸ List.mem_cons_self _ _)
    simpa using this
  have hfb : b.filter (fun y => y != x) = b := by
    apply List.filter_eq_self.mpr
    intro y hy
    have : ¬y = x := fun hc => (List.nodup_cons.mp hnb).1 (hc ▸ hy)
    simpa using this
  rw [hfa, hfb]

theorem unlinkLoop_spec {K V : Type} [LinearOrder K] {s : SkipList K V}
    {es : List (Entry K V)} (hwf : WFc s es) {k : K} {e : Entry K V}
    (he : e ∈ es) (hek : e.key = k) :
    ∀ n j t, j + n = e.level →
      SameShape s t →
      (∀ l, j ≤ l → l < s.max_level → IsChain t l none ((chainEs es l).map Entry.id)) →
      (∀ l, l < j → IsChain t l none ((chainEs (delEntries es k) l).map Entry.id)) →
      ∃ tf, unlinkList e.id t ((List.range' j n).map fun i =>
          (i, some (predPos es k i))) = some tf ∧
        SameShape s tf ∧
        (∀ l, e.level ≤ l → l < s.max_level →
          IsChain tf l none ((chainEs es l).map Entry.id)) ∧
        (∀ l, l < e.level →
          IsChain tf l none ((chainEs (delEntries es k) l).map Entry.id)) := by
  intro n
  induction n with
  | zero =>
    intro j t hj hsh hhigh hlow
    refine ⟨t, rfl, hsh, fun l hl hm => hhigh l (by omega) hm, fun l hl => hlow l (by omega)⟩
  | succ n ih =>
    intro j t hj hsh hhigh hlow
    have hjl : j < e.level := by omega
    have hjm : j < s.max_level := lt_trans hjl (hwf.entry_level_lt he)
    obtain ⟨A, B, hAB, hA, hB, hD⟩ := exists_split_present hwf.sorted he hek
    obtain ⟨hshH, hshIds, hshFind, hshFresh, hshLen, hshLvl, hshMax⟩ := hsh
    have hsplitj : chainEs es j = (A.filter fun x => j < x.level) ++
        e :: (B.filter fun x => j < x.level) := by
      rw [hAB]
      unfold chainEs
      rw [List.filter_append, List.filter_cons]
      simp [hjl]
    have hpredj : predsAt es k j = A.filter fun x => j < x.level := by
      rw [hAB]
      have hB' : ∀ x ∈ e :: B, ¬x.key < k := by
        intro x hx
        rcases List.mem_cons.mp hx with rfl | hx
        · rw [hek]
          exact lt_irrefl k
        · exact not_lt_of_gt (hB x hx)
      exact (predsAt_of_split hA hB' j).1
    have hppj : predPos es k j =
        endPos none ((A.filter fun x => j < x.level).map Entry.id) := by
      unfold predPos
      rw [hpredj]
    have hchainj : IsChain t j none (((A.filter fun x => j < x.level).map Entry.id) ++
        e.id :: ((B.filter fun x => j < x.level).map Entry.id)) := by
      have hcj := hhigh j (le_refl _) hjm
      rw [hsplitj, List.map_append, List.map_cons] at hcj
      exact hcj
    obtain ⟨hpathj, hsufj⟩ := isChain_split hchainj
    have hnt : nextAt t (some e.id) j =
        some (((B.filter fun x => j < x.level).map Entry.id).head?) :=
      isChain_head hsufj.2
    have hw1ex : ∃ t1, setNextAt t (predPos es k j) j
        (((B.filter fun x => j < x.level).map Entry.id).head?) = some t1 := by
      rw [hppj]
      by_cases hAf : (A.filter fun x => j < x.level).map Entry.id = []
      · rw [hAf]
        refine ⟨_, setNextAt_head_eq _ ?_ _⟩
        show j < t.headNext.length
        rw [hshH, hwf.head_len]
        exact hjm
      · obtain ⟨z, hz, hzmem⟩ := endPos_ne_nil hAf none
        rw [hz]
        obtain ⟨e0, he0, rfl⟩ := List.mem_map.mp hzmem
        have he0es : e0 ∈ es := by
          rw [hAB]
          exact List.mem_append_left _ ((List.filter_sublist _).mem he0)
        obtain ⟨nx0, hf0⟩ := hwf.entries e0 he0es
        obtain ⟨nd0, hnd0f, _, _, _, hlen0⟩ := hshFind e0.id _ hf0
        have hlen0' : nd0.next.length = s.max_level := by
          rw [hlen0]
          exact hwf.node_len _ (findNode_mem hf0)
        exact ⟨_, setNextAt_node_eq _ hnd0f (by rw [hlen0']; exact hjm) _⟩
    obtain ⟨t1, hw1⟩ := hw1ex
    obtain ⟨hsh1, hset1, hoth1⟩ := setNextAt_spec hw1
    have hndj : (((A.filter fun x => j < x.level).map Entry.id) ++
        e.id :: ((B.filter fun x => j < x.level).map Entry.id)).Nodup := by
      have hnd := chainEs_nodup_ids hwf j
      rw [hsplitj, List.map_append, List.map_cons] at hnd
      exact hnd
    have hmo : ∀ q, ¬q = endPos none ((A.filter fun x => j < x.level).map Entry.id) →
        nextAt t1 q j = nextAt t q j := by
      intro q hq
      apply hoth1
      intro hc
      exact hq (hc.2.trans hppj)
    have hmp : nextAt t1 (endPos none ((A.filter fun x => j < x.level).map Entry.id)) j =
        some (((B.filter fun x => j < x.level).map Entry.id).head?) := by
      rw [← hppj]
      exact hset1
    have hchain_del_j : IsChain t1 j none ((chainEs (delEntries es k) j).map Entry.id) := by
      have hdelj : chainEs (delEntries es k) j = (A.filter fun x => j < x.level) ++
          (B.filter fun x => j < x.level) := by
        rw [hD]
        unfold chainEs
        exact List.filter_append _ _
      rw [hdelj, List.map_append]
      exact unlink_isChain hchainj hmo hmp hndj
    have hcross : ∀ q l', ¬l' = j → nextAt t1 q l' = nextAt t q l' :=
      fun q l' hl' => hoth1 q l' fun hc => hl' hc.1
    have hsh' : SameShape s t1 :=
      sameShape_trans ⟨hshH, hshIds, hshFind, hshFresh, hshLen, hshLvl, hshMax⟩ hsh1
    have hhigh' : ∀ l, j + 1 ≤ l → l < s.max_level →
        IsChain t1 l none ((chainEs es l).map Entry.id) := by
      intro l hl hm
      exact isChain_congr (fun q _ => hcross q l (by omega)) (hhigh l (by omega) hm)
    have hlow' : ∀ l, l < j + 1 →
        IsChain t1 l none ((chainEs (delEntries es k) l).map Entry.id) := by
      intro l hl
      by_cases hlj : l = j
      · subst hlj
        exact hchain_del_j
      · exact isChain_congr (fun q _ => hcross q l (by omega)) (hlow l (by omega))
    obtain ⟨tf, hrun, hshf, hhighf, hlowf⟩ := ih (j + 1) t1 (by omega) hsh' hhigh' hlow'
    refine ⟨tf, ?_, hshf, hhighf, hlowf⟩
    have hstep : (List.range' j (n + 1)).map (fun i => (i, some (predPos es k i))) =
        (j, some (predPos es k j)) :: (List.range' (j + 1) n).map
          fun i => (i, some (predPos es k i)) := by
      rw [List.range'_succ, List.map_cons]
    rw [hstep]
    show (nextAt t (some e.id) j).bind _ = some tf
    rw [hnt]
    show (setNextAt t (predPos es k j) j
      (((B.filter fun x => j < x.level).map Entry.id).head?)).bind _ = some tf
    rw [hw1]
    exact hrun

theorem wfc_delete {K V : Type} [LinearOrder K] {s : SkipList K V}
    {es : List (Entry K V)} (hwf : WFc s es) {k : K} {e : Entry K V}
    (he : e ∈ es) (hek : e.key = k) {tf : SkipList K V} (hsh : SameShape s tf)
    (hhigh : ∀ l, e.level ≤ l → l < s.max_level →
      IsChain tf l none ((chainEs es l).map Entry.id))
    (hlow : ∀ l, l < e.level →
      IsChain tf l none ((chainEs (delEntries es k) l).map Entry.id)) :
    WFc { tf with nodes := eraseNode tf.nodes e.id, len := tf.len - 1 }
      (delEntries es k) := by
  obtain ⟨A, B, hAB, hA, hB, hD⟩ := exists_split_present hwf.sorted he hek
  obtain ⟨hshH, hshIds, hshFind, hshFresh, hshLen, hshLvl, hshMax⟩ := hsh
  have htfnodup : (tf.nodes.map Prod.fst).Nodup := by
    rw [hshIds]
    exact hwf.nodup
  have hmemf : ∀ p ∈ tf.nodes, p.2.next.length = s.max_level ∧ 1 ≤ p.2.level ∧
      p.2.level ≤ s.level ∧ p.2.level < s.max_level ∧ p.1 < s.fresh := by
    intro p hp
    have hfp : findNode tf.nodes p.1 = some p.2 := findNode_of_mem_nodup htfnodup hp
    have hpid : p.1 ∈ tf.nodes.map Prod.fst := List.mem_map.mpr ⟨p, hp, rfl⟩
    rw [hshIds] at hpid
    obtain ⟨n0, hn0⟩ := findNode_of_mem_fst hpid
    have hmem0 := findNode_mem hn0
    obtain ⟨nd, hndf, _, _, hndl, hndlen⟩ := hshFind p.1 _ hn0
    rw [hfp] at hndf
    have hpnd : p.2 = nd := Option.some.inj hndf
    subst hpnd
    refine ⟨by rw [hndlen]; exact hwf.node_len _ hmem0,
      by rw [hndl]; exact hwf.level_pos _ hmem0,
      by rw [hndl]; exact hwf.level_le _ hmem0,
      by rw [hndl]; exact hwf.level_lt _ hmem0,
      hwf.fresh_gt (p.1, n0) hmem0⟩
  have hmem_del_es : ∀ x ∈ delEntries es k, x ∈ es ∧ ¬x = e := by
    intro x hx
    rw [hD] at hx
    rcases List.mem_append.mp hx with hx | hx
    · refine ⟨by rw [hAB]; exact List.mem_append_left _ hx, ?_⟩
      intro hc
      have := hA x hx
      rw [hc, hek] at this
      exact lt_irrefl k this
    · refine ⟨by rw [hAB]; exact List.mem_append_right _ (List.mem_cons_of_mem _ hx), ?_⟩
      intro hc
      have := hB x hx
      rw [hc, hek] at this
      exact lt_irrefl k this
  have hmem_del_id : ∀ x ∈ delEntries es k, ¬x.id = e.id := by
    intro x hx hc
    obtain ⟨hxes, hxe⟩ := hmem_del_es x hx
    exact hxe (hwf.id_inj hxes he hc)
  constructor
  case head_len =>
    show tf.headNext.length = tf.max_level
    rw [hshH, hshMax]
    exact hwf.head_len
  case node_len =>
    intro p hp
    show p.2.next.length = tf.max_level
    rw [hshMax]
    exact (hmemf p (mem_eraseNode hp)).1
  case level_pos =>
    intro p hp
    exact (hmemf p (mem_eraseNode hp)).2.1
  case level_le =>
    intro p hp
    show p.2.level ≤ tf.level
    rw [hshLvl]
    exact (hmemf p (mem_eraseNode hp)).2.2.1
  case level_lt =>
    intro p hp
    show p.2.level < tf.max_level
    rw [hshMax]
    exact (hmemf p (mem_eraseNode hp)).2.2.2.1
  case fresh_gt =>
    intro p hp
    show p.1 < tf.fresh
    rw [hshFresh]
    exact (hmemf p (mem_eraseNode hp)).2.2.2.2
  case nodup =>
    show ((eraseNode tf.nodes e.id).map Prod.fst).Nodup
    rw [map_fst_eraseNode]
    exact htfnodup.filter _
  case lvl_le =>
    show tf.level ≤ tf.max_level
    rw [hshLvl, hshMax]
    exact hwf.lvl_le
  case entries =>
    intro x hx
    obtain ⟨hxes, _⟩ := hmem_del_es x hx
    obtain ⟨nx0, hf0⟩ := entryAt_of_sameShape
      ⟨hshH, hshIds, hshFind, hshFresh, hshLen, hshLvl, hshMax⟩ (hwf.entries x hxes)
    refine ⟨nx0, ?_⟩
    show findNode (eraseNode tf.nodes e.id) x.id = _
    rw [findNode_eraseNode_ne (hmem_del_id x hx)]
    exact hf0
  case ids =>
    show ((delEntries es k).map Entry.id).Perm ((eraseNode tf.nodes e.id).map Prod.fst)
    rw [map_fst_eraseNode, hshIds]
    have h1 : (es.map Entry.id).filter (fun y => y != e.id) =
        A.map Entry.id ++ B.map Entry.id := by
      have hnd : (A.map Entry.id ++ e.id :: B.map Entry.id).Nodup := by
        have hnd0 := hwf.es_ids_nodup
        rw [hAB, List.map_append, List.map_cons] at hnd0
        exact hnd0
      rw [hAB, List.map_append, List.map_cons]
      exact filter_ne_of_nodup hnd
    have h2 : ((delEntries es k).map Entry.id) =
        (es.map Entry.id).filter fun y => y != e.id := by
      rw [hD, List.map_append, h1]
    rw [h2]
    exact hwf.ids.filter _
  case len_eq =>
    show tf.len - 1 = (delEntries es k).length
    have hlen1 : es.length = A.length + (B.length + 1) := by
      rw [hAB]
      simp
    have hlen2 : (delEntries es k).length = A.length + B.length := by
      rw [hD]
      simp
    rw [hshLen, hwf.len_eq, hlen1, hlen2]
    omega
  case sorted =>
    apply hwf.sorted.sublist
    rw [hD, hAB]
    exact (List.sublist_cons_self e B).append_left A
  case chains =>
    intro l hl
    have hlm : l < s.max_level := by
      rw [show ({ tf with nodes := eraseNode tf.nodes e.id, len := tf.len - 1 } :
        SkipList K V).max_level = tf.max_level from rfl, hshMax] at hl
      exact hl
    have hcong : ∀ q, (q = (none : Option Nat) ∨
        ∃ i ∈ (chainEs (delEntries es k) l).map Entry.id, q = some i) →
        nextAt { tf with nodes := eraseNode tf.nodes e.id, len := tf.len - 1 } q l =
          nextAt tf q l := by
      intro q hq
      rcases hq with rfl | ⟨i, hi, rfl⟩
      · rfl
      · obtain ⟨x, hx, rfl⟩ := List.mem_map.mp hi
        have hxdel : x ∈ delEntries es k := (chainEs_sublist _ _).mem hx
        show (findNode (eraseNode tf.nodes e.id) x.id).bind _ =
          (findNode tf.nodes x.id).bind _
        rw [findNode_eraseNode_ne (hmem_del_id x hxdel)]
    by_cases hle : l < e.level
    · exact isChain_congr hcong (hlow l hle)
    · have heq : chainEs (delEntries es k) l = chainEs es l := by
        rw [hD, hAB]
        unfold chainEs
        rw [List.filter_append, List.filter_append, List.filter_cons,
          if_neg (by simpa using hle)]
      rw [heq] at hcong ⊢
      exact isChain_congr hcong (hhigh l (not_lt.mp hle) hlm)

/-- The complete present-key path of `delete` on a well-formed list: it never
panics, returns the stored value, removes exactly the matching entry,
decrements `len`, and leaves `level`, `max_level` and `fresh` unchanged. -/
theorem delete_present_spec {K V : Type} [LinearOrder K] {s : SkipList K V}
    {es : List (Entry K V)} (hwf : WFc s es) {k : K} {e : Entry K V}
    (he : e ∈ es) (hek : e.key = k) :
    ∃ s', s.delete k = some (some e.value, s') ∧ WFc s' (delEntries es k) ∧
      s'.len = s.len - 1 ∧ s'.max_level = s.max_level ∧ s'.level = s.level ∧
      s'.fresh = s.fresh := by
  have h1lvl : 1 ≤ s.level := le_trans (hwf.entry_level_pos he) (hwf.entry_level_le he)
  have hloop : deleteLoop s k s.level none (List.replicate s.max_level none) none =
      some (updArr es k s.max_level s.level 0, some e.id) := by
    have h0 := deleteLoop_present hwf he hek s.level h1lvl (le_refl _) none
    rw [hwf.predPos_top k (le_refl _), updArr_init] at h0
    exact h0
  obtain ⟨nx, hfind⟩ := hwf.entries e he
  have hargs : (updArr es k s.max_level s.level 0).enum.take e.level =
      (List.range e.level).map fun i => (i, some (predPos es k i)) :=
    del_args_eq hwf k (hwf.entry_level_le he)
  obtain ⟨tf, hrun, hshf, hhighf, hlowf⟩ := unlinkLoop_spec hwf he hek e.level 0 s
    (by omega) (sameShape_refl s) (fun l _ hm => hwf.chains l hm)
    (fun l hl => absurd hl (by omega))
  have hrun' : unlinkList e.id s
      ((updArr es k s.max_level s.level 0).enum.take e.level) = some tf := by
    rw [hargs, List.range_eq_range']
    exact hrun
  refine ⟨{ tf with nodes := eraseNode tf.nodes e.id, len := tf.len - 1 }, ?_,
    wfc_delete hwf he hek hshf hhighf hlowf, ?_, ?_, ?_, ?_⟩
  · unfold SkipList.delete
    rw [hloop]
    show (match findNode s.nodes e.id with
      | none => none
      | some n =>
        match unlinkList e.id s ((updArr es k s.max_level s.level 0).enum.take n.level) with
        | none => none
        | some s1 =>
          some (some n.value,
            { s1 with nodes := eraseNode s1.nodes e.id, len := s1.len - 1 })) = _
    rw [hfind]
    show (match unlinkList e.id s
        ((updArr es k s.max_level s.level 0).enum.take e.level) with
      | none => none
      | some s1 =>
        some (some e.value,
          { s1 with nodes := eraseNode s1.nodes e.id, len := s1.len - 1 })) = _
    rw [hrun']
  · show tf.len - 1 = s.len - 1
    rw [hshf.2.2.2.2.1]
  · exact hshf.2.2.2.2.2.2
  · exact hshf.2.2.2.2.2.1
  · exact hshf.2.2.2.1

/-! ## Iteration -/

theorem mapM_pairs {K V : Type} {s : SkipList K V} :
    ∀ {es : List (Entry K V)}, (∀ e ∈ es, entryAt s e) →
      (es.map Entry.id).mapM (fun i => (findNode s.nodes i).map fun n =>
        (n.key, n.value)) = some (pairsOf es) := by
  intro es
  induction es with
  | nil =>
    intro _
    rfl
  | cons e t ih =>
    intro h
    obtain ⟨nx, hf⟩ := h e (List.mem_cons_self _ _)
    have hih := ih fun x hx => h x (List.mem_cons_of_mem _ hx)
    rw [List.map_cons]
    rw [List.mapM_cons]
    rw [hf, hih]
    rfl

theorem WFc.chainEs_zero {K V : Type} [LinearOrder K] {s : SkipList K V}
    {es : List (Entry K V)} (hwf : WFc s es) : chainEs es 0 = es := by
  unfold chainEs
  apply List.filter_eq_self.mpr
  intro e he
  simpa using hwf.entry_level_pos he

theorem chain_zero_eq {K V : Type} [LinearOrder K] {s : SkipList K V}
    {es : List (Entry K V)} (hwf : WFc s es) (hm : 1 ≤ s.max_level) :
    chain s 0 = some (es.map Entry.id) := by
  have hchain : IsChain s 0 none ((chainEs es 0).map Entry.id) :=
    hwf.chains 0 (by omega)
  rw [hwf.chainEs_zero] at hchain
  have hlen : (es.map Entry.id).length < s.nodes.length + 1 := by
    rw [List.length_map, hwf.es_length]
    omega
  exact chainF_of_isChain hchain hlen

/-- Refinement of `iter`: on a well-formed list with at least one level it
never panics and yields exactly the live key/value pairs in entry order. -/
theorem iter_spec {K V : Type} [LinearOrder K] {s : SkipList K V}
    {es : List (Entry K V)} (hwf : WFc s es) (hm : 1 ≤ s.max_level) :
    s.iter = some (pairsOf es) := by
  unfold SkipList.iter
  rw [chain_zero_eq hwf hm]
  show (es.map Entry.id).mapM _ = _
  exact mapM_pairs hwf.entries

/-- Refinement of `into_iter`: on a well-formed list with at least one level it
never panics, yields exactly the live pairs in order, and the residual
container it leaves behind frees nothing during teardown. -/
theorem into_iter_spec {K V : Type} [LinearOrder K] {s : SkipList K V}
    {es : List (Entry K V)} (hwf : WFc s es) (hm : 1 ≤ s.max_level) :
    ∃ s', s.into_iter = some (pairsOf es, s') ∧ s'.dropFreed = some [] := by
  have hlen : 0 < s.headNext.length := by
    rw [hwf.head_len]
    omega
  obtain ⟨x, hx⟩ : ∃ x, s.headNext.get? 0 = some x := by
    rw [List.get?_eq_getElem?]
    exact ⟨_, List.getElem?_eq_getElem hlen⟩
  refine ⟨{ s with headNext := s.headNext.set 0 none }, ?_, ?_⟩
  · unfold SkipList.into_iter
    rw [hx]
    show (s.iter).map _ = _
    rw [iter_spec hwf hm]
    rfl
  · show chain { s with headNext := s.headNext.set 0 none } 0 = some []
    unfold chain
    show chainF _ 0 (s.nodes.length + 1) none = some []
    simp only [chainF]
    have hread : nextAt { s with headNext := s.headNext.set 0 none } none 0 =
        some none := by
      show (s.headNext.set 0 none).get? 0 = some none
      rw [List.get?_eq_getElem?]
      rw [List.getElem?_set_self']
      rw [List.getElem?_eq_getElem hlen]
      rfl
    rw [hread]

/-! ## Reachable states are well formed -/

theorem wfc_new (K V : Type) [LinearOrder K] (m : Nat) :
    WFc (SkipList.new K V m) [] := by
  constructor
  case head_len => simp [SkipList.new]
  case node_len =>
    intro p hp
    exact absurd hp (List.not_mem_nil p)
  case level_pos =>
    intro p hp
    exact absurd hp (List.not_mem_nil p)
  case level_le =>
    intro p hp
    exact absurd hp (List.not_mem_nil p)
  case level_lt =>
    intro p hp
    exact absurd hp (List.not_mem_nil p)
  case fresh_gt =>
    intro p hp
    exact absurd hp (List.not_mem_nil p)
  case nodup => exact List.nodup_nil
  case lvl_le => exact Nat.zero_le m
  case entries =>
    intro e he
    exact absurd he (List.not_mem_nil e)
  case ids => exact List.Perm.refl []
  case len_eq => rfl
  case sorted => exact List.Pairwise.nil
  case chains =>
    intro l hl
    show nextAt (SkipList.new K V m) none l = some none
    show (List.replicate m none).get? l = some none
    rw [List.get?_eq_getElem?, List.getElem?_replicate,
      if_pos (show l < m from hl)]

theorem insert_small_none {K V : Type} [LinearOrder K] {s : SkipList K V}
    {es : List (Entry K V)} (hwf : WFc s es) {k : K}
    (hk : ∀ e ∈ es, ¬e.key = k) (hm : s.max_level ≤ 1) (v : V) (r : Nat) :
    s.insert k v r = none := by
  have hloop : insertLoop s k s.level none (List.replicate s.max_level none) =
      some (.missing (updArr es k s.max_level s.level 0)) := by
    have h0 := insertLoop_missing hwf hk s.level (le_refl _)
    rw [hwf.predPos_top k (le_refl _), updArr_init] at h0
    exact h0
  rw [insert_eq_missing hloop]
  unfold insertMissing
  have hrl : s.random_level r = none := by
    unfold SkipList.random_level
    rw [if_pos hm]
  rw [hrl]

theorem reach_wf {K V : Type} [LinearOrder K] {s : SkipList K V} (h : Reach s) :
    WF s := by
  induction h with
  | init m => exact ⟨[], wfc_new K V m⟩
  | @ins s1 s2 k v r o hr hins ih =>
    obtain ⟨es, hwf⟩ := ih
    by_cases hk : ∃ e ∈ es, e.key = k
    · obtain ⟨e, he, hek⟩ := hk
      obtain ⟨nx, hfind, hres⟩ := insert_update_spec hwf he hek v r
      rw [hres] at hins
      obtain ⟨h1, h2⟩ := Prod.mk.inj (Option.some.inj hins)
      exact ⟨_, h2 ▸ wfc_insert_update hwf he v hfind⟩
    · push_neg at hk
      by_cases hm : 2 ≤ s1.max_level
      · obtain ⟨s'', lvl, hres, _, _, hwf', _, _, _, _⟩ := insert_new_spec hwf hk v r hm
        rw [hres] at hins
        obtain ⟨h1, h2⟩ := Prod.mk.inj (Option.some.inj hins)
        exact ⟨_, h2 ▸ hwf'⟩
      · have hnone : s1.insert k v r = none := insert_small_none hwf hk (by omega) v r
        rw [hnone] at hins
        exact absurd hins (by simp)
  | @del s1 s2 k o hr hdel ih =>
    obtain ⟨es, hwf⟩ := ih
    by_cases hk : ∃ e ∈ es, e.key = k
    · obtain ⟨e, he, hek⟩ := hk
      obtain ⟨s'', hres, hwf', _, _, _, _⟩ := delete_present_spec hwf he hek
      rw [hres] at hdel
      obtain ⟨h1, h2⟩ := Prod.mk.inj (Option.some.inj hdel)
      exact ⟨_, h2 ▸ hwf'⟩
    · push_neg at hk
      have hres := delete_absent_spec hwf hk
      rw [hres] at hdel
      obtain ⟨h1, h2⟩ := Prod.mk.inj (Option.some.inj hdel)
      exact ⟨es, h2 ▸ hwf⟩

/-! ## The abstract map view -/

/-- The value stored under key `k` in the entry list (the abstract sorted-map
view of the container). -/
def valAt {K V : Type} [LinearOrder K] (es : List (Entry K V)) (k : K) : Option V :=
  (es.find? fun e => e.key = k).map Entry.value

theorem get_valAt {K V : Type} [LinearOrder K] {s : SkipList K V}
    {es : List (Entry K V)} (hwf : WFc s es) (k : K) :
    s.get k = some (valAt es k) := by
  rw [get_spec hwf k, find?_pairsOf]
  rfl

theorem valAt_present {K V : Type} [LinearOrder K] {es : List (Entry K V)}
    (hs : es.Pairwise fun a b => a.key < b.key) {e : Entry K V} (he : e ∈ es)
    {k : K} (hek : e.key = k) : valAt es k = some e.value := by
  unfold valAt
  cases hf : es.find? fun e => e.key = k with
  | none =>
    have := List.find?_eq_none.mp hf e he
    simp [hek] at this
  | some x =>
    have hx : x ∈ es := List.mem_of_find?_eq_some hf
    have hxk : x.key = k := by simpa using List.find?_some hf
    have hxe : x = e := sorted_key_inj hs hx he (hxk.trans hek.symm)
    rw [hxe]
    rfl

theorem valAt_absent {K V : Type} [LinearOrder K] {es : List (Entry K V)}
    {k : K} (hk : ∀ e ∈ es, ¬e.key = k) : valAt es k = none := by
  unfold valAt
  rw [List.find?_eq_none.mpr]
  · rfl
  · intro x hx
    simpa using hk x hx

theorem valAt_update {K V : Type} [LinearOrder K] {s : SkipList K V}
    {es : List (Entry K V)} (hwf : WFc s es) {e : Entry K V} (he : e ∈ es)
    {k₀ : K} (hek : e.key = k₀) (v₀ : V) (k : K) :
    valAt (es.map fun x => if x.id = e.id then { x with value := v₀ } else x) k =
      if k = k₀ then some v₀ else valAt es k := by
  unfold valAt
  rw [List.find?_map]
  have hpred : ((fun x : Entry K V => decide (x.key = k)) ∘
      fun x => if x.id = e.id then { x with value := v₀ } else x) =
      fun x : Entry K V => decide (x.key = k) := by
    funext x
    show decide ((if x.id = e.id then ({ x with value := v₀ } : Entry K V) else x).key
      = k) = _
    by_cases h : x.id = e.id
    · rw [if_pos h]
    · rw [if_neg h]
  rw [hpred]
  by_cases hk : k = k₀
  · subst hk
    have hf : es.find? (fun x : Entry K V => decide (x.key = k)) = some e := by
      cases hf : es.find? fun x : Entry K V => decide (x.key = k) with
      | none =>
        have := List.find?_eq_none.mp hf e he
        simp [hek] at this
      | some x =>
        have hx : x ∈ es := List.mem_of_find?_eq_some hf
        have hxk : x.key = k := by simpa using List.find?_some hf
        rw [sorted_key_inj hwf.sorted hx he (hxk.trans hek.symm)]
    rw [hf, if_pos rfl]
    simp
  · rw [if_neg hk]
    cases hf : es.find? fun x : Entry K V => decide (x.key = k) with
    | none => rfl
    | some x =>
      have hx : x ∈ es := List.mem_of_find?_eq_some hf
      have hxk : x.key = k := by simpa using List.find?_some hf
      have hxid : ¬x.id = e.id := by
        intro hc
        have hxe : x = e := hwf.id_inj hx he hc
        rw [hxe] at hxk
        exact hk ((hek.symm.trans hxk).symm)
      simp only [Option.map_some']
      rw [if_neg hxid]

theorem valAt_new {K V : Type} [LinearOrder K] {es : List (Entry K V)}
    (hs : es.Pairwise fun a b => a.key < b.key) {k₀ : K}
    (hk : ∀ e ∈ es, ¬e.key = k₀) (v₀ : V) (f lvl : Nat) (k : K) :
    valAt (newEntries es k₀ v₀ f lvl) k = if k = k₀ then some v₀ else valAt es k := by
  obtain ⟨A, B, hAB, hA, hB, hAd, hBd⟩ := exists_split_absent hs hk
  have hnewE : newEntries es k₀ v₀ f lvl =
      A ++ (⟨f, k₀, v₀, lvl⟩ : Entry K V) :: B := by
    unfold newEntries
    rw [← hAd, ← hBd]
  unfold valAt
  rw [hnewE, List.find?_append]
  by_cases hkk : k = k₀
  · subst hkk
    have hAnone : A.find? (fun x : Entry K V => decide (x.key = k)) = none := by
      apply List.find?_eq_none.mpr
      intro x hx
      simpa using ne_of_lt (hA x hx)
    rw [hAnone, List.find?_cons_of_pos _ (by simp), if_pos rfl]
    rfl
  · rw [if_neg hkk, hAB, List.find?_append,
      List.find?_cons_of_neg _ (by simpa using fun hc => hkk hc.symm)]

theorem valAt_del {K V : Type} [LinearOrder K] {es : List (Entry K V)}
    (hs : es.Pairwise fun a b => a.key < b.key) {e : Entry K V} (he : e ∈ es)
    {k₀ : K} (hek : e.key = k₀) (k : K) :
    valAt (delEntries es k₀) k = if k = k₀ then none else valAt es k := by
  obtain ⟨A, B, hAB, hA, hB, hD⟩ := exists_split_present hs he hek
  unfold valAt
  rw [hD, List.find?_append]
  by_cases hkk : k = k₀
  · subst hkk
    rw [if_pos rfl]
    have hAn : A.find? (fun x : Entry K V => decide (x.key = k)) = none := by
      apply List.find?_eq_none.mpr
      intro x hx
      simpa using ne_of_lt (hA x hx)
    have hBn : B.find? (fun x : Entry K V => decide (x.key = k)) = none := by
      apply List.find?_eq_none.mpr
      intro x hx
      simpa using ne_of_gt (hB x hx)
    rw [hAn, hBn]
    rfl
  · rw [if_neg hkk, hAB, List.find?_append, List.find?_cons_of_neg]
    have : ¬e.key = k := by
      rw [hek]
      exact fun hc => hkk hc.symm
    simpa using this

/-- One `insert` call on a well-formed list with capacity at least two: it
never panics, returns the previously stored value, and afterwards the abstract
map holds `v₀` under `k₀` and is unchanged elsewhere. -/
theorem insert_valAt {K V : Type} [LinearOrder K] {s : SkipList K V}
    {es : List (Entry K V)} (hwf : WFc s es) (hm : 2 ≤ s.max_level)
    (k₀ : K) (v₀ : V) (r : Nat) :
    ∃ s' es', s.insert k₀ v₀ r = some (valAt es k₀, s') ∧ WFc s' es' ∧
      s'.max_level = s.max_level ∧
      ∀ k, valAt es' k = if k = k₀ then some v₀ else valAt es k := by
  by_cases hk : ∃ e ∈ es, e.key = k₀
  · obtain ⟨e, he, hek⟩ := hk
    obtain ⟨nx, hfind, hres⟩ := insert_update_spec hwf he hek v₀ r
    refine ⟨_, _, ?_, wfc_insert_update hwf he v₀ hfind, rfl,
      valAt_update hwf he hek v₀⟩
    rw [hres, valAt_present hwf.sorted he hek]
  · push_neg at hk
    obtain ⟨s', lvl, hres, hl1, hlm, hwf', hlen, hml, hlvl, hfr⟩ :=
      insert_new_spec hwf hk v₀ r hm
    refine ⟨s', _, ?_, hwf', hml, valAt_new hwf.sorted hk v₀ s.fresh lvl⟩
    rw [hres, valAt_absent hk]

/-- One `delete` call on a well-formed list: it never panics, returns the
previously stored value, and afterwards the abstract map has no entry under
`k₀` and is unchanged elsewhere. -/
theorem delete_valAt {K V : Type} [LinearOrder K] {s : SkipList K V}
    {es : List (Entry K V)} (hwf : WFc s es) (k₀ : K) :
    ∃ s' es', s.delete k₀ = some (valAt es k₀, s') ∧ WFc s' es' ∧
      s'.max_level = s.max_level ∧
      ∀ k, valAt es' k = if k = k₀ then none else valAt es k := by
  by_cases hk : ∃ e ∈ es, e.key = k₀
  · obtain ⟨e, he, hek⟩ := hk
    obtain ⟨s', hres, hwf', hlen, hml, hlvl, hfr⟩ := delete_present_spec hwf he hek
    refine ⟨s', _, ?_, hwf', hml, valAt_del hwf.sorted he hek⟩
    rw [hres, valAt_present hwf.sorted he hek]
  · push_neg at hk
    refine ⟨s, es, ?_, hwf, rfl, ?_⟩
    · rw [delete_absent_spec hwf hk, valAt_absent hk]
    · intro k
      by_cases hkk : k = k₀
      · subst hkk
        rw [if_pos rfl, valAt_absent hk]
      · rw [if_neg hkk]

/-- Two strictly sorted entry lists with the same abstract lookup function
yield the same key/value sequence. -/
theorem pairs_ext {K V : Type} [LinearOrder K] :
    ∀ {es₁ es₂ : List (Entry K V)},
      es₁.Pairwise (fun a b => a.key < b.key) →
      es₂.Pairwise (fun a b => a.key < b.key) →
      (∀ k, valAt es₁ k = valAt es₂ k) → pairsOf es₁ = pairsOf es₂ := by
  intro es₁
  induction es₁ with
  | nil =>
    intro es₂ _ hs₂ hv
    cases es₂ with
    | nil => rfl
    | cons e₂ t₂ =>
      have h := hv e₂.key
      rw [valAt_absent fun x hx => absurd hx (List.not_mem_nil x),
        valAt_present hs₂ (List.mem_cons_self _ _) rfl] at h
      exact absurd h (by simp)
  | cons e₁ t₁ ih =>
    intro es₂ hs₁ hs₂ hv
    cases es₂ with
    | nil =>
      have h := hv e₁.key
      rw [valAt_present hs₁ (List.mem_cons_self _ _) rfl,
        valAt_absent fun x hx => absurd hx (List.not_mem_nil x)] at h
      exact absurd h (by simp)
    | cons e₂ t₂ =>
      have hkeq : e₁.key = e₂.key := by
        by_contra hne
        rcases lt_or_gt_of_ne hne with hlt | hgt
        · have h := hv e₁.key
          rw [valAt_present hs₁ (List.mem_cons_self _ _) rfl] at h
          have habs : ∀ x ∈ e₂ :: t₂, ¬x.key = e₁.key := by
            intro x hx hc
            rcases List.mem_cons.mp hx with rfl | hx
            · exact absurd hc.symm (ne_of_lt hlt)
            · have hxx := (List.pairwise_cons.mp hs₂).1 x hx
              rw [hc] at hxx
              exact absurd (lt_trans hlt hxx) (lt_irrefl _)
          rw [valAt_absent habs] at h
          exact absurd h (by simp)
        · have h := hv e₂.key
          rw [valAt_present hs₂ (List.mem_cons_self _ _) rfl] at h
          have habs : ∀ x ∈ e₁ :: t₁, ¬x.key = e₂.key := by
            intro x hx hc
            rcases List.mem_cons.mp hx with rfl | hx
            · exact absurd hc.symm (ne_of_lt hgt)
            · have hxx := (List.pairwise_cons.mp hs₁).1 x hx
              rw [hc] at hxx
              exact absurd (lt_trans hgt hxx) (lt_irrefl _)
          rw [valAt_absent habs] at h
          exact absurd h.symm (by simp)
      have hveq : e₁.value = e₂.value := by
        have h := hv e₁.key
        rw [valAt_present hs₁ (List.mem_cons_self _ _) rfl,
          valAt_present hs₂ (List.mem_cons_self _ _) hkeq.symm] at h
        exact Option.some.inj h
      have hvt : ∀ k, valAt t₁ k = valAt t₂ k := by
        intro k
        by_cases hke : k = e₁.key
        · subst hke
          rw [valAt_absent, valAt_absent]
          · intro x hx hc
            have hxx := (List.pairwise_cons.mp hs₂).1 x hx
            rw [hc, hkeq] at hxx
            exact lt_irrefl _ hxx
          · intro x hx hc
            have hxx := (List.pairwise_cons.mp hs₁).1 x hx
            rw [hc] at hxx
            exact lt_irrefl _ hxx
        · have h := hv k
          unfold valAt at h ⊢
          rw [List.find?_cons_of_neg _ (by simpa using fun hc => hke hc.symm),
            List.find?_cons_of_neg _
              (by simpa using fun hc => hke (hkeq.trans hc).symm)] at h
          exact h
      show pairsOf (e₁ :: t₁) = pairsOf (e₂ :: t₂)
      unfold pairsOf
      rw [List.map_cons, List.map_cons, hkeq, hveq]
      have ht := ih (List.pairwise_cons.mp hs₁).2 (List.pairwise_cons.mp hs₂).2 hvt
      unfold pairsOf at ht
      rw [ht]

/-! ## Draw independence -/

theorem iter_none_of_zero {K V : Type} [LinearOrder K] {s : SkipList K V}
    {es : List (Entry K V)} (hwf : WFc s es) (h0 : s.max_level = 0) :
    s.iter = none := by
  have hnone : nextAt s none 0 = none := by
    show s.headNext.get? 0 = none
    rw [List.get?_eq_getElem?]
    apply List.getElem?_eq_none
    rw [hwf.head_len, h0]
  show (chainF s 0 (s.nodes.length + 1) none).bind _ = none
  simp only [chainF]
  rw [hnone]
  rfl

theorem into_iter_none_of_zero {K V : Type} [LinearOrder K] {s : SkipList K V}
    {es : List (Entry K V)} (hwf : WFc s es) (h0 : s.max_level = 0) :
    s.into_iter = none := by
  have hnone : s.headNext.get? 0 = none := by
    rw [List.get?_eq_getElem?]
    apply List.getElem?_eq_none
    rw [hwf.head_len, h0]
  unfold SkipList.into_iter
  rw [hnone]

theorem runOp_bisim {K V : Type} [LinearOrder K] {s₁ s₂ : SkipList K V}
    {es₁ es₂ : List (Entry K V)} (hwf₁ : WFc s₁ es₁) (hwf₂ : WFc s₂ es₂)
    (hv : ∀ k, valAt es₁ k = valAt es₂ k) (hm : s₁.max_level = s₂.max_level)
    (op : Op K V) (r₁ r₂ : Nat) :
    (runOp s₁ (op, r₁) = none ∧ runOp s₂ (op, r₂) = none) ∨
    ∃ o t₁ t₂ fs₁ fs₂, runOp s₁ (op, r₁) = some (o, t₁) ∧
      runOp s₂ (op, r₂) = some (o, t₂) ∧ WFc t₁ fs₁ ∧ WFc t₂ fs₂ ∧
      (∀ k, valAt fs₁ k = valAt fs₂ k) ∧ t₁.max_level = t₂.max_level := by
  cases op with
  | ins k₀ v₀ =>
    by_cases hk : ∃ e ∈ es₁, e.key = k₀
    · obtain ⟨e₁, he₁, hek₁⟩ := hk
      have hv₀ := hv k₀
      rw [valAt_present hwf₁.sorted he₁ hek₁] at hv₀
      have hpres₂ : ∃ e₂, e₂ ∈ es₂ ∧ e₂.key = k₀ ∧ e₂.value = e₁.value := by
        unfold valAt at hv₀
        cases hf : es₂.find? fun x : Entry K V => decide (x.key = k₀) with
        | none =>
          rw [hf] at hv₀
          exact absurd hv₀ (by simp)
        | some x =>
          rw [hf] at hv₀
          exact ⟨x, List.mem_of_find?_eq_some hf, by simpa using List.find?_some hf,
            (Option.some.inj hv₀).symm⟩
      obtain ⟨e₂, he₂, hek₂, hveq⟩ := hpres₂
      obtain ⟨nx₁, hfind₁, hres₁⟩ := insert_update_spec hwf₁ he₁ hek₁ v₀ r₁
      obtain ⟨nx₂, hfind₂, hres₂⟩ := insert_update_spec hwf₂ he₂ hek₂ v₀ r₂
      right
      refine ⟨some e₁.value, _, _, _, _, hres₁, ?_,
        wfc_insert_update hwf₁ he₁ v₀ hfind₁,
        wfc_insert_update hwf₂ he₂ v₀ hfind₂, ?_, ?_⟩
      · show s₂.insert k₀ v₀ r₂ = _
        rw [hres₂, hveq]
      · intro k
        rw [valAt_update hwf₁ he₁ hek₁ v₀ k, valAt_update hwf₂ he₂ hek₂ v₀ k, hv k]
      · exact hm
    · push_neg at hk
      have hk₂ : ∀ e ∈ es₂, ¬e.key = k₀ := by
        intro e he hek
        have h := hv k₀
        rw [valAt_absent hk, valAt_present hwf₂.sorted he hek] at h
        exact absurd h (by simp)
      by_cases hcap : 2 ≤ s₁.max_level
      · obtain ⟨t₁, lvl₁, hres₁, _, _, hwf₁', _, hml₁, _, _⟩ :=
          insert_new_spec hwf₁ hk v₀ r₁ hcap
        obtain ⟨t₂, lvl₂, hres₂, _, _, hwf₂', _, hml₂, _, _⟩ :=
          insert_new_spec hwf₂ hk₂ v₀ r₂ (hm ▸ hcap)
        right
        refine ⟨none, t₁, t₂, _, _, hres₁, hres₂, hwf₁', hwf₂', ?_, ?_⟩
        · intro k
          rw [valAt_new hwf₁.sorted hk v₀ s₁.fresh lvl₁ k,
            valAt_new hwf₂.sorted hk₂ v₀ s₂.fresh lvl₂ k, hv k]
        · rw [hml₁, hml₂, hm]
      · exact Or.inl ⟨insert_small_none hwf₁ hk (by omega) v₀ r₁,
          insert_small_none hwf₂ hk₂ (by omega) v₀ r₂⟩
  | del k₀ =>
    obtain ⟨t₁, fs₁, hres₁, hwf₁', hml₁, hva₁⟩ := delete_valAt hwf₁ k₀
    obtain ⟨t₂, fs₂, hres₂, hml₂', hml₂, hva₂⟩ := delete_valAt hwf₂ k₀
    right
    refine ⟨valAt es₁ k₀, t₁, t₂, fs₁, fs₂, hres₁, ?_, hwf₁', hml₂', ?_, ?_⟩
    · show s₂.delete k₀ = _
      rw [hres₂, ← hv k₀]
    · intro k
      rw [hva₁ k, hva₂ k, hv k]
    · rw [hml₁, hml₂, hm]

theorem runOps_bisim {K V : Type} [LinearOrder K] :
    ∀ (ops₁ ops₂ : List (Op K V × Nat)), ops₁.map Prod.fst = ops₂.map Prod.fst →
      ∀ {s₁ s₂ : SkipList K V} {es₁ es₂ : List (Entry K V)},
      WFc s₁ es₁ → WFc s₂ es₂ →
      (∀ k, valAt es₁ k = valAt es₂ k) → s₁.max_level = s₂.max_level →
      (runOps s₁ ops₁ = none ∧ runOps s₂ ops₂ = none) ∨
      ∃ out t₁ t₂ fs₁ fs₂, runOps s₁ ops₁ = some (out, t₁) ∧
        runOps s₂ ops₂ = some (out, t₂) ∧ WFc t₁ fs₁ ∧ WFc t₂ fs₂ ∧
        (∀ k, valAt fs₁ k = valAt fs₂ k) ∧ t₁.max_level = t₂.max_level := by
  intro ops₁
  induction ops₁ with
  | nil =>
    intro ops₂ hops s₁ s₂ es₁ es₂ hwf₁ hwf₂ hv hm
    cases ops₂ with
    | nil => exact Or.inr ⟨[], s₁, s₂, es₁, es₂, rfl, rfl, hwf₁, hwf₂, hv, hm⟩
    | cons _ _ => exact absurd hops (by simp)
  | cons p₁ t ih =>
    intro ops₂ hops s₁ s₂ es₁ es₂ hwf₁ hwf₂ hv hm
    cases ops₂ with
    | nil => exact absurd hops (by simp)
    | cons p₂ t2 =>
      obtain ⟨o₁, r₁⟩ := p₁
      obtain ⟨o₂, r₂⟩ := p₂
      rw [List.map_cons, List.map_cons] at hops
      obtain ⟨hop, htl⟩ := List.cons.inj hops
      have hop' : o₁ = o₂ := hop
      subst hop'
      rcases runOp_bisim hwf₁ hwf₂ hv hm o₁ r₁ r₂ with ⟨hn₁, hn₂⟩ |
        ⟨o, u₁, u₂, fs₁, fs₂, hr₁, hr₂, hwfu₁, hwfu₂, hvu, hmu⟩
      · refine Or.inl ⟨?_, ?_⟩
        · show (runOp s₁ (o₁, r₁)).bind _ = none
          rw [hn₁]
          rfl
        · show (runOp s₂ (o₁, r₂)).bind _ = none
          rw [hn₂]
          rfl
      · rcases ih t2 htl hwfu₁ hwfu₂ hvu hmu with ⟨hn₁, hn₂⟩ |
          ⟨out, w₁, w₂, gs₁, gs₂, hq₁, hq₂, hwfw₁, hwfw₂, hvw, hmw⟩
        · refine Or.inl ⟨?_, ?_⟩
          · show (runOp s₁ (o₁, r₁)).bind _ = none
            rw [hr₁]
            show (runOps u₁ t).map _ = none
            rw [hn₁]
            rfl
          · show (runOp s₂ (o₁, r₂)).bind _ = none
            rw [hr₂]
            show (runOps u₂ t2).map _ = none
            rw [hn₂]
            rfl
        · refine Or.inr ⟨o :: out, w₁, w₂, gs₁, gs₂, ?_, ?_, hwfw₁, hwfw₂, hvw, hmw⟩
          · show (runOp s₁ (o₁, r₁)).bind _ = _
            rw [hr₁]
            show (runOps u₁ t).map _ = _
            rw [hq₁]
            rfl
          · show (runOp s₂ (o₁, r₂)).bind _ = _
            rw [hr₂]
            show (runOps u₂ t2).map _ = _
            rw [hq₂]
            rfl

/-! ## Successful runs of insert sequences -/

theorem insert_valAt_of_some {K V : Type} [LinearOrder K] {s : SkipList K V}
    {es : List (Entry K V)} (hwf : WFc s es) {k₀ : K} {v₀ : V} {r : Nat}
    {o : Option V} {s' : SkipList K V} (hres : s.insert k₀ v₀ r = some (o, s')) :
    ∃ es', o = valAt es k₀ ∧ WFc s' es' ∧ s'.max_level = s.max_level ∧
      ∀ k, valAt es' k = if k = k₀ then some v₀ else valAt es k := by
  by_cases hk : ∃ e ∈ es, e.key = k₀
  · obtain ⟨e, he, hek⟩ := hk
    obtain ⟨nx, hfind, hres'⟩ := insert_update_spec hwf he hek v₀ r
    rw [hres'] at hres
    obtain ⟨h1, h2⟩ := Prod.mk.inj (Option.some.inj hres)
    refine ⟨_, ?_, h2 ▸ wfc_insert_update hwf he v₀ hfind, ?_,
      valAt_update hwf he hek v₀⟩
    · rw [← h1, valAt_present hwf.sorted he hek]
    · rw [← h2]
  · push_neg at hk
    by_cases hcap : 2 ≤ s.max_level
    · obtain ⟨s'', lvl, hres', hl1, hlm, hwf', hlen, hml, hlvl, hfr⟩ :=
        insert_new_spec hwf hk v₀ r hcap
      rw [hres'] at hres
      obtain ⟨h1, h2⟩ := Prod.mk.inj (Option.some.inj hres)
      refine ⟨_, ?_, h2 ▸ hwf', ?_, valAt_new hwf.sorted hk v₀ s.fresh lvl⟩
      · rw [← h1, valAt_absent hk]
      · rw [← h2]
        exact hml
    · rw [insert_small_none hwf hk (by omega) v₀ r] at hres
      exact absurd hres (by simp)

/-- The abstract effect of a sequence of insertions on the lookup function:
later bindings shadow earlier ones. -/
def insModel {K V : Type} [DecidableEq K] (f : K → Option V) :
    List (K × V) → K → Option V
  | [] => f
  | p :: rest => insModel (fun k => if k = p.1 then some p.2 else f k) rest

theorem insModel_congr {K V : Type} [DecidableEq K] :
    ∀ (kvs : List (K × V)) {f g : K → Option V}, (∀ k, f k = g k) →
      ∀ k, insModel f kvs k = insModel g kvs k := by
  intro kvs
  induction kvs with
  | nil =>
    intro f g h k
    exact h k
  | cons p rest ih =>
    intro f g h k
    apply ih
    intro k'
    by_cases hk : k' = p.1
    · rw [if_pos hk, if_pos hk]
    · rw [if_neg hk, if_neg hk]
      exact h k'

theorem insModel_not_mem {K V : Type} [DecidableEq K] :
    ∀ (kvs : List (K × V)) (f : K → Option V) (k : K), ¬k ∈ kvs.map Prod.fst →
      insModel f kvs k = f k := by
  intro kvs
  induction kvs with
  | nil =>
    intro f k _
    rfl
  | cons p rest ih =>
    intro f k hk
    rw [List.map_cons] at hk
    have hk1 : ¬k = p.1 := fun hc => hk (hc ▸ List.mem_cons_self _ _)
    have hk2 : ¬k ∈ rest.map Prod.fst := fun hc => hk (List.mem_cons_of_mem _ hc)
    show insModel _ rest k = f k
    rw [ih _ k hk2, if_neg hk1]

theorem insModel_mem {K V : Type} [DecidableEq K] :
    ∀ (kvs : List (K × V)), (kvs.map Prod.fst).Nodup →
      ∀ (f : K → Option V) (k : K) (v : V), (k, v) ∈ kvs →
        insModel f kvs k = some v := by
  intro kvs
  induction kvs with
  | nil =>
    intro _ f k v hm
    exact absurd hm (List.not_mem_nil _)
  | cons p rest ih =>
    intro hnd f k v hm
    rw [List.map_cons, List.nodup_cons] at hnd
    rcases List.mem_cons.mp hm with hp | hm
    · have h1 : k = p.1 := by rw [← hp]
      show insModel _ rest k = some v
      rw [insModel_not_mem rest _ k (by rw [h1]; exact hnd.1), if_pos h1, ← hp]
    · exact ih hnd.2 _ k v hm

theorem runInserts_of_some {K V : Type} [LinearOrder K] :
    ∀ (kvs : List (K × V)) (ops : List (Op K V × Nat)),
      ops.map Prod.fst = kvs.map (fun p => Op.ins p.1 p.2) →
      ∀ {s : SkipList K V} {es : List (Entry K V)} {out : List (Option V)}
        {t : SkipList K V}, WFc s es → runOps s ops = some (out, t) →
      ∃ fs, WFc t fs ∧ ∀ k, valAt fs k = insModel (valAt es) kvs k := by
  intro kvs
  induction kvs with
  | nil =>
    intro ops hops s es out t hwf hrun
    cases ops with
    | nil =>
      obtain ⟨h1, h2⟩ := Prod.mk.inj (Option.some.inj hrun)
      exact ⟨es, h2 ▸ hwf, fun k => rfl⟩
    | cons _ _ => simp at hops
  | cons p rest ih =>
    intro ops hops s es out t hwf hrun
    cases ops with
    | nil => simp at hops
    | cons op ops' =>
      obtain ⟨o₁, r₁⟩ := op
      rw [List.map_cons, List.map_cons] at hops
      obtain ⟨hop, htl⟩ := List.cons.inj hops
      have ho : o₁ = Op.ins p.1 p.2 := hop
      subst ho
      have hrun' : (s.insert p.1 p.2 r₁).bind (fun os =>
          (runOps os.2 ops').map fun osf => (os.1 :: osf.1, osf.2)) =
            some (out, t) := hrun
      cases hstep : s.insert p.1 p.2 r₁ with
      | none =>
        rw [hstep] at hrun'
        exact absurd hrun' (by simp)
      | some os =>
        rw [hstep] at hrun'
        obtain ⟨o', s'⟩ := os
        simp only [Option.some_bind] at hrun'
        cases hrest : runOps s' ops' with
        | none =>
          rw [hrest] at hrun'
          exact absurd hrun' (by simp)
        | some osf =>
          rw [hrest] at hrun'
          obtain ⟨out', t'⟩ := osf
          simp only [Option.some_bind, Option.map_some'] at hrun'
          obtain ⟨h1, h2⟩ := Prod.mk.inj (Option.some.inj hrun')
          obtain ⟨fs1, hov, hwf1, hml, hva⟩ := insert_valAt_of_some hwf hstep
          obtain ⟨fs, hwfT, hvT⟩ := ih ops' htl hwf1 hrest
          refine ⟨fs, h2 ▸ hwfT, ?_⟩
          intro k
          rw [hvT k]
          show insModel (valAt fs1) rest k = insModel (valAt es) (p :: rest) k
          exact insModel_congr rest hva k

theorem chain_eq_of_wfc {K V : Type} [LinearOrder K] {s : SkipList K V}
    {es : List (Entry K V)} (hwf : WFc s es) {l : Nat} (hl : l < s.max_level) :
    chain s l = some ((chainEs es l).map Entry.id) := by
  apply chainF_of_isChain (hwf.chains l hl)
  rw [List.length_map]
  have h1 : (chainEs es l).length ≤ es.length :=
    List.Sublist.length_le (chainEs_sublist es l)
  have h2 := hwf.es_length
  omega

/-! ## The claims -/

/-- C1: for every sequence of insert calls with distinct keys run from a fresh
list, a subsequent `get` on each inserted key returns the inserted value, and
`get` on any key never inserted returns `None` (inner `none`). -/
theorem C1_get_after_distinct_inserts {K V : Type} [LinearOrder K]
    (m : Nat) (kvs : List (K × V)) (ops : List (Op K V × Nat))
    (hops : ops.map Prod.fst = kvs.map fun p => Op.ins p.1 p.2)
    (hnd : (kvs.map Prod.fst).Nodup)
    {out : List (Option V)} {t : SkipList K V}
    (hrun : runOps (SkipList.new K V m) ops = some (out, t)) :
    (∀ p ∈ kvs, t.get p.1 = some (some p.2)) ∧
    ∀ k, ¬k ∈ kvs.map Prod.fst → t.get k = some none := by
  obtain ⟨fs, hwf, hva⟩ := runInserts_of_some kvs ops hops (wfc_new K V m) hrun
  constructor
  · intro p hp
    rw [get_valAt hwf p.1, hva p.1,
      insModel_mem kvs hnd _ p.1 p.2 (by rw [Prod.mk.eta]; exact hp)]
  · intro k hk
    rw [get_valAt hwf k, hva k, insModel_not_mem kvs _ k hk]
    rfl

theorem C1_witness :
    ({ headNext := [some 0, none], nodes := [(1, (⟨2, 20, 1, [none, none]⟩ : Node Nat Nat)), (0, (⟨1, 10, 1, [some 1, none]⟩ : Node Nat Nat))], fresh := 2, len := 2, level := 1, max_level := 2 } : SkipList Nat Nat).get 1 = some (some 10) ∧
    ({ headNext := [some 0, none], nodes := [(1, (⟨2, 20, 1, [none, none]⟩ : Node Nat Nat)), (0, (⟨1, 10, 1, [some 1, none]⟩ : Node Nat Nat))], fresh := 2, len := 2, level := 1, max_level := 2 } : SkipList Nat Nat).get 2 = some (some 20) ∧
    ({ headNext := [some 0, none], nodes := [(1, (⟨2, 20, 1, [none, none]⟩ : Node Nat Nat)), (0, (⟨1, 10, 1, [some 1, none]⟩ : Node Nat Nat))], fresh := 2, len := 2, level := 1, max_level := 2 } : SkipList Nat Nat).get 5 = some none := by
  have h := C1_get_after_distinct_inserts (K := Nat) (V := Nat) 2 [(1, 10), (2, 20)]
    [(Op.ins 1 10, 0), (Op.ins 2 20, 5)] rfl (by decide) rfl
  exact ⟨h.1 (1, 10) (by decide), h.1 (2, 20) (by decide), h.2 5 (by decide)⟩

/-- C2: on any well-formed state, re-inserting an existing key swaps the value
in place (same node identifier, key and level, same forward array, no node
added or removed, `len` unchanged) and returns the previous value; and when an
insert of an absent key returns at all, it returns `None` and increments `len`
by exactly one. -/
theorem C2_insert_contract {K V : Type} [LinearOrder K] {s : SkipList K V}
    {es : List (Entry K V)} (hwf : WFc s es) (k : K) (v : V) (r : Nat) :
    (∀ e ∈ es, e.key = k →
      ∃ nx, findNode s.nodes e.id = some ⟨e.key, e.value, e.level, nx⟩ ∧
        s.insert k v r = some (some e.value,
          { s with nodes := setNode s.nodes e.id ⟨e.key, v, e.level, nx⟩ }) ∧
        (setNode s.nodes e.id (⟨e.key, v, e.level, nx⟩ : Node K V)).length =
          s.nodes.length ∧
        (setNode s.nodes e.id (⟨e.key, v, e.level, nx⟩ : Node K V)).map Prod.fst =
          s.nodes.map Prod.fst ∧
        ({ s with nodes := setNode s.nodes e.id ⟨e.key, v, e.level, nx⟩ } :
          SkipList K V).len = s.len) ∧
    ((∀ e ∈ es, ¬e.key = k) → ∀ o s', s.insert k v r = some (o, s') →
      o = none ∧ s'.len = s.len + 1) := by
  constructor
  · intro e he hek
    obtain ⟨nx, hfind, hres⟩ := insert_update_spec hwf he hek v r
    exact ⟨nx, hfind, hres, length_setNode _ _ _, map_fst_setNode _ _ _, rfl⟩
  · intro hk o s' hres
    by_cases hcap : 2 ≤ s.max_level
    · obtain ⟨s'', lvl, hres', _, _, _, hlen, _, _, _⟩ :=
        insert_new_spec hwf hk v r hcap
      rw [hres'] at hres
      obtain ⟨h1, h2⟩ := Prod.mk.inj (Option.some.inj hres)
      exact ⟨h1.symm, by rw [← h2]; exact hlen⟩
    · rw [insert_small_none hwf hk (by omega) v r] at hres
      exact absurd hres (by simp)

theorem C2_witness :
    (SkipList.new Nat Nat 2).insert 0 5 0 = some (none,
      ({ headNext := [some 0, none], nodes := [(0, (⟨0, 5, 1, [none, none]⟩ : Node Nat Nat))], fresh := 1, len := 1, level := 1, max_level := 2 } : SkipList Nat Nat)) ∧
    ({ headNext := [some 0, none], nodes := [(0, (⟨0, 5, 1, [none, none]⟩ : Node Nat Nat))], fresh := 1, len := 1, level := 1, max_level := 2 } : SkipList Nat Nat).len =
      (SkipList.new Nat Nat 2).len + 1 := by
  have h := (C2_insert_contract (wfc_new Nat Nat 2) 0 5 0).2
    (fun e he => absurd he (List.not_mem_nil e)) none
    ({ headNext := [some 0, none], nodes := [(0, (⟨0, 5, 1, [none, none]⟩ : Node Nat Nat))], fresh := 1, len := 1, level := 1, max_level := 2 } : SkipList Nat Nat) rfl
  exact ⟨rfl, h.2⟩

/-- C3: on any well-formed state, deleting a present key returns its current
value, yields a well-formed state over the entry list with that key removed,
decrements `len` by one, makes a subsequent `get` of the key return `None`,
and removes the node from the chain of every level; deleting an absent key
returns `None` and leaves the state completely unchanged. -/
theorem C3_delete_contract {K V : Type} [LinearOrder K] {s : SkipList K V}
    {es : List (Entry K V)} (hwf : WFc s es) (k : K) :
    (∀ e ∈ es, e.key = k →
      ∃ s', s.delete k = some (some e.value, s') ∧ WFc s' (delEntries es k) ∧
        s'.len + 1 = s.len ∧ s'.get k = some none ∧
        ∀ l, l < s'.max_level → ∃ c, chain s' l = some c ∧ ¬e.id ∈ c) ∧
    ((∀ e ∈ es, ¬e.key = k) → s.delete k = some (none, s)) := by
  constructor
  · intro e he hek
    obtain ⟨s', hres, hwf', hlen, hml, hlvl, hfr⟩ := delete_present_spec hwf he hek
    refine ⟨s', hres, hwf', ?_, ?_, ?_⟩
    · have h1 : 0 < es.length := List.length_pos.mpr fun hc => by
        rw [hc] at he
        exact absurd he (List.not_mem_nil e)
      have h2 := hwf.len_eq
      omega
    · rw [get_valAt hwf' k, valAt_del hwf.sorted he hek k]
      simp
    · intro l hl
      refine ⟨(chainEs (delEntries es k) l).map Entry.id, chain_eq_of_wfc hwf' hl, ?_⟩
      intro hc
      obtain ⟨x, hx, hxid⟩ := List.mem_map.mp hc
      have hxdel : x ∈ delEntries es k := (chainEs_sublist _ _).mem hx
      obtain ⟨A, B, hAB, hA, hB, hD⟩ := exists_split_present hwf.sorted he hek
      rw [hD] at hxdel
      rcases List.mem_append.mp hxdel with hxm | hxm
      · have hxes : x ∈ es := by
          rw [hAB]
          exact List.mem_append_left _ hxm
        have hxe : x = e := hwf.id_inj hxes he hxid
        rw [hxe] at hxm
        have hlt := hA e hxm
        rw [hek] at hlt
        exact lt_irrefl k hlt
      · have hxes : x ∈ es := by
          rw [hAB]
          exact List.mem_append_right _ (List.mem_cons_of_mem _ hxm)
        have hxe : x = e := hwf.id_inj hxes he hxid
        rw [hxe] at hxm
        have hlt := hB e hxm
        rw [hek] at hlt
        exact lt_irrefl k hlt
  · intro hk
    exact delete_absent_spec hwf hk

theorem C3_witness :
    ({ headNext := [some 0, none], nodes := [(0, (⟨0, 5, 1, [none, none]⟩ : Node Nat Nat))], fresh := 1, len := 1, level := 1, max_level := 2 } : SkipList Nat Nat).delete 0 =
      some (some 5, ({ headNext := [none, none], nodes := [], fresh := 1, len := 0, level := 1, max_level := 2 } : SkipList Nat Nat)) ∧
    ({ headNext := [none, none], nodes := [], fresh := 1, len := 0, level := 1, max_level := 2 } : SkipList Nat Nat).get 0 = some none := by
  obtain ⟨s', lvl, hres, h1, hlm, hwf', _⟩ := insert_new_spec (wfc_new Nat Nat 2)
    (fun e he => absurd he (List.not_mem_nil e)) 5 0 (by decide)
  have hs : s' = ({ headNext := [some 0, none], nodes := [(0, (⟨0, 5, 1, [none, none]⟩ : Node Nat Nat))], fresh := 1, len := 1, level := 1, max_level := 2 } : SkipList Nat Nat) := by
    have h2 := hres.symm.trans (rfl : (SkipList.new Nat Nat 2).insert 0 5 0 =
      some (none, ({ headNext := [some 0, none], nodes := [(0, (⟨0, 5, 1, [none, none]⟩ : Node Nat Nat))], fresh := 1, len := 1, level := 1, max_level := 2 } : SkipList Nat Nat)))
    exact (Prod.mk.inj (Option.some.inj h2)).2
  subst hs
  obtain ⟨s₂, hdel, hwf₂, hlen, hget, hchain⟩ :=
    (C3_delete_contract hwf' 0).1 ⟨0, 0, 5, lvl⟩ (List.mem_cons_self _ _) rfl
  have hpin : s₂ = ({ headNext := [none, none], nodes := [], fresh := 1, len := 0, level := 1, max_level := 2 } : SkipList Nat Nat) := by
    have h2 := hdel.symm.trans (rfl :
      ({ headNext := [some 0, none], nodes := [(0, (⟨0, 5, 1, [none, none]⟩ : Node Nat Nat))], fresh := 1, len := 1, level := 1, max_level := 2 } : SkipList Nat Nat).delete 0 =
        some (some 5, ({ headNext := [none, none], nodes := [], fresh := 1, len := 0, level := 1, max_level := 2 } : SkipList Nat Nat)))
    exact (Prod.mk.inj (Option.some.inj h2)).2
  exact ⟨hpin ▸ hdel, hpin ▸ hget⟩

/-- C4: in every reachable state with at least one level, `iter` succeeds and
yields exactly the key/value pairs of the live entry list, with keys in
strictly increasing order. -/
theorem C4_iter_sorted_live {K V : Type} [LinearOrder K] {s : SkipList K V}
    (h : Reach s) (hm : 1 ≤ s.max_level) :
    ∃ es ps, WFc s es ∧ s.iter = some ps ∧ ps = pairsOf es ∧
      (ps.map Prod.fst).Pairwise (· < ·) := by
  obtain ⟨es, hwf⟩ := reach_wf h
  refine ⟨es, pairsOf es, hwf, iter_spec hwf hm, rfl, ?_⟩
  show ((pairsOf es).map Prod.fst).Pairwise (· < ·)
  unfold pairsOf
  rw [List.map_map]
  exact hwf.sorted.map _ fun a b hab => hab

theorem C4_witness :
    ({ headNext := [some 0, none], nodes := [(0, (⟨1, 10, 1, [none, none]⟩ : Node Nat Nat))], fresh := 1, len := 1, level := 1, max_level := 2 } : SkipList Nat Nat).iter =
      some [(1, 10)] ∧
    (([((1 : Nat), (10 : Nat))].map Prod.fst).Pairwise (· < ·)) := by
  obtain ⟨es, ps, hwf, hiter, hps, hsort⟩ := C4_iter_sorted_live
    (Reach.ins (Reach.init 2) (rfl : (SkipList.new Nat Nat 2).insert 1 10 0 =
      some (none, ({ headNext := [some 0, none], nodes := [(0, (⟨1, 10, 1, [none, none]⟩ : Node Nat Nat))], fresh := 1, len := 1, level := 1, max_level := 2 } : SkipList Nat Nat))))
    (by decide)
  have hp : ps = [(1, 10)] := Option.some.inj (hiter.symm.trans (rfl :
    ({ headNext := [some 0, none], nodes := [(0, (⟨1, 10, 1, [none, none]⟩ : Node Nat Nat))], fresh := 1, len := 1, level := 1, max_level := 2 } : SkipList Nat Nat).iter =
      some [(1, 10)]))
  exact ⟨hp ▸ hiter, hp ▸ hsort⟩

/-- C5 (amended): in every reachable state, `level` is an upper bound on the
level of every live node and is at most `max_level`; it need not equal the
maximum node level (and need not return to 0 when the list empties), because
deletion never lowers `level`. -/
theorem C5_level_upper_bound {K V : Type} [LinearOrder K] {s : SkipList K V}
    (h : Reach s) :
    s.level ≤ s.max_level ∧ ∀ p ∈ s.nodes, p.2.level ≤ s.level := by
  obtain ⟨es, hwf⟩ := reach_wf h
  exact ⟨hwf.lvl_le, hwf.level_le⟩

theorem C5_witness :
    (SkipList.new Nat Nat 3).level ≤ (SkipList.new Nat Nat 3).max_level :=
  (C5_level_upper_bound (Reach.init 3)).1

theorem C5_counterexample :
    runOps (SkipList.new Nat Nat 2) [(Op.ins 0 0, 0), (Op.del 0, 0)] =
      some ([none, some 0],
        ({ headNext := [none, none], nodes := [], fresh := 1, len := 0, level := 1, max_level := 2 } : SkipList Nat Nat)) ∧
    ({ headNext := [none, none], nodes := [], fresh := 1, len := 0, level := 1, max_level := 2 } : SkipList Nat Nat).nodes = [] ∧
    ¬({ headNext := [none, none], nodes := [], fresh := 1, len := 0, level := 1, max_level := 2 } : SkipList Nat Nat).level = 0 :=
  ⟨rfl, rfl, by decide⟩

/-- C6 (amended): constructing with `max_level = 0` is not rejected; the
resulting container is permanently empty — `get` and `delete` return `None`
without panicking and `insert` panics instead of adding an entry — but
iteration and teardown panic as well (they index `next[0]` out of bounds). -/
theorem C6_zero_capacity {K V : Type} [LinearOrder K] (k : K) (v : V) (r : Nat) :
    (SkipList.new K V 0).get k = some none ∧
    (SkipList.new K V 0).delete k = some (none, SkipList.new K V 0) ∧
    (SkipList.new K V 0).insert k v r = none ∧
    (SkipList.new K V 0).iter = none ∧
    (SkipList.new K V 0).dropFreed = none :=
  ⟨rfl, rfl, rfl, rfl, rfl⟩

theorem C6_witness :
    (SkipList.new Nat Nat 0).get 0 = some none ∧
    (SkipList.new Nat Nat 0).insert 0 0 0 = none :=
  ⟨(C6_zero_capacity 0 0 0).1, (C6_zero_capacity 0 0 0).2.2.1⟩

theorem C6_counterexample :
    (SkipList.new Nat Nat 0).iter = none ∧
    (SkipList.new Nat Nat 0).dropFreed = none ∧
    (SkipList.new Nat Nat 0).into_iter = none :=
  ⟨rfl, rfl, rfl⟩

/-- C7: with capacity at least two, `random_level` always returns a level in
`[1, max_level - 1]`; over one full period of draws every such level is hit
exactly once (a single uniform draw, not a geometric scheme); the draw depends
only on `max_level`, not on the current size or level; and every node of every
reachable state carries a level in `[1, max_level - 1]`. -/
theorem C7_random_level_uniform {K V : Type} [LinearOrder K] {s : SkipList K V}
    (hm : 2 ≤ s.max_level) :
    (∀ r, ∃ lvl, s.random_level r = some lvl ∧ 1 ≤ lvl ∧ lvl < s.max_level) ∧
    (∀ lvl, 1 ≤ lvl → lvl < s.max_level →
      ((List.range (s.max_level - 1)).filter fun r =>
        s.random_level r = some lvl).length = 1) ∧
    (∀ s' : SkipList K V, s'.max_level = s.max_level →
      ∀ r, s'.random_level r = s.random_level r) ∧
    (∀ t : SkipList K V, Reach t → ∀ p ∈ t.nodes,
      1 ≤ p.2.level ∧ p.2.level < t.max_level) := by
  refine ⟨?_, ?_, ?_, ?_⟩
  · intro r
    refine ⟨1 + r % (s.max_level - 1), ?_, by omega, ?_⟩
    · unfold SkipList.random_level
      rw [if_neg (by omega)]
    · have := Nat.mod_lt r (show 0 < s.max_level - 1 by omega)
      omega
  · intro lvl h1 hlm
    have hcong : ∀ r ∈ List.range (s.max_level - 1),
        (decide (s.random_level r = some lvl)) = (r == (lvl - 1)) := by
      intro r hr
      have hrlt : r < s.max_level - 1 := List.mem_range.mp hr
      unfold SkipList.random_level
      rw [if_neg (by omega), Nat.mod_eq_of_lt hrlt]
      by_cases hc : r = lvl - 1
      · subst hc
        simp
        omega
      · have hne : ¬1 + r = lvl := by omega
        simp [hne, hc]
    rw [List.filter_congr hcong, ← List.countP_eq_length_filter]
    show List.count (lvl - 1) (List.range (s.max_level - 1)) = 1
    rw [List.count_eq_one_of_mem (List.nodup_range _) (by simp; omega)]
  · intro s' hml r
    unfold SkipList.random_level
    rw [hml]
  · intro t ht p hp
    obtain ⟨es, hwf⟩ := reach_wf ht
    exact ⟨hwf.level_pos p hp, hwf.level_lt p hp⟩

theorem C7_witness :
    ((List.range 2).filter fun r =>
      (SkipList.new Nat Nat 3).random_level r = some 1).length = 1 ∧
    ((List.range 2).filter fun r =>
      (SkipList.new Nat Nat 3).random_level r = some 2).length = 1 :=
  ⟨(C7_random_level_uniform (K := Nat) (V := Nat) (s := SkipList.new Nat Nat 3)
      (by decide)).2.1 1 (by decide) (by decide),
    (C7_random_level_uniform (K := Nat) (V := Nat) (s := SkipList.new Nat Nat 3)
      (by decide)).2.1 2 (by decide) (by decide)⟩

/-- C8: in every reachable state with at least one level, consuming iteration
succeeds, yields exactly the live key/value pairs once each in strictly
ascending key order, detaches the chain up front, and the residual container's
teardown frees no node (no double release). -/
theorem C8_into_iter_drains_sorted {K V : Type} [LinearOrder K] {s : SkipList K V}
    (h : Reach s) (hm : 1 ≤ s.max_level) :
    ∃ es ps s', WFc s es ∧ s.into_iter = some (ps, s') ∧ ps = pairsOf es ∧
      (ps.map Prod.fst).Pairwise (· < ·) ∧ s'.dropFreed = some [] := by
  obtain ⟨es, hwf⟩ := reach_wf h
  obtain ⟨s', hio, hdrop⟩ := into_iter_spec hwf hm
  refine ⟨es, pairsOf es, s', hwf, hio, rfl, ?_, hdrop⟩
  show ((pairsOf es).map Prod.fst).Pairwise (· < ·)
  unfold pairsOf
  rw [List.map_map]
  exact hwf.sorted.map _ fun a b hab => hab

theorem C8_witness :
    (SkipList.new Nat Nat 1).into_iter = some ([], SkipList.new Nat Nat 1) ∧
    (SkipList.new Nat Nat 1).dropFreed = some [] := by
  obtain ⟨es, ps, s', hwf, hio, hps, hsort, hdrop⟩ :=
    C8_into_iter_drains_sorted (K := Nat) (V := Nat) (Reach.init 1) (by decide)
  have h2 : (ps, s') = (([] : List (Nat × Nat)), SkipList.new Nat Nat 1) := by
    apply Option.some.inj
    rw [← hio]
    rfl
  obtain ⟨hps', hs'⟩ := Prod.mk.inj h2
  constructor
  · rw [hio, hps', hs']
  · rw [← hs']
    exact hdrop

/-- C9: two runs of the same operation sequence from a fresh list that differ
only in the random draws either both panic, or return exactly the same list of
results, and end in states with identical `get` answers, identical `iter`
output and identical consuming-iteration output: the container behaves as a
deterministic sorted map independent of the draws. -/
theorem C9_draw_independence {K V : Type} [LinearOrder K] (m : Nat)
    (ops₁ ops₂ : List (Op K V × Nat))
    (hops : ops₁.map Prod.fst = ops₂.map Prod.fst) :
    (runOps (SkipList.new K V m) ops₁ = none ∧
      runOps (SkipList.new K V m) ops₂ = none) ∨
    ∃ out t₁ t₂, runOps (SkipList.new K V m) ops₁ = some (out, t₁) ∧
      runOps (SkipList.new K V m) ops₂ = some (out, t₂) ∧
      (∀ k, t₁.get k = t₂.get k) ∧ t₁.iter = t₂.iter ∧
      (t₁.into_iter).map Prod.fst = (t₂.into_iter).map Prod.fst := by
  rcases runOps_bisim ops₁ ops₂ hops (wfc_new K V m) (wfc_new K V m)
    (fun k => rfl) rfl with hnone |
    ⟨out, t₁, t₂, fs₁, fs₂, h₁, h₂, hwf₁, hwf₂, hv, hml⟩
  · exact Or.inl hnone
  · right
    refine ⟨out, t₁, t₂, h₁, h₂, ?_, ?_, ?_⟩
    · intro k
      rw [get_valAt hwf₁ k, get_valAt hwf₂ k, hv k]
    · by_cases h0 : t₁.max_level = 0
      · rw [iter_none_of_zero hwf₁ h0, iter_none_of_zero hwf₂ (hml ▸ h0)]
      · rw [iter_spec hwf₁ (by omega), iter_spec hwf₂ (by omega),
          pairs_ext hwf₁.sorted hwf₂.sorted hv]
    · by_cases h0 : t₁.max_level = 0
      · rw [into_iter_none_of_zero hwf₁ h0, into_iter_none_of_zero hwf₂ (hml ▸ h0)]
      · obtain ⟨s₁', hio₁, _⟩ := into_iter_spec hwf₁ (by omega)
        obtain ⟨s₂', hio₂, _⟩ := into_iter_spec hwf₂ (by omega)
        rw [hio₁, hio₂]
        simp only [Option.map_some']
        rw [pairs_ext hwf₁.sorted hwf₂.sorted hv]

theorem C9_witness :
    ({ headNext := [some 0, none, none], nodes := [(0, (⟨1, 10, 1, [none, none, none]⟩ : Node Nat Nat))], fresh := 1, len := 1, level := 1, max_level := 3 } : SkipList Nat Nat).iter =
      ({ headNext := [some 0, some 0, none], nodes := [(0, (⟨1, 10, 2, [none, none, none]⟩ : Node Nat Nat))], fresh := 1, len := 1, level := 2, max_level := 3 } : SkipList Nat Nat).iter ∧
    ({ headNext := [some 0, none, none], nodes := [(0, (⟨1, 10, 1, [none, none, none]⟩ : Node Nat Nat))], fresh := 1, len := 1, level := 1, max_level := 3 } : SkipList Nat Nat).get 1 =
      ({ headNext := [some 0, some 0, none], nodes := [(0, (⟨1, 10, 2, [none, none, none]⟩ : Node Nat Nat))], fresh := 1, len := 1, level := 2, max_level := 3 } : SkipList Nat Nat).get 1 := by
  rcases C9_draw_independence (K := Nat) (V := Nat) 3
    [(Op.ins 1 10, 0)] [(Op.ins 1 10, 1)] rfl with ⟨hn, _⟩ |
    ⟨out, t₁, t₂, h₁, h₂, hget, hiter, _⟩
  · have hcon : (none : Option (List (Option Nat) × SkipList Nat Nat)) =
        some ([none], ({ headNext := [some 0, none, none], nodes := [(0, (⟨1, 10, 1, [none, none, none]⟩ : Node Nat Nat))], fresh := 1, len := 1, level := 1, max_level := 3 } : SkipList Nat Nat)) := by
      rw [← hn]
      rfl
    exact absurd hcon (by simp)
  · have hp₁ : (out, t₁) = (([none] : List (Option Nat)),
        ({ headNext := [some 0, none, none], nodes := [(0, (⟨1, 10, 1, [none, none, none]⟩ : Node Nat Nat))], fresh := 1, len := 1, level := 1, max_level := 3 } : SkipList Nat Nat)) := by
      apply Option.some.inj
      rw [← h₁]
      rfl
    have hp₂ : (out, t₂) = (([none] : List (Option Nat)),
        ({ headNext := [some 0, some 0, none], nodes := [(0, (⟨1, 10, 2, [none, none, none]⟩ : Node Nat Nat))], fresh := 1, len := 1, level := 2, max_level := 3 } : SkipList Nat Nat)) := by
      apply Option.some.inj
      rw [← h₂]
      rfl
    obtain ⟨ho₁, ht₁⟩ := Prod.mk.inj hp₁
    obtain ⟨ho₂, ht₂⟩ := Prod.mk.inj hp₂
    have hiter' := hiter
    have hget' := hget 1
    rw [ht₁, ht₂] at hiter' hget'
    exact ⟨hiter', hget'⟩

/-- C10: on a list built with `new(1)` every insert of an absent key panics
(the level draw ranges over the empty interval), while `get` and `delete`
return `None` without panicking; and on any reachable state with capacity at
least two, `insert` never panics. -/
theorem C10_new_one_insert_panics {K V : Type} [LinearOrder K] :
    (∀ (k : K) (v : V) (r : Nat), (SkipList.new K V 1).insert k v r = none) ∧
    (∀ k : K, (SkipList.new K V 1).get k = some none) ∧
    (∀ k : K, (SkipList.new K V 1).delete k = some (none, SkipList.new K V 1)) ∧
    (∀ s : SkipList K V, Reach s → 2 ≤ s.max_level →
      ∀ (k : K) (v : V) (r : Nat), ¬s.insert k v r = none) := by
  refine ⟨fun k v r => rfl, fun k => rfl, fun k => rfl, ?_⟩
  intro s hre hcap k v r hc
  obtain ⟨es, hwf⟩ := reach_wf hre
  by_cases hk : ∃ e ∈ es, e.key = k
  · obtain ⟨e, he, hek⟩ := hk
    obtain ⟨nx, _, hres⟩ := insert_update_spec hwf he hek v r
    rw [hres] at hc
    exact absurd hc (by simp)
  · push_neg at hk
    obtain ⟨s', lvl, hres, _⟩ := insert_new_spec hwf hk v r hcap
    rw [hres] at hc
    exact absurd hc (by simp)

theorem C10_witness :
    (SkipList.new Nat Nat 1).insert 0 7 0 = none ∧
    (SkipList.new Nat Nat 1).get 0 = some none :=
  ⟨(C10_new_one_insert_panics (K := Nat) (V := Nat)).1 0 7 0,
    (C10_new_one_insert_panics (K := Nat) (V := Nat)).2.1 0⟩

end SkipListRs
